import Mathlib

/-!
A verification development for the convcode library (convcode.c, convcode.h,
interleave.c): a convolutional encoder, a Viterbi decoder and a block
interleaver.  The C code is shallowly embedded: machine integers become `Nat`
with explicit `% 2^32` (unsigned int) or masks (`&&& 255` for unsigned char,
`&&& 65535` for the 16-bit `convcode_state`) where C truncation matters;
arrays become `List Nat` or total functions `Nat → Nat`; `while` loops become
structural recursion on a fuel argument that provably dominates the C loop
count, so that every definition evaluates by `decide`/`rfl`.

The output callbacks (`convcode_output`) are modelled as pure collectors: each
call `output(ce, user_data, byte, nbits)` appends the pair `(byte, nbits)` to
an `emitted` list and succeeds (this is exactly what the test harness handlers
in convcode.c do).  The bit stream a caller observes is the concatenation of
the low `nbits` bits of each emitted byte, low bit first.
-/

namespace Convcode

/-- Bits of `v`, low bit first, as a list of length `n` of 0/1 values.  This is
the byte/bit convention of all public I/O of the library (low bit is the first
bit of the stream). -/
def le_bits (v n : Nat) : List Nat :=
  (List.range n).map (fun j => (v >>> j) &&& 1)

/-- Value of a low-bit-first bit list (inverse of `le_bits` on 0/1 lists). -/
def bits_val : List Nat → Nat
  | [] => 0
  | b :: r => b + 2 * bits_val r

/-- Pack a low-bit-first bit list into bytes, 8 bits per byte, as the test
harness routines (`do_encode_data`, `get_data`) do. -/
def bits_to_bytes (l : List Nat) : List Nat :=
  (List.range ((l.length + 7) / 8)).map (fun i => bits_val ((l.drop (8 * i)).take 8))

/-- Bit `p` of a byte buffer, low-bit-first within each byte. -/
def stream_bit (bytes : List Nat) (p : Nat) : Nat :=
  (bytes.getD (p / 8) 0 >>> (p % 8)) &&& 1

/-- The bit stream delivered by a sequence of output-callback invocations:
each call `(byte, nbits)` contributes its low `nbits` bits, low bit first. -/
def emitted_bits (calls : List (Nat × Nat)) : List Nat :=
  (calls.map (fun c => le_bits c.1 c.2)).flatten

/-- convcode.c `reverse_bits` loop body: `k` iterations of
`rv = (rv << 1) | (val & 1); val >>= 1`. -/
def reverse_bits_loop : Nat → Nat → Nat → Nat
  | 0, _, rv => rv
  | i + 1, val, rv => reverse_bits_loop i (val >>> 1) ((rv <<< 1) ||| (val &&& 1))

/-- convcode.c `reverse_bits`: reverse the low `k` bits of `val`. -/
def reverse_bits (k val : Nat) : Nat :=
  reverse_bits_loop k val 0

/-- convcode.c `num_bits_is_odd` loop: the C `while (v)` toggles `rv` on each
set low bit and shifts; an `unsigned int` has at most 32 bits, so 32 fuel
steps cover every C value (`1 - r` is the toggle on a 0/1 value). -/
def num_bits_is_odd_loop : Nat → Nat → Nat
  | 0, _ => 0
  | fuel + 1, v =>
    if v = 0 then 0
    else if v &&& 1 = 1 then 1 - num_bits_is_odd_loop fuel (v >>> 1)
    else num_bits_is_odd_loop fuel (v >>> 1)

/-- convcode.c `num_bits_is_odd`: 1 if the number of set bits of `v` is odd,
else 0 (`v` is an unsigned int, hence below `2^32`). -/
def num_bits_is_odd (v : Nat) : Nat :=
  num_bits_is_odd_loop 32 v

/-- convcode.c `num_bits_set` loop, with the same 32-bit fuel bound. -/
def num_bits_set_loop : Nat → Nat → Nat
  | 0, _ => 0
  | fuel + 1, v =>
    if v = 0 then 0
    else (v &&& 1) + num_bits_set_loop fuel (v >>> 1)

/-- convcode.c `num_bits_set`: population count of an unsigned int. -/
def num_bits_set (v : Nat) : Nat :=
  num_bits_set_loop 32 v

/-- The configuration part of `struct convcode` (convcode.h): everything
`setup_convcode1` fills in.  The encoder session state (`enc_state`,
`enc_out`) and the decoder session state live in `encstate` / `decstate`
below; the two sessions are independent (they only share this configuration
and the tables). -/
structure convcode where
  k : Nat
  num_polys : Nat
  polys : Nat → Nat
  num_states : Nat
  do_tail : Bool
  recursive : Bool
  uncertainty_100 : Nat
  trellis_size : Nat

/-- An all-zero `struct convcode`, the state of a codec before setup. -/
def cc_zero : convcode :=
  { k := 0, num_polys := 0, polys := fun _ => 0, num_states := 0,
    do_tail := false, recursive := false, uncertainty_100 := 0,
    trellis_size := 0 }

/-- convcode.c `setup_convcode1`.  Returns the C status int together with the
(possibly updated) structure; on a failed check the structure is returned
untouched, exactly as the C returns before its `memset`.
`CONVCODE_MAX_POLYNOMIALS = CONVCODE_MAX_K = 16`.  Note the C guard only
checks `k > CONVCODE_MAX_K`: `k = 0` passes it, after which the C computes
`1 << (k - 1)` with an underflowed (hence undefined) shift count; for `k ≥ 1`
the `Nat` expressions below agree with the C. -/
def setup_convcode1 (ce : convcode) (k : Nat) (polynomials : List Nat)
    (num_polynomials max_decode_len_bits : Nat) (do_tail recursive : Bool) :
    Nat × convcode :=
  if num_polynomials < 1 ∨ num_polynomials > 16 then (1, ce)
  else if k > 16 then (1, ce)
  else
    (0,
      { k := k
        num_states := 1 <<< (k - 1)
        do_tail := do_tail
        recursive := recursive
        uncertainty_100 := 100
        num_polys := num_polynomials
        polys := fun i => if i < num_polynomials then reverse_bits k (polynomials.getD i 0) else 0
        trellis_size := if max_decode_len_bits > 0
                        then max_decode_len_bits + k * num_polynomials else 0 })

/-- The precomputed arrays filled by `setup_convcode2`: `convert[b][s]` and
`next_state[b][s]`, indexed first by the input bit then by the state.  The C
arrays of size `num_states` are modelled as total functions; only indices
below `num_states` are ever used. -/
structure tables where
  convert : Nat → Nat → Nat
  next_state : Nat → Nat → Nat

/-- Non-recursive branch of the `setup_convcode2` state loop: cell `i` of
`convert[b]` is built by OR-ing `num_bits_is_odd(((i << 1) | b) & polys[j])`
into bit `j`, for `j` over all polynomials (for `b = 0` the C writes
`(i << 1) & polys[j]`, which equals `((i << 1) | 0) & polys[j]`). -/
def nonrec_convert (ce : convcode) (b i : Nat) : Nat :=
  (List.range ce.num_polys).foldl
    (fun acc j => acc ||| (num_bits_is_odd (((i <<< 1) ||| b) &&& ce.polys j) <<< j)) 0

/-- Recursive branch: the feedback bit `bval` of `setup_convcode2`, computed
from polynomial 0. -/
def rec_feedback (ce : convcode) (b i : Nat) : Nat :=
  num_bits_is_odd (((i <<< 1) ||| b) &&& ce.polys 0)

/-- Recursive branch of the `setup_convcode2` state loop: `convert[b][i]`
starts at `b` (the C writes `convert[0][i] = 0; convert[1][i] = 1`) and the
loop runs over `j ≥ 1` with the feedback bit shifted in. -/
def rec_convert (ce : convcode) (b i : Nat) : Nat :=
  ((List.range ce.num_polys).drop 1).foldl
    (fun acc j =>
      acc ||| (num_bits_is_odd (((i <<< 1) ||| rec_feedback ce b i) &&& ce.polys j) <<< j)) b

/-- convcode.c `setup_convcode2`: the encoder output and next-state arrays.
Each array cell is an independent function of its index, so the C fill loop
becomes a function of `(b, i)`. -/
def setup_convcode2 (ce : convcode) : tables :=
  if ¬ce.recursive then
    { convert := fun b i => nonrec_convert ce b i
      next_state := fun b i => ((i <<< 1) ||| b) &&& (ce.num_states - 1) }
  else
    { convert := fun b i => rec_convert ce b i
      next_state := fun b i => ((i <<< 1) ||| rec_feedback ce b i) &&& (ce.num_states - 1) }

/-- convcode.c `hamming_distance` loop for the soft (uncertainty) case.  `rv`
and the distances are C unsigned ints, so each accumulation is mod `2^32`;
`uncertainty_100 - uncertainty[i]` is C `int` arithmetic whose result is
converted to unsigned, i.e. `(2^32 + u100 - u) % 2^32` for the byte-sized
operands involved.  The uncertainty array is a function; `idx` tracks the C
index `i`. -/
def hamming_loop : Nat → Nat → Nat → (Nat → Nat) → Nat → Nat → Nat → Nat
  | 0, _, _, _, _, _, rv => rv
  | n + 1, v1, v2, u, idx, u100, rv =>
    hamming_loop n (v1 >>> 1) (v2 >>> 1) u (idx + 1) u100
      (if v1 &&& 1 = v2 &&& 1 then (rv + u idx) % 4294967296
       else (rv + (4294967296 + u100 - u idx) % 4294967296) % 4294967296)

/-- convcode.c `hamming_distance`: with no uncertainty array, the number of
differing bits; with one, the per-bit weighted distance over the
`num_polys` symbol bits. -/
def hamming_distance (ce : convcode) (v1 v2 : Nat) (uncertainty : Option (Nat → Nat)) : Nat :=
  match uncertainty with
  | none => num_bits_set (v1 ^^^ v2)
  | some u => hamming_loop ce.num_polys v1 v2 u 0 ce.uncertainty_100 0

/-- convcode.c `get_prev_bit`: the input bit that moves the encoder from
`pstate` to `cstate`. -/
def get_prev_bit (ce : convcode) (t : tables) (pstate cstate : Nat) : Nat :=
  if ¬ce.recursive then cstate &&& 1
  else if t.next_state 0 pstate = cstate then 0 else 1

/-- convcode.c `convcode_outdata`: the bit-packing output state.  `out_bits`
is an unsigned char (hence kept below 256).  `emitted` records the arguments
of every `output()` callback invocation, in order. -/
structure outdata where
  out_bits : Nat
  out_bit_pos : Nat
  output_symbol_size : Bool
  total_out_bits : Nat
  emitted : List (Nat × Nat)

/-- A zeroed `convcode_outdata`, as left by the reinit functions. -/
def out_init : outdata :=
  { out_bits := 0, out_bit_pos := 0, output_symbol_size := false,
    total_out_bits := 0, emitted := [] }

/-- One `output()` callback invocation (modelled as recording its arguments;
the harness handlers always return 0). -/
def output_call (of : outdata) (byte nbits : Nat) : outdata :=
  { of with emitted := of.emitted ++ [(byte, nbits)] }

/-- The `while (of->out_bit_pos + len >= 8)` loop of `output_bits`.  Each
iteration consumes `used = 8 - out_bit_pos ≥ 1` bits of `len`, so fuel
`len + 1` dominates the C loop count.  `of->out_bits = bits` stores into an
unsigned char, hence the `&&& 255`. -/
def output_bits_loop : Nat → outdata → Nat → Nat → outdata
  | 0, of, _, len =>
    if 8 ≤ of.out_bit_pos + len then of
    else { of with out_bit_pos := of.out_bit_pos + len,
                   total_out_bits := of.total_out_bits + len }
  | fuel + 1, of, bits, len =>
    if 8 ≤ of.out_bit_pos + len then
      let used := 8 - of.out_bit_pos
      let of2 := output_call of of.out_bits 8
      output_bits_loop fuel
        { of2 with total_out_bits := of2.total_out_bits + used,
                   out_bit_pos := 0,
                   out_bits := (bits >>> used) &&& 255 }
        (bits >>> used) (len - used)
    else { of with out_bit_pos := of.out_bit_pos + len,
                   total_out_bits := of.total_out_bits + len }

/-- convcode.c `output_bits`: push the low `len` bits of `bits` into the
packing state, emitting whole bytes as they fill (or, in per-symbol mode,
hand `bits`/`len` straight to the callback). -/
def output_bits (of : outdata) (bits len : Nat) : outdata :=
  if of.output_symbol_size then output_call of bits len
  else
    output_bits_loop (len + 1)
      { of with out_bits := (of.out_bits ||| (bits <<< of.out_bit_pos)) &&& 255 }
      bits len

/-- The encoder session state: `enc_state` and `enc_out` of `struct
convcode`. -/
structure encstate where
  enc_state : Nat
  enc_out : outdata

/-- convcode.c `reinit_convencode`. -/
def reinit_convencode (start_state : Nat) : encstate :=
  { enc_state := start_state, enc_out := out_init }

/-- convcode.c `encode_bit`: one input bit through the tables and out. -/
def encode_bit (ce : convcode) (t : tables) (es : encstate) (bit : Nat) : encstate :=
  { enc_state := t.next_state bit es.enc_state
    enc_out := output_bits es.enc_out (t.convert bit es.enc_state) ce.num_polys }

/-- Inner `for (j = 0; nbits > 0 && j < 8; j++)` loop of `convencode_data`:
feed up to 8 bits of one byte, low bit first.  Returns the updated state and
the remaining bit count. -/
def convencode_data_byte : Nat → convcode → tables → encstate → Nat → Nat → encstate × Nat
  | 0, _, _, es, _, nbits => (es, nbits)
  | j + 1, ce, t, es, byte, nbits =>
    if nbits = 0 then (es, nbits)
    else convencode_data_byte j ce t (encode_bit ce t es (byte &&& 1)) (byte >>> 1) (nbits - 1)

/-- convcode.c `convencode_data`: feed `nbits` bits of `bytes`, low bit of
each byte first (requires `nbits ≤ 8 * bytes.length`, as in C). -/
def convencode_data (ce : convcode) (t : tables) : encstate → List Nat → Nat → encstate
  | es, [], _ => es
  | es, byte :: rest, nbits =>
    if nbits = 0 then es
    else
      let r := convencode_data_byte 8 ce t es byte nbits
      convencode_data ce t r.1 rest r.2

/-- The `do_tail` loop of `convencode_finish`: `k - 1` zero bits. -/
def encode_tail_loop : Nat → convcode → tables → encstate → encstate
  | 0, _, _, es => es
  | n + 1, ce, t, es => encode_tail_loop n ce t (encode_bit ce t es 0)

/-- convcode.c `convencode_finish`: optional tail, flush of the partial byte,
and the reported `total_out_bits`. -/
def convencode_finish (ce : convcode) (t : tables) (es : encstate) : encstate × Nat :=
  let es2 := if ce.do_tail then encode_tail_loop (ce.k - 1) ce t es else es
  let out := if es2.enc_out.out_bit_pos > 0
             then output_call es2.enc_out es2.enc_out.out_bits es2.enc_out.out_bit_pos
             else es2.enc_out
  ({ es2 with enc_out := out }, out.total_out_bits)

/-- The decoder session state of `struct convcode`.  `trellis` is the flat
heap block (element-indexed unbounded memory); `leftover_uncertainty` is the
16-entry array, modelled as a function. -/
structure decstate where
  dec_out : outdata
  curr_path_values : List Nat
  next_path_values : List Nat
  ctrellis : Nat
  trellis : Nat → Nat
  leftover_bits : Nat
  leftover_bits_data : Nat
  leftover_uncertainty : Nat → Nat

/-- A freshly allocated decoder state (`alloc_convcode` mallocs the buffers;
their contents before `reinit` are irrelevant, zeros here). -/
def dec_alloc (ce : convcode) : decstate :=
  { dec_out := out_init
    curr_path_values := List.replicate ce.num_states 0
    next_path_values := List.replicate ce.num_states 0
    ctrellis := 0
    trellis := fun _ => 0
    leftover_bits := 0
    leftover_bits_data := 0
    leftover_uncertainty := fun _ => 0 }

/-- convcode.c `reinit_convdecode`: start-state check, path-metric reset
(`curr[start_state] = 0`, every other entry `init_other_states`), and
`ctrellis = leftover_bits = 0`.  On failure the state is untouched. -/
def reinit_convdecode (ce : convcode) (st : decstate)
    (start_state init_other_states : Nat) : Nat × decstate :=
  if ce.num_states ≤ start_state then (1, st)
  else
    (0, { st with
          dec_out := out_init
          curr_path_values :=
            (List.range ce.num_states).map
              (fun i => if i = start_state then 0 else init_other_states)
          ctrellis := 0
          leftover_bits := 0 })

/-- convcode.c `get_trellis_column`/`trellis_entry`: the flat element index of
trellis cell `(column, row)`.  The C computes
`ce->trellis + column * ce->num_states * sizeof(*ce->trellis)` with pointer
arithmetic on `convcode_state` (2 bytes), so the element offset carries the
extra factor `sizeof(*ce->trellis) = 2` on top of the intended
`column * ce->num_states`. -/
def trellis_index (ce : convcode) (column row : Nat) : Nat :=
  column * ce.num_states * 2 + row

/-- Write `val i` at address `idx i` for `i = 0 … n-1` (an array-fill loop
over unbounded memory). -/
def write_range (mem : Nat → Nat) (idx val : Nat → Nat) : Nat → (Nat → Nat)
  | 0 => mem
  | n + 1 => Function.update (write_range mem idx val n) (idx n) (val n)

/-- The per-state body of the `decode_bits` loop: predecessors
`pstate1 = i >> 1` and `pstate2 = pstate1 | (1 << (k - 2))`, their candidate
distances (unsigned int sums), and the add-compare-select choice
(`if (dist2 < dist1)` picks `pstate2`, otherwise `pstate1`).  Returns
`(chosen predecessor, chosen distance)`. -/
def acs_pred (ce : convcode) (t : tables) (curr : List Nat) (bits : Nat)
    (unc : Option (Nat → Nat)) (i : Nat) : Nat × Nat :=
  let pstate1 := i >>> 1
  let pstate2 := pstate1 ||| (1 <<< (ce.k - 2))
  let bit1 := get_prev_bit ce t pstate1 i
  let dist1 := (curr.getD pstate1 0 +
                hamming_distance ce (t.convert bit1 pstate1) bits unc) % 4294967296
  let bit2 := get_prev_bit ce t pstate2 i
  let dist2 := (curr.getD pstate2 0 +
                hamming_distance ce (t.convert bit2 pstate2) bits unc) % 4294967296
  if dist2 < dist1 then (pstate2, dist2) else (pstate1, dist1)

/-- convcode.c `decode_bits`: capacity guard, one ACS column (writing the
chosen predecessors into trellis column `ctrellis` and the chosen distances
into the next path-metric buffer), then `ctrellis++` and the ping-pong swap
of the metric buffers.  Returns the C status int with the state. -/
def decode_bits (ce : convcode) (t : tables) (st : decstate) (bits : Nat)
    (unc : Option (Nat → Nat)) : Nat × decstate :=
  if ce.trellis_size < st.ctrellis + ce.num_polys then (1, st)
  else
    let currp := st.curr_path_values
    (0, { st with
          trellis := write_range st.trellis (fun i => trellis_index ce st.ctrellis i)
                       (fun i => (acs_pred ce t currp bits unc i).1) ce.num_states
          curr_path_values :=
            (List.range ce.num_states).map (fun i => (acs_pred ce t currp bits unc i).2)
          next_path_values := currp
          ctrellis := st.ctrellis + 1 })

/-- The `while (byte_avail <= bits_left)` loop of `extract_bits`.  `off`
replaces the C `bytes++` pointer advance (the C keeps `pos` fixed), `bit` is
zeroed after the first iteration.  Each iteration consumes
`byte_avail = 8 - bit ≥ 1` of `bits_left`, so fuel `nbits` dominates the
loop count; the fuel-0 row is the after-loop partial read. -/
def extract_bits_loop : Nat → (Nat → Nat) → Nat → Nat → Nat → Nat → Nat → Nat
  | 0, bytes, off, bit, opos, bits_left, v =>
    if bits_left ≠ 0 then v ||| ((bytes off >>> bit) <<< opos) else v
  | fuel + 1, bytes, off, bit, opos, bits_left, v =>
    if 8 - bit ≤ bits_left then
      extract_bits_loop fuel bytes (off + 1) 0 (opos + (8 - bit))
        (bits_left - (8 - bit)) (v ||| ((bytes off >>> bit) <<< opos))
    else
      if bits_left ≠ 0 then v ||| ((bytes off >>> bit) <<< opos) else v

/-- convcode.c `extract_bits`: the `nbits`-bit little-endian field of the
byte buffer starting at bit offset `curr`. -/
def extract_bits (bytes : List Nat) (curr nbits : Nat) : Nat :=
  extract_bits_loop nbits (fun i => bytes.getD i 0) (curr / 8) (curr % 8) 0 nbits 0
    &&& ((1 <<< nbits) - 1)

/-- The `while (nbits >= ce->num_polys)` symbol loop of `convdecode_data`.
The uncertainty pointer advance `uncertainty + curr_bit` becomes an index
offset.  An error return from `decode_bits` aborts the call with that status
(this loop does check `rv`).  Fuel `nbits + 1` dominates the loop count.
Returns `(rv, state, curr_bit, nbits)`. -/
def convdecode_main : Nat → convcode → tables → decstate → List Nat → Nat → Nat →
    Option (Nat → Nat) → Nat × decstate × Nat × Nat
  | 0, _, _, st, _, curr_bit, nbits, _ => (0, st, curr_bit, nbits)
  | fuel + 1, ce, t, st, bytes, curr_bit, nbits, unc =>
    if nbits < ce.num_polys then (0, st, curr_bit, nbits)
    else
      let bits := extract_bits bytes curr_bit ce.num_polys
      let u := match unc with
               | none => none
               | some u0 => some (fun j => u0 (curr_bit + j))
      let r := decode_bits ce t st bits u
      if r.1 ≠ 0 then (r.1, r.2, curr_bit, nbits)
      else convdecode_main fuel ce t r.2 bytes (curr_bit + ce.num_polys)
             (nbits - ce.num_polys) unc

/-- The leftover-buffer prefix of `convdecode_data` (the `if
(ce->leftover_bits)` block).  Returns the state after the block together with
the updated `curr_bit` and `nbits`.  Two source behaviours to note:
the accumulation path reads only `bytes[0]` (bits of a call beyond the first
byte are lost when `nbits > 8`), and the status of the `decode_bits` call
that completes the leftover symbol is assigned to `rv` but never checked. -/
def convdecode_leftover (ce : convcode) (t : tables) (st : decstate)
    (bytes : List Nat) (nbits : Nat) (unc : Option (Nat → Nat)) :
    decstate × Nat × Nat × Bool :=
  if st.leftover_bits = 0 then (st, 0, nbits, false)
  else if nbits + st.leftover_bits < ce.num_polys then
    -- not enough bits for a full symbol: store and return 0 from the call
    let data := (st.leftover_bits_data ||| (bytes.getD 0 0 <<< st.leftover_bits)) &&& 65535
    let lu := match unc with
              | some u => write_range st.leftover_uncertainty
                            (fun i => st.leftover_bits + i) (fun i => u i) nbits
              | none => st.leftover_uncertainty
    let lb := st.leftover_bits + nbits
    ({ st with leftover_bits := lb,
               leftover_bits_data := data &&& ((1 <<< lb) - 1),
               leftover_uncertainty := lu }, 0, nbits, true)
  else
    let extract_size := ce.num_polys - st.leftover_bits
    let newbits := extract_bits bytes 0 extract_size
    let data := (st.leftover_bits_data ||| (newbits <<< st.leftover_bits)) &&& 65535
    let st2 := { st with leftover_bits_data := data }
    let r := match unc with
             | some u =>
               let lu := write_range st2.leftover_uncertainty
                           (fun i => st2.leftover_bits + i) (fun i => u i) extract_size
               decode_bits ce t { st2 with leftover_uncertainty := lu } data (some lu)
             | none => decode_bits ce t st2 data none
    -- r.1 (the C rv) is not checked here, mirroring the source
    ({ r.2 with leftover_bits := 0 }, extract_size, nbits - extract_size, false)

/-- The remainder stash at the end of `convdecode_data` (`ce->leftover_bits =
nbits; if (nbits) …`).  The data read is a single `bytes[curr_bit / 8]`
(bits of a remainder that spans a byte boundary are lost). -/
def convdecode_stash (st : decstate) (bytes : List Nat) (curr_bit nbits : Nat)
    (unc : Option (Nat → Nat)) : decstate :=
  if nbits = 0 then { st with leftover_bits := 0 }
  else
    let data := (bytes.getD (curr_bit / 8) 0 >>> (curr_bit % 8)) &&& ((1 <<< nbits) - 1)
    let lu := match unc with
              | some u => write_range st.leftover_uncertainty
                            (fun i => i) (fun i => u (curr_bit + i)) nbits
              | none => st.leftover_uncertainty
    { st with leftover_bits := nbits, leftover_bits_data := data,
              leftover_uncertainty := lu }

/-- convcode.c `convdecode_data`: leftover completion, the symbol loop, and
the remainder stash.  Returns the C status int and the state. -/
def convdecode_data (ce : convcode) (t : tables) (st : decstate)
    (bytes : List Nat) (nbits : Nat) (unc : Option (Nat → Nat)) : Nat × decstate :=
  let s := convdecode_leftover ce t st bytes nbits unc
  if s.2.2.2 then (0, s.1)  -- the accumulation path returns 0 immediately
  else
    let m := convdecode_main (s.2.2.1 + 1) ce t s.1 bytes s.2.1 s.2.2.1 unc
    if m.1 ≠ 0 then (m.1, m.2.1)
    else (0, convdecode_stash m.2.1 bytes m.2.2.1 m.2.2.2 unc)

/-- The minimum-path loop of `convdecode_finish`/`convdecode_block`:
`min_val = curr[0]; cstate = 0; for (i = 1; …) if (curr[i] < min_val) …`.
`fuel` counts the remaining iterations, `i` the C loop index. -/
def find_min : Nat → List Nat → Nat → Nat → Nat → Nat × Nat
  | 0, _, _, cstate, min_val => (cstate, min_val)
  | n + 1, curr, i, cstate, min_val =>
    if curr.getD i 0 < min_val then find_min n curr (i + 1) i (curr.getD i 0)
    else find_min n curr (i + 1) cstate min_val

/-- The traceback loop of `convdecode_finish`: for columns
`ctrellis - 1 … 0`, read the recorded predecessor of the current state, store
the recovered bit in row 0 of the column, and step back.  The fuel argument
is exactly the column counter. -/
def traceback_loop : Nat → convcode → tables → (Nat → Nat) → Nat → (Nat → Nat) × Nat
  | 0, _, _, tr, cstate => (tr, cstate)
  | n + 1, ce, t, tr, cstate =>
    let pstate := tr (trellis_index ce n cstate)
    let tr2 := Function.update tr (trellis_index ce n 0) (get_prev_bit ce t pstate cstate)
    traceback_loop n ce t tr2 pstate

/-- The forward replay loop of `convdecode_finish`: emit the recovered bit of
each column through `output_bits`, one bit at a time. -/
def replay_loop : Nat → convcode → (Nat → Nat) → outdata → Nat → outdata
  | 0, _, _, out, _ => out
  | n + 1, ce, tr, out, i =>
    replay_loop n ce tr (output_bits out (tr (trellis_index ce i 0)) 1) (i + 1)

/-- convcode.c `convdecode_finish`: minimum-metric terminal state, traceback,
forward replay of `ctrellis - extra_bits` bits, flush, and the reported
`(total_out_bits, num_errs = min_val)`. -/
def convdecode_finish (ce : convcode) (t : tables) (st : decstate) :
    decstate × Nat × Nat :=
  let mv := find_min (ce.num_states - 1) st.curr_path_values 1 0
              (st.curr_path_values.getD 0 0)
  let tb := traceback_loop st.ctrellis ce t st.trellis mv.1
  let extra_bits := if ce.do_tail then ce.k - 1 else 0
  let out := replay_loop (st.ctrellis - extra_bits) ce tb.1 st.dec_out 0
  let out2 := if out.out_bit_pos > 0 then output_call out out.out_bits out.out_bit_pos
              else out
  ({ st with trellis := tb.1, dec_out := out2 }, out2.total_out_bits, mv.2)

/-- The traceback loop of `convdecode_block`: like `convdecode_finish` but
writing recovered bits directly into the caller's `outbytes` (only once the
`extra_bits` tail columns have been skipped) and, when requested,
accumulating the per-bit cumulative uncertainty by subtracting branch
metrics (unsigned int arithmetic).  Returns `(outbytes, out_uncertainty)`. -/
def block_traceback : Nat → convcode → tables → (Nat → Nat) → List Nat →
    Option (Nat → Nat) → Nat → Nat → (Nat → Nat) → Bool → (Nat → Nat) → Nat →
    (Nat → Nat) × (Nat → Nat)
  | 0, _, _, _, _, _, _, _, outbytes, _, oua, _ => (outbytes, oua)
  | n + 1, ce, t, tr, bytes, unc, cstate, extra_bits, outbytes, with_unc, oua, cunc =>
    let i := n
    let pstate := tr (trellis_index ce i cstate)
    let bit := get_prev_bit ce t pstate cstate
    let outbytes2 := if extra_bits = 0
                     then Function.update outbytes (i / 8)
                            (outbytes (i / 8) ||| (bit <<< (i % 8)))
                     else outbytes
    let oua2 := if with_unc ∧ extra_bits = 0 then Function.update oua i cunc else oua
    let cunc2 :=
      if with_unc then
        let inpos := i * ce.num_polys
        let bits := extract_bits bytes inpos ce.num_polys
        let u := match unc with
                 | none => none
                 | some u0 => some (fun j => u0 (inpos + j))
        (cunc + (4294967296 - hamming_distance ce (t.convert bit pstate) bits u % 4294967296))
          % 4294967296
      else cunc
    block_traceback n ce t tr bytes unc pstate (extra_bits - 1) outbytes2 with_unc oua2 cunc2

/-- convcode.c `convdecode_block`: one `convdecode_data` call, the minimum
search, and the block traceback.  Returns
`(rv, state, outbytes, out_uncertainty, num_errs)`; on the error return the
caller's buffers and `num_errs` are untouched, as in C. -/
def convdecode_block (ce : convcode) (t : tables) (st : decstate)
    (bytes : List Nat) (nbits : Nat) (unc : Option (Nat → Nat))
    (outbytes : Nat → Nat) (with_unc : Bool) (oua : Nat → Nat) :
    Nat × decstate × (Nat → Nat) × (Nat → Nat) × Nat :=
  let r := convdecode_data ce t st bytes nbits unc
  if r.1 ≠ 0 then (1, r.2, outbytes, oua, 0)
  else
    let mv := find_min (ce.num_states - 1) r.2.curr_path_values 1 0
                (r.2.curr_path_values.getD 0 0)
    let extra_bits := if ce.do_tail then ce.k - 1 else 0
    let ob := block_traceback r.2.ctrellis ce t r.2.trellis bytes unc mv.1 extra_bits
                outbytes with_unc oua mv.2
    (0, r.2, ob.1, ob.2, mv.2)

/-- Build a configured codec the way `alloc_convcode` does (from an untouched
structure, with the polynomial count taken from the list). -/
def mk_code (k : Nat) (polynomials : List Nat) (max_decode_len_bits : Nat)
    (do_tail recursive : Bool) : convcode :=
  (setup_convcode1 cc_zero k polynomials polynomials.length max_decode_len_bits
    do_tail recursive).2

/-- The structure produced by `setup_convcode1` from an untouched codec, with
an explicit polynomial count. -/
def setup_code (k : Nat) (polys_in : List Nat) (np ml : Nat) (dt rc : Bool) : convcode :=
  (setup_convcode1 cc_zero k polys_in np ml dt rc).2

/-- The encoder-side reference state sequence for message `m` from start
state 0: reading bit `t` (0 past the end, which is exactly the tail) moves
`enc_state` through `next_state`. -/
def enc_state_seq (t : tables) (m : List Nat) : Nat → Nat
  | 0 => 0
  | n + 1 => t.next_state (m.getD n 0) (enc_state_seq t m n)

/-- Symbol `n` of the reference encoding of `m` (tail bits included via the
`getD` default 0). -/
def enc_symbol (t : tables) (m : List Nat) (n : Nat) : Nat :=
  t.convert (m.getD n 0) (enc_state_seq t m n)

/-- A full encode session: default start state, `convencode_data` over the
packed message bytes, then `convencode_finish`. -/
def run_encode (ce : convcode) (t : tables) (m : List Nat) : encstate × Nat :=
  convencode_finish ce t
    (convencode_data ce t (reinit_convencode 0) (bits_to_bytes m) m.length)

/-- A full decode session on a coded bit list: default start state and
init value (`CONVCODE_DEFAULT_INIT_VAL = UINT_MAX / 2 = 2147483647`), one
`convdecode_data` call over the packed bytes, then `convdecode_finish`.
Returns `(decoded bit list, num_errs, status of the data call)`. -/
def run_decode (ce : convcode) (t : tables) (coded : List Nat) : List Nat × Nat × Nat :=
  let st := (reinit_convdecode ce (dec_alloc ce) 0 2147483647).2
  let r := convdecode_data ce t st (bits_to_bytes coded) coded.length none
  let fin := convdecode_finish ce t r.2
  (emitted_bits fin.1.dec_out.emitted, fin.2.2, r.1)

/-- Encode then decode `m` with the given code parameters
(`max_decode_len_bits = 128`, as the test harness allocates).  Returns
`(decoded bit list, num_errs, status of the decode data call)`. -/
def round_trip (k : Nat) (polynomials : List Nat) (do_tail recursive : Bool)
    (m : List Nat) : List Nat × Nat × Nat :=
  let ce := mk_code k polynomials 128 do_tail recursive
  let t := setup_convcode2 ce
  let enc := run_encode ce t m
  run_decode ce t (emitted_bits enc.1.enc_out.emitted)

/-- The polynomial corpus of `run_tests` in convcode.c: each entry is
`(k, polynomials, recursive)`; every set is exercised with both `do_tail`
settings (octal literals as in the source). -/
def test_polys : List (Nat × List Nat × Bool) :=
  [(3, [5, 7], false),
   (3, [3, 7], false),
   (3, [5, 3], false),
   (7, [0o171, 0o133], false),
   (7, [0o117, 0o127, 0o155], false),
   (9, [0o671, 0o645, 0o473, 0o537], false),
   (15, [0o74000, 0o46321, 0o51271, 0o70535, 0o63667, 0o73277, 0o76513], false),
   (3, [5, 5], true),
   (4, [0o12, 0o15], true),
   (5, [0o22, 0o21], true)]

/-!  The block interleaver (interleave.c).  The C `struct interleaver` also
holds the `data` pointer; the byte buffer is threaded separately here, as a
total function from byte index to byte value. -/

/-- interleave.c `struct interleaver` (cursor and geometry). -/
structure interleaver where
  interleave : Nat
  total_bits : Nat
  num_rows : Nat
  last_full_col : Nat
  row : Nat
  col : Nat

/-- interleave.c `interleaver_init`. -/
def interleaver_init (il total_bits : Nat) : interleaver :=
  if total_bits % il = 0 then
    { interleave := il, total_bits := total_bits, num_rows := total_bits / il,
      last_full_col := il, row := 0, col := 0 }
  else
    { interleave := il, total_bits := total_bits, num_rows := total_bits / il + 1,
      last_full_col := total_bits % il - 1, row := 0, col := 0 }

/-- interleave.c `interleaver_calc_pos`: byte and bit of the cursor's bit
position `row * interleave + col`. -/
def interleaver_calc_pos (di : interleaver) : Nat × Nat :=
  ((di.row * di.interleave + di.col) / 8, (di.row * di.interleave + di.col) % 8)

/-- interleave.c `interleaver_next_bit`: advance the cursor down the current
column; at the bottom, shorten the grid after the last full column and move
to the top of the next column. -/
def interleaver_next_bit (di : interleaver) : interleaver :=
  if di.num_rows ≤ di.row + 1 then
    { di with num_rows := if di.col = di.last_full_col then di.num_rows - 1 else di.num_rows,
              col := di.col + 1, row := 0 }
  else { di with row := di.row + 1 }

/-- interleave.c `interleave_bit`: read the bit at the cursor, advance. -/
def interleave_bit (di : interleaver) (data : Nat → Nat) : Nat × interleaver :=
  let p := interleaver_calc_pos di
  ((data p.1 >>> p.2) &&& 1, interleaver_next_bit di)

/-- interleave.c `deinterleave_bit`: OR the bit into the byte at the cursor
(`data[byte] |= bitval << bit`), advance. -/
def deinterleave_bit (di : interleaver) (data : Nat → Nat) (bitval : Nat) :
    (Nat → Nat) × interleaver :=
  let p := interleaver_calc_pos di
  (Function.update data p.1 (data p.1 ||| (bitval <<< p.2)), interleaver_next_bit di)

/-- `n` calls of `interleave_bit` (the caller's traversal loop): the list of
bits read. -/
def interleave_run (data : Nat → Nat) : interleaver → Nat → List Nat
  | _, 0 => []
  | di, n + 1 =>
    let r := interleave_bit di data
    r.1 :: interleave_run data r.2 n

/-- One `deinterleave_bit` call per list element (the caller's store loop):
the final buffer. -/
def deinterleave_run : interleaver → (Nat → Nat) → List Nat → (Nat → Nat)
  | _, data, [] => data
  | di, data, b :: rest =>
    let r := deinterleave_bit di data b
    deinterleave_run r.2 r.1 rest

/-- The cursor's bit position sequence: position read/written at each of `n`
traversal steps. -/
def pos_seq : interleaver → Nat → List Nat
  | _, 0 => []
  | di, n + 1 => (di.row * di.interleave + di.col) :: pos_seq (interleaver_next_bit di) n

/-- The position list of one full `total_bits` traversal from `init`. -/
def pos_list (il tb : Nat) : List Nat :=
  pos_seq (interleaver_init il tb) tb

/-- `n` cursor advances. -/
def advance_n : interleaver → Nat → interleaver
  | di, 0 => di
  | di, n + 1 => advance_n (interleaver_next_bit di) n

/-- Bit `p` of a byte buffer, as `interleave_bit` reads it:
`(data[p / 8] >> (p % 8)) & 1`. -/
def get_bit (data : Nat → Nat) (p : Nat) : Nat :=
  (data (p / 8) >>> (p % 8)) &&& 1

/-- The store `deinterleave_bit` performs at bit position `p`:
`data[p / 8] |= b << (p % 8)`. -/
def write_bit (data : Nat → Nat) (p b : Nat) : Nat → Nat :=
  Function.update data (p / 8) (data (p / 8) ||| (b <<< (p % 8)))

/-- A sequence of bit stores `(position, bit)`. -/
def apply_writes : (Nat → Nat) → List (Nat × Nat) → (Nat → Nat)
  | data, [] => data
  | data, w :: rest => apply_writes (write_bit data w.1 w.2) rest

/-!  Concrete scenarios used by the claim theorems. -/

/-- Scenario S1 message: the bit string 010111001010001, low bit first. -/
def s9_msg : List Nat := [0, 1, 0, 1, 1, 1, 0, 0, 1, 0, 1, 0, 0, 0, 1]

/-- Scenario S1 expected encoding: 0011010010011011110100011100110111. -/
def s9_coded : List Nat :=
  [0, 0, 1, 1, 0, 1, 0, 0, 1, 0, 0, 1, 1, 0, 1, 1, 1, 1,
   0, 1, 0, 0, 0, 1, 1, 1, 0, 0, 1, 1, 0, 1, 1, 1]

/-- The S1 codec: `k = 3`, polynomials 5 and 7, tail on, non-recursive. -/
def s9_code : convcode := mk_code 3 [5, 7] 128 true false

/-- Tables of the S1 codec. -/
def s9_tables : tables := setup_convcode2 s9_code

/-- A codec with `max_decode_len_bits = 1`, so `trellis_size = 1 + 3 * 2 = 7`
and the capacity guard fires once `ctrellis` reaches 6. -/
def c6_code : convcode := mk_code 3 [5, 7] 1 true false

/-- Tables of the small-trellis codec. -/
def c6_tables : tables := setup_convcode2 c6_code

/-- Freshly reinitialized decoder for the small-trellis codec. -/
def c6_st0 : decstate := (reinit_convdecode c6_code (dec_alloc c6_code) 0 2147483647).2

/-- First decode call: 13 zero bits = 6 symbols plus 1 leftover bit, filling
the trellis to `ctrellis = 6`. -/
def c6_call1 : Nat × decstate := convdecode_data c6_code c6_tables c6_st0 [0, 0] 13 none

/-- Second decode call: 1 more bit, which completes the leftover symbol while
`ctrellis + num_polys = 8 > trellis_size = 7`. -/
def c6_call2 : Nat × decstate := convdecode_data c6_code c6_tables c6_call1.2 [0] 1 none

/-- The S1 codec again, for the trellis-bound scenario: `trellis_size = 134`,
`num_states = 4`, so the heap block holds `536` trellis cells. -/
def c10_code : convcode := mk_code 3 [5, 7] 128 true false

/-- Decode 136 zero bits (68 symbols) in one call: the guard
`ctrellis + num_polys > trellis_size` admits all 68 columns. -/
def c10_run : Nat × decstate :=
  convdecode_data c10_code (setup_convcode2 c10_code)
    ((reinit_convdecode c10_code (dec_alloc c10_code) 0 2147483647).2)
    (List.replicate 17 0) 136 none

/-- A three-polynomial codec (`num_polys = 3`, `k = 3`), for the split-call
scenario. -/
def c5_code : convcode := mk_code 3 [5, 7, 7] 128 true false

/-- Tables of the three-polynomial codec. -/
def c5_tables : tables := setup_convcode2 c5_code

/-- The encoding of the message 1011 under `c5_code` (4 message bits plus a
2-bit tail, 3 coded bits each); its bit 16 is set, and 16 ≡ 0 mod 8 with the
split below. -/
def c5_coded : List Nat :=
  [1, 1, 1, 0, 1, 1, 0, 0, 0, 1, 0, 0, 1, 0, 0, 1, 1, 1]

/-- Fresh decoder state for the split scenario. -/
def c5_st0 : decstate := (reinit_convdecode c5_code (dec_alloc c5_code) 0 2147483647).2

/-- Block decode of all 18 coded bits at once. -/
def c5_block : Nat × decstate × (Nat → Nat) × (Nat → Nat) × Nat :=
  convdecode_block c5_code c5_tables c5_st0 (bits_to_bytes c5_coded) 18 none
    (fun _ => 0) false (fun _ => 0)

/-- Streaming decode, first call: 17 bits (5 symbols and a 2-bit remainder
whose second bit, coded bit 16, sits in the next byte and is dropped by the
single-byte stash read). -/
def c5_sa : Nat × decstate :=
  convdecode_data c5_code c5_tables c5_st0 (bits_to_bytes (c5_coded.take 17)) 17 none

/-- Streaming decode, second call: the final bit, completing the leftover
symbol from the corrupted stash. -/
def c5_sb : Nat × decstate :=
  convdecode_data c5_code c5_tables c5_sa.2 (bits_to_bytes (c5_coded.drop 17)) 1 none

/-- Streaming finish after the split calls. -/
def c5_sfin : decstate × Nat × Nat := convdecode_finish c5_code c5_tables c5_sb.2

/-- Freshly reinitialized decoder state for the S1 codec. -/
def s9_st0 : decstate := (reinit_convdecode s9_code (dec_alloc s9_code) 0 2147483647).2

/-- The candidate distance of predecessor `p` into target state `i`, as both
the claim and `decode_bits` compute it:
`curr[p] + dist(convert[b_p][p], rcv_symbol, reliability)` with
`b_p = get_prev_bit(p, i)`. -/
def claim_branch_dist (ce : convcode) (t : tables) (curr : List Nat) (rcv : Nat)
    (unc : Option (Nat → Nat)) (p i : Nat) : Nat :=
  curr.getD p 0 + hamming_distance ce (t.convert (get_prev_bit ce t p i) p) rcv unc

/-- The abstract bit stream held by a `convcode_outdata` packing state: the
bits already handed to the output callback followed by the bits of the
partially filled byte. -/
def out_stream (of : outdata) : List Nat :=
  emitted_bits of.emitted ++ le_bits of.out_bits of.out_bit_pos

/-- The reference coded bit stream of message `mf`: `N` symbols of
`np` bits each, low bit first (symbol `n` is `convert[bit n][state n]`). -/
def coded_stream (t : tables) (mf : List Nat) (np N : Nat) : List Nat :=
  ((List.range N).map (fun n => le_bits (enc_symbol t mf n) np)).flatten

end Convcode

namespace Convcode

/-!  Helper lemmas. -/

set_option maxRecDepth 100000
set_option maxHeartbeats 1600000

/-- Reading back a cell written by an array-fill loop: if `idx` is injective
on the written range, position `idx i` holds `val i`. -/
theorem write_range_get (mem idx val : Nat → Nat) (n i : Nat) (hi : i < n)
    (hinj : ∀ a b, a < n → b < n → idx a = idx b → a = b) :
    write_range mem idx val n (idx i) = val i := by
  induction n with
  | zero => omega
  | succ m ih =>
    by_cases him : i = m
    · subst him
      simp [write_range]
    · have hi2 : i < m := by omega
      have hne : idx i ≠ idx m := fun h =>
        him (hinj i m (by omega) (by omega) h)
      rw [write_range, Function.update_noteq hne]
      exact ih hi2 (fun a b ha hb h => hinj a b (by omega) (by omega) h)

/-- Positions not written by an array-fill loop are untouched. -/
theorem write_range_get_ne (mem idx val : Nat → Nat) (n a : Nat)
    (ha : ∀ j, j < n → a ≠ idx j) :
    write_range mem idx val n a = mem a := by
  induction n with
  | zero => rfl
  | succ m ih =>
    rw [write_range, Function.update_noteq (ha m (by omega))]
    exact ih (fun j hj => ha j (by omega))

/-- The trellis flat index is injective in the row for a fixed column (rows
used are below `num_states` and the stride is `2 * num_states`). -/
theorem trellis_index_row_inj (ce : convcode) (c a b : Nat) :
    trellis_index ce c a = trellis_index ce c b → a = b := by
  simp only [trellis_index]
  omega

/-- A successful `decode_bits` call records the ACS choice for state `i` of
the current column at flat trellis index
`ctrellis * num_states * 2 + i`. -/
theorem decode_bits_trellis_write (ce : convcode) (t : tables) (st : decstate)
    (bits : Nat) (unc : Option (Nat → Nat)) (i : Nat)
    (hcap : st.ctrellis + ce.num_polys ≤ ce.trellis_size) (hi : i < ce.num_states) :
    (decode_bits ce t st bits unc).2.trellis (trellis_index ce st.ctrellis i) =
      (acs_pred ce t st.curr_path_values bits unc i).1 := by
  simp only [decode_bits, if_neg (by omega : ¬ce.trellis_size < st.ctrellis + ce.num_polys)]
  exact write_range_get _ _ _ _ i hi
    (fun a b _ _ h => trellis_index_row_inj ce st.ctrellis a b h)

/-- `num_bits_is_odd_loop` only returns 0 or 1. -/
theorem num_bits_is_odd_loop_le_one (fuel v : Nat) : num_bits_is_odd_loop fuel v ≤ 1 := by
  induction fuel generalizing v with
  | zero => exact Nat.zero_le 1
  | succ f ih =>
    simp only [num_bits_is_odd_loop]
    split
    · exact Nat.zero_le 1
    · split
      · omega
      · exact ih _

/-- The population-count loop is the sum of the tested bits, for values below
`2 ^ fuel`. -/
theorem num_bits_set_loop_spec (fuel : Nat) : ∀ v, v < 2 ^ fuel →
    num_bits_set_loop fuel v = ∑ j ∈ Finset.range fuel, (if v.testBit j then 1 else 0) := by
  induction fuel with
  | zero =>
    intro v hv
    interval_cases v
    rfl
  | succ f ih =>
    intro v hv
    by_cases h0 : v = 0
    · subst h0
      simp [num_bits_set_loop]
    · have hdiv : v >>> 1 = v / 2 := by
        simp [Nat.shiftRight_eq_div_pow]
      have hlt : v / 2 < 2 ^ f := by
        rw [pow_succ] at hv
        omega
      rw [Finset.sum_range_succ']
      simp only [num_bits_set_loop, if_neg h0]
      rw [hdiv, ih (v / 2) hlt]
      have hbit : ∀ j, v.testBit (j + 1) = (v / 2).testBit j := by
        intro j
        rw [Nat.testBit_add_one]
      have hb0 : v &&& 1 = if v.testBit 0 then 1 else 0 := by
        rw [Nat.and_one_is_mod, Nat.testBit_zero]
        rcases Nat.mod_two_eq_zero_or_one v with h | h <;> simp [h]
      simp only [hbit, hb0]
      omega

/-- The parity loop is the population-count loop mod 2. -/
theorem num_bits_is_odd_loop_eq (fuel : Nat) : ∀ v,
    num_bits_is_odd_loop fuel v = num_bits_set_loop fuel v % 2 := by
  induction fuel with
  | zero => intro v; rfl
  | succ f ih =>
    intro v
    simp only [num_bits_is_odd_loop, num_bits_set_loop]
    by_cases h0 : v = 0
    · simp [h0]
    · rw [if_neg h0, if_neg h0, ih (v >>> 1)]
      have hand : v &&& 1 = v % 2 := Nat.and_one_is_mod v
      by_cases hc : v &&& 1 = 1
      · rw [if_pos hc]
        omega
      · rw [if_neg hc]
        omega

/-- The parity loop is the parity of the sum of the tested bits, for values
below `2 ^ fuel`. -/
theorem num_bits_is_odd_loop_spec (fuel v : Nat) (hv : v < 2 ^ fuel) :
    num_bits_is_odd_loop fuel v =
      (∑ j ∈ Finset.range fuel, (if v.testBit j then 1 else 0)) % 2 := by
  rw [num_bits_is_odd_loop_eq, num_bits_set_loop_spec fuel v hv]

/-- `num_bits_set` as the claimed popcount: the sum of the 32 tested bits. -/
theorem num_bits_set_spec (v : Nat) (hv : v < 2 ^ 32) :
    num_bits_set v = ∑ j ∈ Finset.range 32, (if v.testBit j then 1 else 0) :=
  num_bits_set_loop_spec 32 v hv

/-- Bits the OR-accumulation loop does not touch keep their initial value. -/
theorem foldl_or_testBit_not_mem (l : List Nat) (g : Nat → Nat) (init q : Nat)
    (hg : ∀ j ∈ l, g j ≤ 1) (hq : q ∉ l) :
    (l.foldl (fun acc j => acc ||| (g j <<< j)) init).testBit q = init.testBit q := by
  induction l generalizing init with
  | nil => rfl
  | cons j rest ih =>
    have hjq : j ≠ q := fun h => hq (h ▸ List.mem_cons_self j rest)
    have hshift : ((g j <<< j)).testBit q = false := by
      rw [Nat.testBit_shiftLeft]
      by_cases hle : j ≤ q
      · have h1 : q - j ≥ 1 := by omega
        have : g j < 2 ^ (q - j) := by
          calc g j ≤ 1 := hg j (List.mem_cons_self j rest)
          _ < 2 ^ (q - j) := by
            have := Nat.one_lt_two_pow_iff.mpr (by omega : q - j ≠ 0)
            omega
        simp [Nat.testBit_lt_two_pow this]
      · simp [hle]
    rw [List.foldl_cons, ih (init ||| g j <<< j)
      (fun a ha => hg a (List.mem_cons_of_mem j ha)) (fun h => hq (List.mem_cons_of_mem j h))]
    rw [Nat.testBit_or, hshift, Bool.or_false]

/-- Bit `q` of the OR-accumulation loop over a duplicate-free index list
containing `q`, starting from a value with bit `q` clear, is the bit the loop
ORs in at `q`. -/
theorem foldl_or_testBit_mem (l : List Nat) (g : Nat → Nat) (init q : Nat)
    (hg : ∀ j ∈ l, g j ≤ 1) (hnd : l.Nodup) (hq : q ∈ l)
    (hinit : init.testBit q = false) :
    (l.foldl (fun acc j => acc ||| (g j <<< j)) init).testBit q = decide (g q = 1) := by
  induction l generalizing init with
  | nil => cases hq
  | cons j rest ih =>
    rw [List.foldl_cons]
    by_cases hjq : j = q
    · subst hjq
      have hqrest : j ∉ rest := (List.nodup_cons.mp hnd).1
      rw [foldl_or_testBit_not_mem rest g _ j
        (fun a ha => hg a (List.mem_cons_of_mem j ha)) hqrest]
      rw [Nat.testBit_or, hinit, Bool.false_or, Nat.testBit_shiftLeft]
      have h1 : (decide (j ≤ j) && (g j).testBit (j - j)) = (g j).testBit 0 := by
        simp
      rw [h1, Nat.testBit_zero]
      have hgj : g j ≤ 1 := hg j (List.mem_cons_self j rest)
      rcases Nat.le_one_iff_eq_zero_or_eq_one.mp hgj with h | h <;> simp [h]
    · have hqmem : q ∈ rest := by
        rcases List.mem_cons.mp hq with h | h
        · exact absurd h.symm hjq
        · exact h
      have hshift : ((g j <<< j)).testBit q = false := by
        rw [Nat.testBit_shiftLeft]
        by_cases hle : j ≤ q
        · have : g j < 2 ^ (q - j) := by
            calc g j ≤ 1 := hg j (List.mem_cons_self j rest)
            _ < 2 ^ (q - j) := by
              have := Nat.one_lt_two_pow_iff.mpr (by omega : q - j ≠ 0)
              omega
          simp [Nat.testBit_lt_two_pow this]
        · simp [hle]
      exact ih (init ||| g j <<< j) (fun a ha => hg a (List.mem_cons_of_mem j ha))
        (List.nodup_cons.mp hnd).2 hqmem
        (by simp [Nat.testBit_or, hinit, hshift])

/-- The index list of the recursive-convert loop: `j ∈ range np` with
`j ≥ 1`. -/
theorem mem_drop_one_range (np j : Nat) :
    j ∈ (List.range np).drop 1 ↔ 1 ≤ j ∧ j < np := by
  cases np with
  | zero => simp
  | succ m =>
    rw [List.range_succ_eq_map]
    simp only [List.drop_succ_cons, List.drop_zero, List.mem_map, List.mem_range]
    constructor
    · rintro ⟨a, ha, rfl⟩
      omega
    · rintro ⟨h1, h2⟩
      exact ⟨j - 1, by omega, by omega⟩

/-- The recursive-convert loop index list has no duplicates. -/
theorem nodup_drop_one_range (np : Nat) : ((List.range np).drop 1).Nodup :=
  (List.drop_sublist 1 (List.range np)).nodup (List.nodup_range np)

/-- `v1 & 1 == v2 & 1` is bit-0 agreement. -/
theorem and_one_eq_iff_testBit_zero (v1 v2 : Nat) :
    (v1 &&& 1 = v2 &&& 1) ↔ (v1.testBit 0 = v2.testBit 0) := by
  rw [Nat.and_one_is_mod, Nat.and_one_is_mod, Nat.testBit_zero, Nat.testBit_zero]
  rcases Nat.mod_two_eq_zero_or_one v1 with h1 | h1 <;>
    rcases Nat.mod_two_eq_zero_or_one v2 with h2 | h2 <;> simp [h1, h2]

/-- The soft branch-metric loop, with in-range reliabilities and no unsigned
wrap, is the claimed per-bit weighted sum. -/
theorem hamming_loop_spec (n : Nat) : ∀ (v1 v2 : Nat) (u : Nat → Nat) (idx u100 rv : Nat),
    (∀ j, j < n → u (idx + j) ≤ u100) → rv + n * u100 < 4294967296 →
    hamming_loop n v1 v2 u idx u100 rv =
      rv + ∑ j ∈ Finset.range n,
        (if v1.testBit j = v2.testBit j then u (idx + j) else u100 - u (idx + j)) := by
  induction n with
  | zero =>
    intro v1 v2 u idx u100 rv hu hb
    simp [hamming_loop]
  | succ m ih =>
    intro v1 v2 u idx u100 rv hu hb
    have hmul : (m + 1) * u100 = m * u100 + u100 := by ring
    have hu0 : u idx ≤ u100 := by
      have := hu 0 (by omega)
      simpa using this
    have hterm :
        (if v1 &&& 1 = v2 &&& 1 then (rv + u idx) % 4294967296
         else (rv + (4294967296 + u100 - u idx) % 4294967296) % 4294967296) =
        rv + (if v1.testBit 0 = v2.testBit 0 then u idx else u100 - u idx) := by
      have hwrap : (4294967296 + u100 - u idx) % 4294967296 = u100 - u idx := by
        have h1 : 4294967296 + u100 - u idx = 4294967296 + (u100 - u idx) := by omega
        rw [h1, Nat.add_mod_left]
        exact Nat.mod_eq_of_lt (by omega)
      by_cases hc : v1 &&& 1 = v2 &&& 1
      · rw [if_pos hc, if_pos ((and_one_eq_iff_testBit_zero v1 v2).mp hc)]
        exact Nat.mod_eq_of_lt (by omega)
      · rw [if_neg hc, if_neg (fun h => hc ((and_one_eq_iff_testBit_zero v1 v2).mpr h)),
          hwrap]
        exact Nat.mod_eq_of_lt (by omega)
    have hbit1 : ∀ j (v : Nat), (v >>> 1).testBit j = v.testBit (j + 1) := by
      intro j v
      rw [Nat.testBit_shiftRight]
      congr 1
      omega
    have hle : (if v1.testBit 0 = v2.testBit 0 then u idx else u100 - u idx) ≤ u100 := by
      split <;> omega
    have hu2 : ∀ j, j < m → u (idx + 1 + j) ≤ u100 := by
      intro j hj
      have h2 := hu (j + 1) (by omega)
      have h3 : idx + 1 + j = idx + (j + 1) := by omega
      rw [h3]
      exact h2
    have hstep := ih (v1 >>> 1) (v2 >>> 1) u (idx + 1) u100
      (rv + (if v1.testBit 0 = v2.testBit 0 then u idx else u100 - u idx)) hu2 (by omega)
    rw [show hamming_loop (m + 1) v1 v2 u idx u100 rv =
        hamming_loop m (v1 >>> 1) (v2 >>> 1) u (idx + 1) u100
          (if v1 &&& 1 = v2 &&& 1 then (rv + u idx) % 4294967296
           else (rv + (4294967296 + u100 - u idx) % 4294967296) % 4294967296) from rfl]
    rw [hterm, hstep, Finset.sum_range_succ']
    simp only [hbit1, Nat.add_zero]
    have harg : ∀ j, idx + 1 + j = idx + (j + 1) := by omega
    simp only [harg]
    omega

/-- Each weighted term is at most `u100`, so the loop value is bounded. -/
theorem hamming_loop_le (n v1 v2 : Nat) (u : Nat → Nat) (idx u100 rv : Nat)
    (hu : ∀ j, j < n → u (idx + j) ≤ u100) (hb : rv + n * u100 < 4294967296) :
    hamming_loop n v1 v2 u idx u100 rv ≤ rv + n * u100 := by
  rw [hamming_loop_spec n v1 v2 u idx u100 rv hu hb]
  have : (∑ j ∈ Finset.range n,
      (if v1.testBit j = v2.testBit j then u (idx + j) else u100 - u (idx + j))) ≤
      ∑ _j ∈ Finset.range n, u100 := by
    apply Finset.sum_le_sum
    intro j hj
    have := hu j (List.mem_range.mp (by simpa using hj))
    split <;> omega
  simp only [Finset.sum_const, Finset.card_range, smul_eq_mul] at this
  omega

/-- The hard branch metric is at most the loop fuel (32). -/
theorem num_bits_set_loop_le (fuel : Nat) : ∀ v, num_bits_set_loop fuel v ≤ fuel := by
  induction fuel with
  | zero => intro v; exact Nat.le_refl 0
  | succ f ih =>
    intro v
    simp only [num_bits_set_loop]
    split
    · omega
    · have h1 : v &&& 1 ≤ 1 := by
        rw [Nat.and_one_is_mod]
        omega
      have := ih (v >>> 1)
      omega

/-- With the range checks passed, `setup_convcode1` fills the structure with
exactly these fields. -/
theorem setup_code_fields (k : Nat) (polys_in : List Nat) (np ml : Nat) (dt rc : Bool)
    (h1 : 1 ≤ np) (h2 : np ≤ 16) (h3 : k ≤ 16) :
    setup_code k polys_in np ml dt rc =
      { k := k, num_states := 1 <<< (k - 1), do_tail := dt, recursive := rc,
        uncertainty_100 := 100, num_polys := np,
        polys := fun i => if i < np then reverse_bits k (polys_in.getD i 0) else 0,
        trellis_size := if ml > 0 then ml + k * np else 0 } := by
  simp only [setup_code, setup_convcode1]
  rw [if_neg (by omega), if_neg (by omega)]

/-- Indexing into a tabulated list. -/
theorem map_range_getD (f : Nat → Nat) (n i : Nat) (hi : i < n) :
    ((List.range n).map f).getD i 0 = f i := by
  rw [List.getD_eq_getElem?_getD]
  simp [List.getElem?_map, List.getElem?_range, hi]

/-- Well-behaved inputs keep every branch metric at most `16 * 255 = 4080`
(hard metrics are at most 32). -/
theorem hamming_distance_le (ce : convcode) (v1 v2 : Nat) (unc : Option (Nat → Nat))
    (hunc : unc = none ∨ ∃ u, unc = some u ∧ ce.uncertainty_100 ≤ 255 ∧
      ce.num_polys ≤ 16 ∧ ∀ j, j < ce.num_polys → u j ≤ ce.uncertainty_100) :
    hamming_distance ce v1 v2 unc ≤ 4080 := by
  rcases hunc with h | ⟨u, h, h255, h16, hu⟩
  · subst h
    show num_bits_set_loop 32 (v1 ^^^ v2) ≤ 4080
    have := num_bits_set_loop_le 32 (v1 ^^^ v2)
    omega
  · subst h
    show hamming_loop ce.num_polys v1 v2 u 0 ce.uncertainty_100 0 ≤ 4080
    have hb : 0 + ce.num_polys * ce.uncertainty_100 < 4294967296 := by
      have := Nat.mul_le_mul h16 h255
      omega
    have := hamming_loop_le ce.num_polys v1 v2 u 0 ce.uncertainty_100 0
      (fun j hj => by simpa using hu j hj) hb
    have := Nat.mul_le_mul h16 h255
    omega

/-!  Claim theorems. -/

/-- C7 (failing input): `setup_convcode1` accepts `k = 0` — the guard only
checks `num_polynomials` and `k > 16`, so a `k` outside `[1, 16]` is not
rejected (the C then computes `1 << (k - 1)` with an underflowed shift
count); the in-range and above-range cases behave as claimed. -/
theorem c7_setup_accepts_k_zero :
    (setup_convcode1 cc_zero 0 [1] 1 0 true false).1 = 0 ∧
    (setup_convcode1 cc_zero 17 [1] 1 0 true false).1 = 1 ∧
    (setup_convcode1 cc_zero 3 [] 0 0 true false).1 = 1 ∧
    (setup_convcode1 cc_zero 3 (List.replicate 17 1) 17 0 true false).1 = 1 := by
  decide

/-- C6 (failing input): the first call leaves `ctrellis = 6` and one leftover
bit with `trellis_size = 7`; the second call completes the leftover symbol
while `ctrellis + num_polys > trellis_size`, `decode_bits` rejects it without
touching the trellis column or the path metrics (`ctrellis` and the metric
buffer are unchanged), but `convdecode_data` still returns 0: the
CapacityError of the leftover-completed symbol is swallowed. -/
theorem c6_capacity_error_swallowed :
    c6_call1.1 = 0 ∧ c6_call1.2.ctrellis = 6 ∧ c6_call1.2.leftover_bits = 1 ∧
    c6_code.trellis_size < c6_call1.2.ctrellis + c6_code.num_polys ∧
    c6_call2.1 = 0 ∧ c6_call2.2.ctrellis = 6 ∧
    c6_call2.2.curr_path_values = c6_call1.2.curr_path_values := by
  decide

/-- C10 (failing input): decoding 68 symbols on a codec whose trellis block
holds `trellis_size * num_states = 536` cells succeeds (every column passes
the capacity guard), yet column 67 is addressed at flat element index
`67 * num_states * sizeof(convcode_state) + row = 536 + row`: cell (67, 2)
lands at index 538, beyond the allocation, and `decode_bits` does write its
ACS choice there (last conjunct) — not at the claimed
`column * num_states + state = 270`. -/
theorem c10_trellis_overrun :
    c10_run.1 = 0 ∧ c10_run.2.ctrellis = 68 ∧
    c10_code.trellis_size * c10_code.num_states = 536 ∧
    trellis_index c10_code 67 2 = 538 ∧
    (∀ (st : decstate) (bits : Nat), st.ctrellis = 67 →
      (decode_bits c10_code (setup_convcode2 c10_code) st bits none).2.trellis 538 =
        (acs_pred c10_code (setup_convcode2 c10_code) st.curr_path_values bits none 2).1) := by
  refine ⟨by decide, by decide, by decide, by decide, ?_⟩
  intro st bits h
  have h538 : (538 : Nat) = trellis_index c10_code st.ctrellis 2 := by
    rw [h]; decide
  rw [h538]
  exact decode_bits_trellis_write c10_code (setup_convcode2 c10_code) st bits none 2
    (by rw [h]; decide) (by decide)

/-- C5 (failing input): `c5_coded` is the noiseless block encoding of 1011
under the 3-polynomial codec; decoding it with `convdecode_block` yields
`num_errs = 0`, but streaming it as `convdecode_data` calls of 17 and 1 bits
followed by `convdecode_finish` yields `num_errs = 1` — the 2-bit remainder
of the first call spans a byte boundary and the single-byte stash read drops
coded bit 16, so block and streaming decodes of the same input disagree. -/
theorem c5_split_stream_diverges :
    emitted_bits (run_encode c5_code c5_tables [1, 0, 1, 1]).1.enc_out.emitted = c5_coded ∧
    c5_block.1 = 0 ∧ c5_block.2.2.2.2 = 0 ∧
    c5_sa.1 = 0 ∧ c5_sb.1 = 0 ∧ c5_sfin.2.2 = 1 := by
  decide

/-- C4: the branch metric `hamming_distance` is the popcount of
`cand XOR rcv` when the reliability array is absent, and otherwise the sum
over the `num_polys` bit positions of `reliability[j]` when the bits agree
and `uncertainty_100 - reliability[j]` when they differ, for reliabilities in
`[0, uncertainty_100]` (symbol values are C unsigned ints, `uncertainty_100`
and the reliabilities are bytes, and at most 16 polynomials exist). -/
theorem c4_branch_metric (ce : convcode) (v1 v2 : Nat) (u : Nat → Nat)
    (h1 : v1 < 2 ^ 32) (h2 : v2 < 2 ^ 32)
    (hnp : ce.num_polys ≤ 16) (h100 : ce.uncertainty_100 ≤ 255)
    (hu : ∀ j, j < ce.num_polys → u j ≤ ce.uncertainty_100) :
    hamming_distance ce v1 v2 none =
      (∑ j ∈ Finset.range 32, (if (v1 ^^^ v2).testBit j then 1 else 0)) ∧
    hamming_distance ce v1 v2 (some u) =
      (∑ j ∈ Finset.range ce.num_polys,
        (if v1.testBit j = v2.testBit j then u j else ce.uncertainty_100 - u j)) := by
  constructor
  · show num_bits_set (v1 ^^^ v2) = _
    exact num_bits_set_spec (v1 ^^^ v2) (Nat.xor_lt_two_pow h1 h2)
  · show hamming_loop ce.num_polys v1 v2 u 0 ce.uncertainty_100 0 = _
    have hb : 0 + ce.num_polys * ce.uncertainty_100 < 4294967296 := by
      have := Nat.mul_le_mul hnp h100
      omega
    rw [hamming_loop_spec ce.num_polys v1 v2 u 0 ce.uncertainty_100 0
      (fun j hj => by simpa using hu j hj) hb]
    simp

/-- Witness for C4 at a concrete input: symbols 5 and 3, constant
reliability 7, the standard codec. -/
theorem c4_branch_metric_check :
    ((5 : Nat) < 2 ^ 32 ∧ (3 : Nat) < 2 ^ 32 ∧ s9_code.num_polys ≤ 16 ∧
      s9_code.uncertainty_100 ≤ 255 ∧
      (∀ j, j < s9_code.num_polys → (fun _ => (7 : Nat)) j ≤ s9_code.uncertainty_100)) ∧
    (hamming_distance s9_code 5 3 none =
      (∑ j ∈ Finset.range 32, (if ((5 : Nat) ^^^ 3).testBit j then 1 else 0)) ∧
    hamming_distance s9_code 5 3 (some (fun _ => 7)) =
      (∑ j ∈ Finset.range s9_code.num_polys,
        (if (5 : Nat).testBit j = (3 : Nat).testBit j then (fun _ => (7 : Nat)) j
         else s9_code.uncertainty_100 - (fun _ => (7 : Nat)) j))) :=
  ⟨⟨by decide, by decide, by decide, by decide, by decide⟩,
   c4_branch_metric s9_code 5 3 (fun _ => 7) (by decide) (by decide) (by decide)
     (by decide) (by decide)⟩

/-- C2: after setup bit-reverses each polynomial over `k` bits, the tables of
`setup_convcode2` satisfy: non-recursive, `next_state[b][s] = ((s<<1)|b) &
mask` and bit `j` of `convert[b][s]` is the parity of `((s<<1)|b) &
polys[j]`; recursive, with the feedback bit `parity(((s<<1)|b) & polys[0])`,
`next_state[b][s] = ((s<<1)|feedback) & mask`, bit 0 of `convert[b][s]` is
`b`, and bit `j ≥ 1` is the parity of `((s<<1)|feedback) & polys[j]` (the
`polys` here are the bit-reversed internal polynomials, first conjunct). -/
theorem c2_encoder_tables (k : Nat) (polys_in : List Nat) (np ml : Nat) (dt rc : Bool)
    (ce : convcode) (t : tables) (hce : ce = setup_code k polys_in np ml dt rc)
    (ht : t = setup_convcode2 ce)
    (hnp1 : 1 ≤ np) (hnp2 : np ≤ 16) (hk : k ≤ 16)
    (b s j : Nat) (hb : b ≤ 1) (hs : s < ce.num_states) (hj : j < np) :
    ce.polys j = reverse_bits k (polys_in.getD j 0) ∧
    (rc = false →
      t.next_state b s = ((s <<< 1) ||| b) &&& (ce.num_states - 1) ∧
      (t.convert b s).testBit j =
        decide (num_bits_is_odd (((s <<< 1) ||| b) &&& ce.polys j) = 1)) ∧
    (rc = true →
      t.next_state b s =
        ((s <<< 1) ||| num_bits_is_odd (((s <<< 1) ||| b) &&& ce.polys 0)) &&&
          (ce.num_states - 1) ∧
      (t.convert b s).testBit 0 = decide (b = 1) ∧
      (1 ≤ j →
        (t.convert b s).testBit j =
          decide (num_bits_is_odd
            (((s <<< 1) ||| num_bits_is_odd (((s <<< 1) ||| b) &&& ce.polys 0)) &&&
              ce.polys j) = 1))) := by
  subst ht
  rw [setup_code_fields k polys_in np ml dt rc hnp1 hnp2 hk] at hce
  have hpolys : ∀ i, i < np → ce.polys i = reverse_bits k (polys_in.getD i 0) := by
    intro i hi
    rw [hce]
    simp [hi]
  have hnp' : ce.num_polys = np := by rw [hce]
  have hrc : ce.recursive = rc := by rw [hce]
  refine ⟨hpolys j hj, ?_, ?_⟩
  · intro h
    have hrec : ce.recursive = false := by rw [hrc, h]
    have htab : setup_convcode2 ce =
        { convert := fun b2 i => nonrec_convert ce b2 i
          next_state := fun b2 i => ((i <<< 1) ||| b2) &&& (ce.num_states - 1) } := by
      simp [setup_convcode2, hrec]
    rw [htab]
    refine ⟨rfl, ?_⟩
    show (nonrec_convert ce b s).testBit j = _
    simp only [nonrec_convert, hnp']
    exact foldl_or_testBit_mem (List.range np)
      (fun j2 => num_bits_is_odd (((s <<< 1) ||| b) &&& ce.polys j2)) 0 j
      (fun a _ => num_bits_is_odd_loop_le_one 32 _) (List.nodup_range np)
      (List.mem_range.mpr hj) (Nat.zero_testBit j)
  · intro h
    have hrec : ce.recursive = true := by rw [hrc, h]
    have htab : setup_convcode2 ce =
        { convert := fun b2 i => rec_convert ce b2 i
          next_state := fun b2 i =>
            ((i <<< 1) ||| rec_feedback ce b2 i) &&& (ce.num_states - 1) } := by
      simp [setup_convcode2, hrec]
    rw [htab]
    refine ⟨by simp only [rec_feedback], ?_, ?_⟩
    · show (rec_convert ce b s).testBit 0 = _
      simp only [rec_convert]
      rw [foldl_or_testBit_not_mem ((List.range ce.num_polys).drop 1)
        (fun j2 => num_bits_is_odd (((s <<< 1) ||| rec_feedback ce b s) &&& ce.polys j2))
        b 0 (fun a _ => num_bits_is_odd_loop_le_one 32 _)
        (by rw [mem_drop_one_range]; omega)]
      interval_cases b <;> simp
    · intro hj1
      show (rec_convert ce b s).testBit j = _
      simp only [rec_convert]
      rw [foldl_or_testBit_mem ((List.range ce.num_polys).drop 1)
        (fun j2 => num_bits_is_odd (((s <<< 1) ||| rec_feedback ce b s) &&& ce.polys j2))
        b j (fun a _ => num_bits_is_odd_loop_le_one 32 _)
        (nodup_drop_one_range ce.num_polys)
        ((mem_drop_one_range ce.num_polys j).mpr ⟨hj1, by omega⟩)
        (Nat.testBit_lt_two_pow (by
          have h2 : (2 : Nat) ≤ 2 ^ j := by
            calc (2 : Nat) = 2 ^ 1 := rfl
            _ ≤ 2 ^ j := Nat.pow_le_pow_right (by omega) hj1
          omega))]
      simp only [rec_feedback]

/-- C3: for a received symbol that passes the capacity guard, `decode_bits`
computes for each target state `i` the candidate distances
`d_p = curr[p] + dist(convert[b_p][p], rcv, reliability)` over exactly the
two predecessors `p1 = i >> 1` and `p2 = p1 | (1 << (k-2))` (with
`b_p = i & 1` non-recursive and `b_p = 0` iff `next_state[0][p] = i`
recursive), records the predecessor with the smaller distance in
`trellis[ctrellis][i]` (preferring `p1` on a tie) and its distance in the
next metric buffer, then increments `ctrellis` and swaps the metric buffers
(the bounds keep the C unsigned arithmetic exact). -/
theorem c3_acs_step (ce : convcode) (t : tables) (st : decstate) (rcv : Nat)
    (unc : Option (Nat → Nat)) (i : Nat)
    (hk : 2 ≤ ce.k) (hS : ce.num_states = 2 ^ (ce.k - 1)) (hi : i < ce.num_states)
    (hcap : st.ctrellis + ce.num_polys ≤ ce.trellis_size)
    (hcurr : ∀ p, p < ce.num_states → st.curr_path_values.getD p 0 ≤ 2147483647)
    (hunc : unc = none ∨ ∃ u, unc = some u ∧ ce.uncertainty_100 ≤ 255 ∧
      ce.num_polys ≤ 16 ∧ ∀ j, j < ce.num_polys → u j ≤ ce.uncertainty_100) :
    (decode_bits ce t st rcv unc).1 = 0 ∧
    (decode_bits ce t st rcv unc).2.trellis (trellis_index ce st.ctrellis i) =
      (if claim_branch_dist ce t st.curr_path_values rcv unc (i >>> 1) i ≤
          claim_branch_dist ce t st.curr_path_values rcv unc
            ((i >>> 1) ||| (1 <<< (ce.k - 2))) i
       then i >>> 1 else (i >>> 1) ||| (1 <<< (ce.k - 2))) ∧
    (decode_bits ce t st rcv unc).2.curr_path_values.getD i 0 =
      min (claim_branch_dist ce t st.curr_path_values rcv unc (i >>> 1) i)
        (claim_branch_dist ce t st.curr_path_values rcv unc
          ((i >>> 1) ||| (1 <<< (ce.k - 2))) i) ∧
    (decode_bits ce t st rcv unc).2.ctrellis = st.ctrellis + 1 ∧
    (decode_bits ce t st rcv unc).2.next_path_values = st.curr_path_values ∧
    (ce.recursive = false → get_prev_bit ce t (i >>> 1) i = (i &&& 1) ∧
      get_prev_bit ce t ((i >>> 1) ||| (1 <<< (ce.k - 2))) i = (i &&& 1)) ∧
    (ce.recursive = true →
      ∀ p, get_prev_bit ce t p i = 0 ↔ t.next_state 0 p = i) := by
  have hp1S : i >>> 1 < ce.num_states := by
    have : i >>> 1 ≤ i := by
      rw [Nat.shiftRight_eq_div_pow]
      exact Nat.div_le_self i (2 ^ 1)
    omega
  have hp2S : (i >>> 1) ||| (1 <<< (ce.k - 2)) < ce.num_states := by
    rw [hS]
    have h1 : i >>> 1 < 2 ^ (ce.k - 1) := by rw [← hS]; exact hp1S
    have h2 : (1 <<< (ce.k - 2) : Nat) < 2 ^ (ce.k - 1) := by
      rw [Nat.one_shiftLeft]
      exact Nat.pow_lt_pow_right (by omega) (by omega)
    exact Nat.or_lt_two_pow h1 h2
  have hml : ∀ p, p < ce.num_states →
      (st.curr_path_values.getD p 0 +
        hamming_distance ce (t.convert (get_prev_bit ce t p i) p) rcv unc) % 4294967296 =
      claim_branch_dist ce t st.curr_path_values rcv unc p i := by
    intro p hp
    have hh := hamming_distance_le ce (t.convert (get_prev_bit ce t p i) p) rcv unc hunc
    have hc := hcurr p hp
    exact Nat.mod_eq_of_lt (by omega)
  have hacs : acs_pred ce t st.curr_path_values rcv unc i =
      (if claim_branch_dist ce t st.curr_path_values rcv unc (i >>> 1) i ≤
          claim_branch_dist ce t st.curr_path_values rcv unc
            ((i >>> 1) ||| (1 <<< (ce.k - 2))) i
       then i >>> 1 else (i >>> 1) ||| (1 <<< (ce.k - 2)),
       min (claim_branch_dist ce t st.curr_path_values rcv unc (i >>> 1) i)
         (claim_branch_dist ce t st.curr_path_values rcv unc
           ((i >>> 1) ||| (1 <<< (ce.k - 2))) i)) := by
    simp only [acs_pred, hml (i >>> 1) hp1S, hml ((i >>> 1) ||| (1 <<< (ce.k - 2))) hp2S]
    by_cases hle : claim_branch_dist ce t st.curr_path_values rcv unc (i >>> 1) i ≤
        claim_branch_dist ce t st.curr_path_values rcv unc
          ((i >>> 1) ||| (1 <<< (ce.k - 2))) i
    · rw [if_neg (by omega), if_pos hle, Nat.min_def, if_pos hle]
    · rw [if_pos (by omega), if_neg hle, Nat.min_def, if_neg hle]
  have hguard : ¬ce.trellis_size < st.ctrellis + ce.num_polys := by omega
  refine ⟨by simp only [decode_bits, if_neg hguard], ?_, ?_, ?_, ?_, ?_, ?_⟩
  · rw [decode_bits_trellis_write ce t st rcv unc i hcap hi, hacs]
  · have hh : (decode_bits ce t st rcv unc).2.curr_path_values =
        (List.range ce.num_states).map
          (fun i2 => (acs_pred ce t st.curr_path_values rcv unc i2).2) := by
      simp only [decode_bits, if_neg hguard]
    rw [hh, map_range_getD _ _ i hi, hacs]
  · simp only [decode_bits, if_neg hguard]
  · simp only [decode_bits, if_neg hguard]
  · intro h
    simp [get_prev_bit, h]
  · intro h
    intro p
    by_cases hx : t.next_state 0 p = i
    · simp [get_prev_bit, h, hx]
    · simp [get_prev_bit, h, hx]

/-- Witness for C3 at a concrete input: the S1 codec, a fresh decoder state,
target state `i = 2`, received symbol 1, hard decisions. -/
theorem c3_acs_step_check :
    ((2 : Nat) ≤ s9_code.k ∧ s9_code.num_states = 2 ^ (s9_code.k - 1) ∧
      2 < s9_code.num_states ∧
      s9_st0.ctrellis + s9_code.num_polys ≤ s9_code.trellis_size ∧
      (∀ p, p < s9_code.num_states → s9_st0.curr_path_values.getD p 0 ≤ 2147483647)) ∧
    ((decode_bits s9_code s9_tables s9_st0 1 none).1 = 0 ∧
    (decode_bits s9_code s9_tables s9_st0 1 none).2.trellis
        (trellis_index s9_code s9_st0.ctrellis 2) =
      (if claim_branch_dist s9_code s9_tables s9_st0.curr_path_values 1 none (2 >>> 1) 2 ≤
          claim_branch_dist s9_code s9_tables s9_st0.curr_path_values 1 none
            ((2 >>> 1) ||| (1 <<< (s9_code.k - 2))) 2
       then 2 >>> 1 else (2 >>> 1) ||| (1 <<< (s9_code.k - 2))) ∧
    (decode_bits s9_code s9_tables s9_st0 1 none).2.curr_path_values.getD 2 0 =
      min (claim_branch_dist s9_code s9_tables s9_st0.curr_path_values 1 none (2 >>> 1) 2)
        (claim_branch_dist s9_code s9_tables s9_st0.curr_path_values 1 none
          ((2 >>> 1) ||| (1 <<< (s9_code.k - 2))) 2) ∧
    (decode_bits s9_code s9_tables s9_st0 1 none).2.ctrellis = s9_st0.ctrellis + 1 ∧
    (decode_bits s9_code s9_tables s9_st0 1 none).2.next_path_values =
      s9_st0.curr_path_values ∧
    (s9_code.recursive = false → get_prev_bit s9_code s9_tables (2 >>> 1) 2 = (2 &&& 1) ∧
      get_prev_bit s9_code s9_tables ((2 >>> 1) ||| (1 <<< (s9_code.k - 2))) 2 = (2 &&& 1)) ∧
    (s9_code.recursive = true →
      ∀ p, get_prev_bit s9_code s9_tables p 2 = 0 ↔ s9_tables.next_state 0 p = 2)) :=
  ⟨⟨by decide, by decide, by decide, by decide, by decide⟩,
   c3_acs_step s9_code s9_tables s9_st0 1 none 2 (by decide) (by decide) (by decide)
     (by decide) (by decide) (Or.inl rfl)⟩

/-- A traversal makes one read/store per step. -/
theorem pos_seq_length (n : Nat) : ∀ di, (pos_seq di n).length = n := by
  induction n with
  | zero => intro di; rfl
  | succ m ih =>
    intro di
    show (_ :: pos_seq (interleaver_next_bit di) m).length = m + 1
    simp [ih]

/-- Splitting a traversal. -/
theorem pos_seq_add (a : Nat) : ∀ (di : interleaver) (b : Nat),
    pos_seq di (a + b) = pos_seq di a ++ pos_seq (advance_n di a) b := by
  induction a with
  | zero => intro di b; rw [Nat.zero_add]; rfl
  | succ m ih =>
    intro di b
    have h1 : m + 1 + b = (m + b) + 1 := by omega
    rw [h1]
    show (di.row * di.interleave + di.col) :: pos_seq (interleaver_next_bit di) (m + b) =
      ((di.row * di.interleave + di.col) :: pos_seq (interleaver_next_bit di) m) ++ _
    rw [List.cons_append, ih (interleaver_next_bit di) b]
    rfl

/-- Splitting an advance. -/
theorem advance_n_add (a : Nat) : ∀ (di : interleaver) (b : Nat),
    advance_n di (a + b) = advance_n (advance_n di a) b := by
  induction a with
  | zero => intro di b; rw [Nat.zero_add]; rfl
  | succ m ih =>
    intro di b
    have h1 : m + 1 + b = (m + b) + 1 := by omega
    rw [h1]
    show advance_n (interleaver_next_bit di) (m + b) = _
    rw [ih (interleaver_next_bit di) b]
    rfl

/-- Running down the rest of one column: `j` steps from row `num_rows - j`
emit the positions of that column's remaining rows and leave the cursor at
the top of the next column (shrinking the grid if this column was the last
full one). -/
theorem col_run (j : Nat) : ∀ di : interleaver, 0 < j → di.row + j = di.num_rows →
    pos_seq di j = (List.range j).map (fun r2 => (di.row + r2) * di.interleave + di.col) ∧
    advance_n di j = ⟨di.interleave, di.total_bits,
      (if di.col = di.last_full_col then di.num_rows - 1 else di.num_rows),
      di.last_full_col, 0, di.col + 1⟩ := by
  induction j with
  | zero => intro di h; omega
  | succ m ih =>
    intro di hj hrow
    by_cases hm : m = 0
    · subst hm
      constructor
      · show [di.row * di.interleave + di.col] = _
        simp [List.range_succ]
      · show advance_n (interleaver_next_bit di) 0 = _
        simp only [advance_n, interleaver_next_bit,
          if_pos (by omega : di.num_rows ≤ di.row + 1)]
    · have hm1 : 0 < m := by omega
      have hlt : ¬ di.num_rows ≤ di.row + 1 := by omega
      have hnext : interleaver_next_bit di = { di with row := di.row + 1 } := by
        simp [interleaver_next_bit, hlt]
      have hih := ih { di with row := di.row + 1 } hm1 (by simp; omega)
      constructor
      · show (di.row * di.interleave + di.col) :: pos_seq (interleaver_next_bit di) m = _
        rw [hnext, hih.1, List.range_succ_eq_map, List.map_cons, List.map_map]
        show (di.row * di.interleave + di.col) :: (List.range m).map
            (fun r2 => (di.row + 1 + r2) * di.interleave + di.col) =
          ((di.row + 0) * di.interleave + di.col) :: (List.range m).map
            (fun r2 => (di.row + (r2 + 1)) * di.interleave + di.col)
        simp only [List.cons.injEq]
        constructor
        · rw [Nat.add_zero]
        · apply List.map_congr_left
          intro a _
          have h3 : di.row + 1 + a = di.row + (a + 1) := by omega
          rw [h3]
      · show advance_n (interleaver_next_bit di) m = _
        rw [hnext, hih.2]

/-- Running `m` whole columns of `R` rows, none of them the last full column:
the emitted positions are the column-major grid block and the cursor moves
`m` columns right with the grid intact. -/
theorem steady_run (m : Nat) : ∀ (di : interleaver) (R : Nat), di.row = 0 →
    di.num_rows = R → 0 < R →
    (∀ c, di.col ≤ c → c < di.col + m → c ≠ di.last_full_col) →
    pos_seq di (m * R) = ((List.range m).map (fun c =>
      (List.range R).map (fun r => r * di.interleave + (di.col + c)))).flatten ∧
    advance_n di (m * R) = ⟨di.interleave, di.total_bits, R, di.last_full_col,
      0, di.col + m⟩ := by
  induction m with
  | zero =>
    intro di R hrow hR hRpos hno
    constructor
    · rw [Nat.zero_mul]
      rfl
    · rw [Nat.zero_mul]
      rcases di with ⟨i1, t1, n1, l1, r1, c1⟩
      simp only [] at hrow hR
      subst hrow hR
      simp [advance_n]
  | succ m ih =>
    intro di R hrow hR hRpos hno
    have hsplit : (m + 1) * R = R + m * R := by ring
    have hcol := col_run R di hRpos (by omega)
    have hnotlfc : di.col ≠ di.last_full_col := hno di.col (Nat.le_refl _) (by omega)
    rw [if_neg hnotlfc, hR] at hcol
    have hih := ih (⟨di.interleave, di.total_bits, R, di.last_full_col, 0,
        di.col + 1⟩ : interleaver) R rfl rfl hRpos
      (by
        intro c h1 h2
        have h1b : di.col + 1 ≤ c := h1
        have h2b : c < di.col + 1 + m := h2
        exact hno c (by omega) (by omega))
    constructor
    · rw [hsplit, pos_seq_add, hcol.1, hcol.2, hih.1,
        List.range_succ_eq_map, List.map_cons, List.map_map, List.flatten_cons]
      congr 1
      · apply List.map_congr_left
        intro a _
        rw [hrow]
        simp
      · congr 1
        apply List.map_congr_left
        intro c _
        show (List.range R).map (fun r => r * di.interleave + (di.col + 1 + c)) =
          (List.range R).map (fun r => r * di.interleave + (di.col + (c + 1)))
        apply List.map_congr_left
        intro r _
        omega
    · rw [hsplit, advance_n_add, hcol.2, hih.2]
      show (⟨di.interleave, di.total_bits, R, di.last_full_col, 0,
        di.col + 1 + m⟩ : interleaver) = _
      have h6 : di.col + 1 + m = di.col + (m + 1) := by omega
      rw [h6]

/-- `col_run` restated at an explicit cursor sitting at the top of column
`c0` of an `R`-row grid. -/
theorem col_run_mk (il tb R lfc c0 : Nat) (hR : 0 < R) :
    pos_seq (⟨il, tb, R, lfc, 0, c0⟩ : interleaver) R =
      (List.range R).map (fun r => r * il + c0) ∧
    advance_n (⟨il, tb, R, lfc, 0, c0⟩ : interleaver) R =
      ⟨il, tb, (if c0 = lfc then R - 1 else R), lfc, 0, c0 + 1⟩ := by
  have h := col_run R (⟨il, tb, R, lfc, 0, c0⟩ : interleaver) hR (Nat.zero_add R)
  constructor
  · rw [h.1]
    apply List.map_congr_left
    intro a _
    rw [Nat.zero_add]
  · exact h.2

/-- `steady_run` restated at an explicit cursor at the top of column `c0`. -/
theorem steady_run_mk (il tb R lfc c0 m : Nat) (hR : 0 < R)
    (hno : ∀ c, c0 ≤ c → c < c0 + m → c ≠ lfc) :
    pos_seq (⟨il, tb, R, lfc, 0, c0⟩ : interleaver) (m * R) =
      ((List.range m).map (fun c =>
        (List.range R).map (fun r => r * il + (c0 + c)))).flatten ∧
    advance_n (⟨il, tb, R, lfc, 0, c0⟩ : interleaver) (m * R) =
      ⟨il, tb, R, lfc, 0, c0 + m⟩ :=
  steady_run m (⟨il, tb, R, lfc, 0, c0⟩ : interleaver) R rfl rfl hR hno

/-- Flattening a list of empty lists gives the empty list. -/
theorem flatten_map_nil {α : Type} (l : List α) :
    (l.map (fun _ => ([] : List Nat))).flatten = [] := by
  induction l with
  | nil => rfl
  | cons a t ih => simp [ih]

/-- The full traversal's position sequence, in closed form: column `c` of the
`interleave`-column grid contributes rows `0 ≤ r < tb / il` (one more row when
`c < tb % il`), at bit positions `r * il + c`, columns left to right. -/
theorem pos_list_eq (il tb : Nat) (hil : 0 < il) :
    pos_list il tb = ((List.range il).map (fun c =>
      (List.range (tb / il + if c < tb % il then 1 else 0)).map
        (fun r => r * il + c))).flatten := by
  by_cases hrem : tb % il = 0
  · have htb : il * (tb / il) = tb := Nat.mul_div_cancel' (Nat.dvd_of_mod_eq_zero hrem)
    have hinit : interleaver_init il tb = ⟨il, tb, tb / il, il, 0, 0⟩ := by
      simp [interleaver_init, hrem]
    by_cases hq : tb / il = 0
    · have htb0 : tb = 0 := by rw [← htb, hq, Nat.mul_zero]
      subst htb0
      show ([] : List Nat) = _
      have hz : ∀ c, (List.range (0 / il + if c < 0 % il then 1 else 0)).map
          (fun r => r * il + c) = ([] : List Nat) := by
        intro c
        simp
      rw [List.map_congr_left (fun c _ => hz c)]
      rw [flatten_map_nil]
    · have hqpos : 0 < tb / il := Nat.pos_of_ne_zero hq
      have hsr := steady_run_mk il tb (tb / il) il 0 il hqpos
        (by intro c h1 h2; omega)
      have h2 : pos_seq (⟨il, tb, tb / il, il, 0, 0⟩ : interleaver) tb
          = pos_seq (⟨il, tb, tb / il, il, 0, 0⟩ : interleaver) (il * (tb / il)) := by
        rw [htb]
      show pos_seq (interleaver_init il tb) tb = _
      rw [hinit, h2, hsr.1]
      apply congrArg List.flatten
      apply List.map_congr_left
      intro c hc
      rw [hrem, if_neg (by omega : ¬ c < 0), Nat.add_zero]
      apply List.map_congr_left
      intro r _
      rw [Nat.zero_add]
  · have hremlt : tb % il < il := Nat.mod_lt tb hil
    obtain ⟨A, hA⟩ : ∃ A, tb % il = A + 1 := ⟨tb % il - 1, by omega⟩
    obtain ⟨m2, hm2⟩ : ∃ m2, il = (A + 1) + m2 := ⟨il - (A + 1), by omega⟩
    obtain ⟨q, hqq⟩ : ∃ q, tb / il = q := ⟨tb / il, rfl⟩
    have hdm := Nat.div_add_mod tb il
    rw [hqq, hA, hm2] at hdm
    have htb : tb = ((A + 1) + m2) * q + (A + 1) := hdm.symm
    have hinit : interleaver_init il tb = ⟨il, tb, q + 1, A, 0, 0⟩ := by
      rw [interleaver_init, if_neg hrem, hqq, hA]
      simp
    have hcount : tb = A * (q + 1) + ((q + 1) + m2 * q) := by
      rw [htb]
      ring
    show pos_seq (interleaver_init il tb) tb = _
    rw [hinit, hqq, hA]
    have hstep1 : pos_seq (⟨il, tb, q + 1, A, 0, 0⟩ : interleaver) tb
        = pos_seq (⟨il, tb, q + 1, A, 0, 0⟩ : interleaver)
            (A * (q + 1) + ((q + 1) + m2 * q)) := by
      rw [← hcount]
    rw [hstep1, pos_seq_add]
    have hsrA := steady_run_mk il tb (q + 1) A 0 A (Nat.succ_pos q)
      (by intro c h1 h2; omega)
    rw [hsrA.1, hsrA.2]
    have h0A : (⟨il, tb, q + 1, A, 0, 0 + A⟩ : interleaver)
        = ⟨il, tb, q + 1, A, 0, A⟩ := by
      rw [Nat.zero_add]
    rw [h0A, pos_seq_add]
    have hcolA := col_run_mk il tb (q + 1) A A (Nat.succ_pos q)
    rw [hcolA.1, hcolA.2]
    have hadv : (⟨il, tb, if A = A then (q + 1) - 1 else q + 1, A, 0, A + 1⟩ :
        interleaver) = ⟨il, tb, q, A, 0, A + 1⟩ := by
      rw [if_pos rfl, Nat.add_sub_cancel]
    have hC : pos_seq (⟨il, tb, q, A, 0, A + 1⟩ : interleaver) (m2 * q) =
        ((List.range m2).map (fun c =>
          (List.range q).map (fun r => r * il + ((A + 1) + c)))).flatten := by
      by_cases hq0 : q = 0
      · subst hq0
        rw [Nat.mul_zero]
        show ([] : List Nat) = _
        have hz : ∀ c, (List.range 0).map (fun r => r * il + ((A + 1) + c))
            = ([] : List Nat) := fun c => rfl
        rw [List.map_congr_left (fun c _ => hz c), flatten_map_nil]
      · exact (steady_run_mk il tb q A (A + 1) m2 (Nat.pos_of_ne_zero hq0)
          (by intro c h1 h2; omega)).1
    rw [hadv, hC]
    have hr : List.range il = (List.range A ++ [A]) ++
        (List.range m2).map (fun x => (A + 1) + x) := by
      rw [hm2, List.range_add, List.range_succ]
    rw [hr, List.map_append, List.map_append, List.flatten_append,
      List.flatten_append, List.map_map]
    have e1 : (List.range A).map (fun c =>
        (List.range (q + if c < A + 1 then 1 else 0)).map (fun r => r * il + c))
        = (List.range A).map (fun c =>
          (List.range (q + 1)).map (fun r => r * il + (0 + c))) := by
      apply List.map_congr_left
      intro c hc
      have hcA : c < A := List.mem_range.mp hc
      rw [if_pos (by omega : c < A + 1)]
      apply List.map_congr_left
      intro r _
      rw [Nat.zero_add]
    have e2 : [A].map (fun c =>
        (List.range (q + if c < A + 1 then 1 else 0)).map (fun r => r * il + c))
        = [(List.range (q + 1)).map (fun r => r * il + A)] := by
      rw [List.map_cons]
      rw [if_pos (by omega : A < A + 1)]
      rfl
    have e3 : (List.range m2).map ((fun c =>
        (List.range (q + if c < A + 1 then 1 else 0)).map (fun r => r * il + c))
          ∘ (fun x => (A + 1) + x))
        = (List.range m2).map (fun c =>
          (List.range q).map (fun r => r * il + ((A + 1) + c))) := by
      apply List.map_congr_left
      intro c _
      show (List.range (q + if (A + 1) + c < A + 1 then 1 else 0)).map
        (fun r => r * il + ((A + 1) + c)) = _
      rw [if_neg (by omega : ¬ (A + 1) + c < A + 1)]
      rfl
    rw [e1, e2, e3]
    rw [List.flatten_cons, List.flatten_nil, List.append_nil, List.append_assoc]

/-- A full traversal visits exactly the bit positions below `total_bits`. -/
theorem pos_list_mem (il tb : Nat) (hil : 0 < il) (p : Nat) :
    p ∈ pos_list il tb ↔ p < tb := by
  rw [pos_list_eq il tb hil, List.mem_flatten]
  constructor
  · rintro ⟨l, hl, hp⟩
    obtain ⟨c, hc, rfl⟩ := List.mem_map.mp hl
    have hcil : c < il := List.mem_range.mp hc
    obtain ⟨r, hr, rfl⟩ := List.mem_map.mp hp
    have hrlt : r < tb / il + if c < tb % il then 1 else 0 := List.mem_range.mp hr
    have hdm := Nat.div_add_mod tb il
    by_cases hcr : c < tb % il
    · rw [if_pos hcr] at hrlt
      have h5 : r * il ≤ (tb / il) * il := Nat.mul_le_mul_right il (by omega)
      have h6 : (tb / il) * il = il * (tb / il) := Nat.mul_comm _ _
      omega
    · rw [if_neg hcr] at hrlt
      have h5 : (r + 1) * il ≤ (tb / il) * il := Nat.mul_le_mul_right il (by omega)
      have h6 : (r + 1) * il = r * il + il := by ring
      have h7 : (tb / il) * il = il * (tb / il) := Nat.mul_comm _ _
      omega
  · intro hp
    refine ⟨(List.range (tb / il + if p % il < tb % il then 1 else 0)).map
        (fun r => r * il + p % il), ?_, ?_⟩
    · exact List.mem_map.mpr ⟨p % il, List.mem_range.mpr (Nat.mod_lt _ hil), rfl⟩
    · refine List.mem_map.mpr ⟨p / il, List.mem_range.mpr ?_, ?_⟩
      · have hdm := Nat.div_add_mod p il
        have hdm2 := Nat.div_add_mod tb il
        have hle : p / il ≤ tb / il := Nat.div_le_div_right (Nat.le_of_lt hp)
        by_cases hcr : p % il < tb % il
        · rw [if_pos hcr]
          omega
        · rw [if_neg hcr]
          by_contra hcon
          have heq : p / il = tb / il := by omega
          rw [heq] at hdm
          omega
      · rw [Nat.mul_comm]
        exact Nat.div_add_mod p il

/-- A full traversal visits no bit position twice. -/
theorem pos_list_nodup (il tb : Nat) (hil : 0 < il) : (pos_list il tb).Nodup := by
  rw [pos_list_eq il tb hil, List.nodup_flatten]
  constructor
  · intro l hl
    obtain ⟨c, hc, rfl⟩ := List.mem_map.mp hl
    refine List.Nodup.map ?_ (List.nodup_range _)
    intro a b hab
    have hab2 : a * il + c = b * il + c := hab
    have h1 : a * il = b * il := by omega
    exact Nat.eq_of_mul_eq_mul_right hil h1
  · rw [List.pairwise_map]
    refine List.Pairwise.imp_of_mem ?_ (List.pairwise_lt_range il)
    intro c1 c2 h1 h2 hlt
    have hc1 : c1 < il := List.mem_range.mp h1
    have hc2 : c2 < il := List.mem_range.mp h2
    intro x hx1 hx2
    obtain ⟨r1, _, rfl⟩ := List.mem_map.mp hx1
    obtain ⟨r2, _, hx⟩ := List.mem_map.mp hx2
    have hm1 : (r1 * il + c1) % il = c1 := by
      rw [Nat.mul_comm, Nat.mul_add_mod]
      exact Nat.mod_eq_of_lt hc1
    have hm2 : (r2 * il + c2) % il = c2 := by
      rw [Nat.mul_comm, Nat.mul_add_mod]
      exact Nat.mod_eq_of_lt hc2
    rw [hx] at hm2
    omega

/-- `get_bit` is the indicator of the byte buffer's bit `p % 8` of byte
`p / 8`. -/
theorem get_bit_eq_testBit (data : Nat → Nat) (p : Nat) :
    get_bit data p = if (data (p / 8)).testBit (p % 8) then 1 else 0 := by
  simp only [get_bit, Nat.and_one_is_mod, Nat.shiftRight_eq_div_pow,
    Nat.testBit_to_div_mod]
  rcases Nat.mod_two_eq_zero_or_one (data (p / 8) / 2 ^ (p % 8)) with h | h <;> simp [h]

/-- A bit read is 0 or 1. -/
theorem get_bit_le_one (data : Nat → Nat) (p : Nat) : get_bit data p ≤ 1 :=
  Nat.and_le_right

/-- A store at one bit position leaves every other bit position's value
unchanged. -/
theorem get_bit_write_other (data : Nat → Nat) (p p2 b : Nat) (hb : b ≤ 1)
    (hne : p ≠ p2) :
    get_bit (write_bit data p2 b) p = get_bit data p := by
  by_cases hbyte : p / 8 = p2 / 8
  · have hbit : p % 8 ≠ p2 % 8 := by omega
    rw [get_bit_eq_testBit, get_bit_eq_testBit]
    have hcell : write_bit data p2 b (p / 8)
        = data (p2 / 8) ||| (b <<< (p2 % 8)) := by
      rw [hbyte]
      exact Function.update_same _ _ _
    rw [hcell, hbyte]
    have hsh : (b <<< (p2 % 8)).testBit (p % 8) = false := by
      rw [Nat.testBit_shiftLeft]
      by_cases hle : p2 % 8 ≤ p % 8
      · have hge : 1 ≤ p % 8 - p2 % 8 := by omega
        have hbf : b.testBit (p % 8 - p2 % 8) = false := by
          apply Nat.testBit_lt_two_pow
          calc b < 2 := by omega
            _ = 2 ^ 1 := rfl
            _ ≤ 2 ^ (p % 8 - p2 % 8) := Nat.pow_le_pow_right (by omega) hge
        simp [hbf]
      · simp [hle]
    rw [Nat.testBit_or, hsh, Bool.or_false]
  · rw [get_bit_eq_testBit, get_bit_eq_testBit]
    have hcell : write_bit data p2 b (p / 8) = data (p / 8) :=
      Function.update_noteq hbyte _ _
    rw [hcell]

/-- A store of `b ≤ 1` at a bit position that currently reads 0 makes that
position read `b` (the OR never clears bits, so this needs the zero start). -/
theorem get_bit_write_same (data : Nat → Nat) (p b : Nat) (hb : b ≤ 1)
    (h0 : get_bit data p = 0) :
    get_bit (write_bit data p b) p = b := by
  have hfalse : (data (p / 8)).testBit (p % 8) = false := by
    rw [get_bit_eq_testBit] at h0
    cases hxx : (data (p / 8)).testBit (p % 8) with
    | false => rfl
    | true => simp [hxx] at h0
  rw [get_bit_eq_testBit]
  have hcell : write_bit data p b (p / 8)
      = data (p / 8) ||| (b <<< (p % 8)) := Function.update_same _ _ _
  rw [hcell, Nat.testBit_or, hfalse, Nat.testBit_shiftLeft, Bool.false_or]
  have hsub : p % 8 - p % 8 = 0 := Nat.sub_self _
  rw [hsub, Nat.testBit_zero]
  rcases Nat.le_one_iff_eq_zero_or_eq_one.mp hb with h | h <;> subst h <;> simp

/-- A run of stores, none of them at position `p`, leaves bit `p` unchanged. -/
theorem get_bit_apply_writes_other (ws : List (Nat × Nat)) :
    ∀ (data : Nat → Nat) (p : Nat),
    (∀ w ∈ ws, w.2 ≤ 1) → (∀ w ∈ ws, w.1 ≠ p) →
    get_bit (apply_writes data ws) p = get_bit data p := by
  induction ws with
  | nil => intro data p _ _; rfl
  | cons w rest ih =>
    intro data p hb hne
    show get_bit (apply_writes (write_bit data w.1 w.2) rest) p = _
    rw [ih _ p (fun x hx => hb x (List.mem_cons_of_mem _ hx))
      (fun x hx => hne x (List.mem_cons_of_mem _ hx))]
    exact get_bit_write_other data p w.1 w.2 (hb w (List.mem_cons_self _ _))
      (fun h => hne w (List.mem_cons_self _ _) h.symm)

/-- A run of bit stores at pairwise distinct positions, applied to a buffer
whose bit `p` is 0, makes bit `p` read the value stored there. -/
theorem get_bit_apply_writes (ws : List (Nat × Nat)) :
    ∀ (data : Nat → Nat) (p b : Nat),
    (p, b) ∈ ws → (∀ w ∈ ws, w.2 ≤ 1) → (ws.map Prod.fst).Nodup →
    get_bit data p = 0 → get_bit (apply_writes data ws) p = b := by
  induction ws with
  | nil => intro data p b hmem _ _ _; exact absurd hmem (List.not_mem_nil _)
  | cons w rest ih =>
    intro data p b hmem hb hnd h0
    rw [List.map_cons, List.nodup_cons] at hnd
    rcases List.mem_cons.mp hmem with heq | hmem2
    · obtain rfl := heq.symm
      show get_bit (apply_writes (write_bit data p b) rest) p = b
      rw [get_bit_apply_writes_other rest _ p
        (fun x hx => hb x (List.mem_cons_of_mem _ hx))
        (by
          intro x hx hxp
          apply hnd.1
          show p ∈ List.map Prod.fst rest
          rw [← hxp]
          exact List.mem_map.mpr ⟨x, hx, rfl⟩)]
      exact get_bit_write_same data p b (hb _ (List.mem_cons_self _ _)) h0
    · have hne : w.1 ≠ p := by
        intro hww
        exact hnd.1 (hww ▸ List.mem_map.mpr ⟨(p, b), hmem2, rfl⟩)
      show get_bit (apply_writes (write_bit data w.1 w.2) rest) p = b
      apply ih _ p b hmem2 (fun x hx => hb x (List.mem_cons_of_mem _ hx)) hnd.2
      rw [get_bit_write_other data p w.1 w.2 (hb w (List.mem_cons_self _ _))
        (fun h => hne h.symm)]
      exact h0

/-- The interleave read loop emits exactly the buffer's bits at the cursor's
position sequence. -/
theorem interleave_run_eq (data : Nat → Nat) (n : Nat) : ∀ di,
    interleave_run data di n = (pos_seq di n).map (get_bit data) := by
  induction n with
  | zero => intro di; rfl
  | succ m ih =>
    intro di
    rw [show interleave_run data di (m + 1)
        = get_bit data (di.row * di.interleave + di.col)
          :: interleave_run data (interleaver_next_bit di) m from rfl]
    rw [ih]
    rfl

/-- The deinterleave store loop is the write sequence at the cursor's
position sequence. -/
theorem deinterleave_run_eq (bs : List Nat) : ∀ (di : interleaver) (data : Nat → Nat),
    deinterleave_run di data bs = apply_writes data ((pos_seq di bs.length).zip bs) := by
  induction bs with
  | nil => intro di data; rfl
  | cons b rest ih =>
    intro di data
    rw [show deinterleave_run di data (b :: rest)
        = deinterleave_run (interleaver_next_bit di)
            (write_bit data (di.row * di.interleave + di.col) b) rest from rfl]
    rw [ih]
    rfl

/-- Zipping a list with its image pairs each element with its image. -/
theorem zip_map_self (data : Nat → Nat) (l : List Nat) :
    l.zip (l.map (get_bit data)) = l.map (fun x => (x, get_bit data x)) := by
  induction l with
  | nil => rfl
  | cons a t ih => rw [List.map_cons, List.zip_cons_cons, ih, List.map_cons]

/-- Witness for C2 at a concrete input: the 3GPP turbo constituent code,
`k = 4`, polynomials 012 and 015 (octal), recursive, `b = 1`, `s = 5`,
`j = 1`. -/
theorem c2_encoder_tables_check :
    ((1 : Nat) ≤ 2 ∧ (2 : Nat) ≤ 16 ∧ (4 : Nat) ≤ 16 ∧ (1 : Nat) ≤ 1 ∧
      5 < (setup_code 4 [0o12, 0o15] 2 0 true true).num_states ∧ (1 : Nat) < 2) ∧
    ((setup_code 4 [0o12, 0o15] 2 0 true true).polys 1 =
      reverse_bits 4 ([0o12, 0o15].getD 1 0) ∧
    (true = false →
      (setup_convcode2 (setup_code 4 [0o12, 0o15] 2 0 true true)).next_state 1 5 =
        ((5 <<< 1) ||| 1) &&& ((setup_code 4 [0o12, 0o15] 2 0 true true).num_states - 1) ∧
      ((setup_convcode2 (setup_code 4 [0o12, 0o15] 2 0 true true)).convert 1 5).testBit 1 =
        decide (num_bits_is_odd (((5 <<< 1) ||| 1) &&&
          (setup_code 4 [0o12, 0o15] 2 0 true true).polys 1) = 1)) ∧
    (true = true →
      (setup_convcode2 (setup_code 4 [0o12, 0o15] 2 0 true true)).next_state 1 5 =
        ((5 <<< 1) ||| num_bits_is_odd (((5 <<< 1) ||| 1) &&&
          (setup_code 4 [0o12, 0o15] 2 0 true true).polys 0)) &&&
          ((setup_code 4 [0o12, 0o15] 2 0 true true).num_states - 1) ∧
      ((setup_convcode2 (setup_code 4 [0o12, 0o15] 2 0 true true)).convert 1 5).testBit 0 =
        decide ((1 : Nat) = 1) ∧
      ((1 : Nat) ≤ 1 →
        ((setup_convcode2 (setup_code 4 [0o12, 0o15] 2 0 true true)).convert 1 5).testBit 1 =
          decide (num_bits_is_odd
            (((5 <<< 1) ||| num_bits_is_odd (((5 <<< 1) ||| 1) &&&
              (setup_code 4 [0o12, 0o15] 2 0 true true).polys 0)) &&&
              (setup_code 4 [0o12, 0o15] 2 0 true true).polys 1) = 1)))) :=
  ⟨⟨by decide, by decide, by decide, by decide, by decide, by decide⟩,
   c2_encoder_tables 4 [0o12, 0o15] 2 0 true true _ _ rfl rfl (by decide) (by decide)
     (by decide) 1 5 1 (by decide) (by decide) (by decide)⟩

/-- C8: for every `interleave ∈ [1,32]` and `total_bits ∈ [1,256]`, one
length-`total_bits` traversal makes exactly `total_bits` reads/stores and
visits every distinct bit position of the buffer exactly once (its position
sequence has no duplicate and ranges over exactly the positions below
`total_bits`), and deinterleaving into a zero-initialized buffer the bit
sequence produced by interleaving a buffer reproduces that buffer's
`total_bits` bits exactly. -/
theorem c8_interleaver (il tb : Nat)
    (h1 : 1 ≤ il) (h2 : il ≤ 32) (h3 : 1 ≤ tb) (h4 : tb ≤ 256) :
    (pos_list il tb).length = tb ∧
    (pos_list il tb).Nodup ∧
    (∀ p, p ∈ pos_list il tb ↔ p < tb) ∧
    (∀ data : Nat → Nat, ∀ p, p < tb →
      get_bit (deinterleave_run (interleaver_init il tb) (fun _ => 0)
        (interleave_run data (interleaver_init il tb) tb)) p = get_bit data p) := by
  have hil : 0 < il := h1
  refine ⟨pos_seq_length tb _, pos_list_nodup il tb hil,
    fun p => pos_list_mem il tb hil p, ?_⟩
  intro data p hp
  rw [interleave_run_eq, deinterleave_run_eq]
  have hlen : ((pos_seq (interleaver_init il tb) tb).map (get_bit data)).length
      = tb := by
    rw [List.length_map, pos_seq_length]
  rw [hlen, zip_map_self]
  apply get_bit_apply_writes
  · exact List.mem_map.mpr ⟨p, (pos_list_mem il tb hil p).mpr hp, rfl⟩
  · intro w hw
    obtain ⟨x, hx, rfl⟩ := List.mem_map.mp hw
    exact get_bit_le_one data x
  · rw [List.map_map]
    have hfst : (Prod.fst ∘ fun x : Nat => (x, get_bit data x))
        = fun x : Nat => x := rfl
    rw [hfst, List.map_id']
    exact pos_list_nodup il tb hil
  · simp [get_bit]

/-- Witness for C8 at `interleave = 3`, `total_bits = 8` (the spec's own
worked example of the 3-column traversal). -/
theorem c8_interleaver_check :
    ((1 : Nat) ≤ 3 ∧ (3 : Nat) ≤ 32 ∧ (1 : Nat) ≤ 8 ∧ (8 : Nat) ≤ 256) ∧
    ((pos_list 3 8).length = 8 ∧
     (pos_list 3 8).Nodup ∧
     (∀ p, p ∈ pos_list 3 8 ↔ p < 8) ∧
     (∀ data : Nat → Nat, ∀ p, p < 8 →
       get_bit (deinterleave_run (interleaver_init 3 8) (fun _ => 0)
         (interleave_run data (interleaver_init 3 8) 8)) p = get_bit data p)) :=
  ⟨⟨by decide, by decide, by decide, by decide⟩,
   c8_interleaver 3 8 (by decide) (by decide) (by decide) (by decide)⟩

/-!  Bit-stream utilities for the round-trip development. -/

/-- A single extracted bit as the indicator of the tested bit. -/
theorem bit_if (v j : Nat) : (v >>> j) &&& 1 = if v.testBit j then 1 else 0 := by
  rw [Nat.and_one_is_mod, Nat.shiftRight_eq_div_pow, Nat.testBit_to_div_mod]
  rcases Nat.mod_two_eq_zero_or_one (v / 2 ^ j) with h | h <;> simp [h]

/-- Length of a bit expansion. -/
theorem le_bits_length (v n : Nat) : (le_bits v n).length = n := by
  simp [le_bits]

/-- Peeling the low bit off a bit expansion. -/
theorem le_bits_succ (v n : Nat) :
    le_bits v (n + 1) = (v &&& 1) :: le_bits (v >>> 1) n := by
  simp only [le_bits, List.range_succ_eq_map, List.map_cons, List.map_map]
  show ((v >>> 0) &&& 1) :: (List.range n).map (fun j => (v >>> (j + 1)) &&& 1)
      = (v &&& 1) :: (List.range n).map (fun j => ((v >>> 1) >>> j) &&& 1)
  simp only [List.cons.injEq]
  refine ⟨by rw [Nat.shiftRight_zero], List.map_congr_left ?_⟩
  intro j _
  rw [Nat.add_comm j 1, Nat.shiftRight_add]

/-- Splitting a bit expansion. -/
theorem le_bits_append (v a b : Nat) :
    le_bits v (a + b) = le_bits v a ++ le_bits (v >>> a) b := by
  simp only [le_bits, List.range_add, List.map_append, List.map_map]
  show (List.range a).map (fun j => (v >>> j) &&& 1) ++
      (List.range b).map (fun j => (v >>> (a + j)) &&& 1)
    = (List.range a).map (fun j => (v >>> j) &&& 1) ++
      (List.range b).map (fun j => ((v >>> a) >>> j) &&& 1)
  have h2 : (List.range b).map (fun j => (v >>> (a + j)) &&& 1)
      = (List.range b).map (fun j => ((v >>> a) >>> j) &&& 1) :=
    List.map_congr_left (fun j _ => by rw [Nat.shiftRight_add])
  rw [h2]

/-- Indexing a bit expansion. -/
theorem le_bits_getD (v n j : Nat) (hj : j < n) :
    (le_bits v n).getD j 0 = (v >>> j) &&& 1 :=
  map_range_getD _ n j hj

/-- Bit expansions only see the low `n` bits. -/
theorem le_bits_congr (v w n : Nat) (h : ∀ j, j < n → v.testBit j = w.testBit j) :
    le_bits v n = le_bits w n := by
  simp only [le_bits]
  apply List.map_congr_left
  intro j hj
  rw [bit_if, bit_if, h j (List.mem_range.mp hj)]

/-- Entries of a bit expansion are bits. -/
theorem le_bits_mem_le_one (v n : Nat) : ∀ b ∈ le_bits v n, b ≤ 1 := by
  intro b hb
  obtain ⟨j, _, rfl⟩ := List.mem_map.mp hb
  rw [Nat.and_one_is_mod]
  omega

/-- The value of a 0/1 list is below `2 ^ length`. -/
theorem bits_val_lt (bl : List Nat) (h : ∀ b ∈ bl, b ≤ 1) :
    bits_val bl < 2 ^ bl.length := by
  induction bl with
  | nil => simp [bits_val]
  | cons b r ih =>
    have hb : b ≤ 1 := h b (List.mem_cons_self _ _)
    have hr := ih (fun x hx => h x (List.mem_cons_of_mem _ hx))
    show b + 2 * bits_val r < 2 ^ (r.length + 1)
    rw [pow_succ]
    omega

/-- Bit `j` of the value of a 0/1 list is entry `j`. -/
theorem bits_val_testBit (bl : List Nat) (h : ∀ b ∈ bl, b ≤ 1) : ∀ j,
    (bits_val bl).testBit j = decide (bl.getD j 0 = 1) := by
  induction bl with
  | nil =>
    intro j
    show (0 : Nat).testBit j = decide ((0 : Nat) = 1)
    simp [Nat.zero_testBit]
  | cons b r ih =>
    intro j
    have hb : b ≤ 1 := h b (List.mem_cons_self _ _)
    cases j with
    | zero =>
      show (b + 2 * bits_val r).testBit 0 = decide (b = 1)
      have hmod : (b + 2 * bits_val r) % 2 = b := by omega
      rw [Nat.testBit_zero, hmod]
    | succ jj =>
      show (b + 2 * bits_val r).testBit (jj + 1) = decide (r.getD jj 0 = 1)
      rw [Nat.testBit_add_one]
      have hdiv : (b + 2 * bits_val r) / 2 = bits_val r := by omega
      rw [hdiv]
      exact ih (fun x hx => h x (List.mem_cons_of_mem _ hx)) jj

/-- Expanding the value of a 0/1 list gives the list back. -/
theorem le_bits_bits_val (bl : List Nat) (h : ∀ b ∈ bl, b ≤ 1) :
    le_bits (bits_val bl) bl.length = bl := by
  induction bl with
  | nil => rfl
  | cons b r ih =>
    have hb : b ≤ 1 := h b (List.mem_cons_self _ _)
    show le_bits (bits_val (b :: r)) (r.length + 1) = b :: r
    rw [le_bits_succ]
    have h1 : bits_val (b :: r) &&& 1 = b := by
      rw [Nat.and_one_is_mod]
      show (b + 2 * bits_val r) % 2 = b
      omega
    have h2 : bits_val (b :: r) >>> 1 = bits_val r := by
      rw [Nat.shiftRight_one]
      show (b + 2 * bits_val r) / 2 = bits_val r
      omega
    rw [h1, h2, ih (fun x hx => h x (List.mem_cons_of_mem _ hx))]

/-- The value of a bit expansion is the value mod `2 ^ n`. -/
theorem bits_val_le_bits (v n : Nat) : bits_val (le_bits v n) = v % 2 ^ n := by
  induction n generalizing v with
  | zero =>
    show (0 : Nat) = v % 2 ^ 0
    rw [Nat.pow_zero, Nat.mod_one]
  | succ m ih =>
    rw [le_bits_succ]
    show (v &&& 1) + 2 * bits_val (le_bits (v >>> 1) m) = v % 2 ^ (m + 1)
    rw [ih, Nat.and_one_is_mod, Nat.shiftRight_one, pow_succ', Nat.mod_mul]

/-- OR-ing 1 into an even number adds 1. -/
theorem or_one_of_even (x : Nat) (hx : x % 2 = 0) : x ||| 1 = x + 1 := by
  apply Nat.eq_of_testBit_eq
  intro j
  cases j with
  | zero =>
    rw [Nat.testBit_or]
    have h1 : (x + 1).testBit 0 = true := by
      rw [Nat.testBit_zero]
      simp [Nat.add_mod, hx]
    have h2 : (1 : Nat).testBit 0 = true := rfl
    rw [h1, h2, Bool.or_true]
  | succ jj =>
    rw [Nat.testBit_or]
    have h1 : (1 : Nat).testBit (jj + 1) = false :=
      Nat.testBit_lt_two_pow (by
        have : (2 : Nat) ≤ 2 ^ (jj + 1) := by
          calc (2 : Nat) = 2 ^ 1 := rfl
            _ ≤ 2 ^ (jj + 1) := Nat.pow_le_pow_right (by omega) (by omega)
        omega)
    rw [h1, Bool.or_false, Nat.testBit_add_one, Nat.testBit_add_one,
      (by omega : (x + 1) / 2 = x / 2)]

/-- OR-ing a power of two above a number adds it. -/
theorem or_two_pow_of_lt (a n : Nat) (ha : a < 2 ^ n) : a ||| 2 ^ n = a + 2 ^ n := by
  apply Nat.eq_of_testBit_eq
  intro j
  rw [Nat.testBit_or, Nat.testBit_two_pow]
  rcases Nat.lt_trichotomy j n with hj | hj | hj
  · have h1 : (a + 2 ^ n).testBit j = ((a + 2 ^ n) % 2 ^ n).testBit j := by
      rw [Nat.testBit_mod_two_pow]
      simp [hj]
    have h2 : (a + 2 ^ n) % 2 ^ n = a := by
      rw [Nat.add_mod_right]
      exact Nat.mod_eq_of_lt ha
    rw [h1, h2, decide_eq_false (by omega : ¬ n = j), Bool.or_false]
  · subst hj
    have h1 : (a + 2 ^ j) / 2 ^ j = 1 := by
      rw [Nat.add_div_right _ (Nat.pos_pow_of_pos j (by omega))]
      rw [Nat.div_eq_of_lt ha]
    have h2 : (a + 2 ^ j).testBit j = true := by
      rw [Nat.testBit_to_div_mod, h1]
      rfl
    rw [h2, decide_eq_true (rfl : j = j), Bool.or_true]
  · have hlt : a + 2 ^ n < 2 ^ j := by
      have h4 : 2 ^ (n + 1) ≤ 2 ^ j := Nat.pow_le_pow_right (by omega) (by omega)
      rw [pow_succ] at h4
      omega
    have h1 : (a + 2 ^ n).testBit j = false := Nat.testBit_lt_two_pow hlt
    have h2 : a.testBit j = false := Nat.testBit_lt_two_pow (by omega)
    rw [h1, h2, decide_eq_false (by omega : ¬ n = j), Bool.or_false]

/-- A left shift by one OR a bit is the doubled value plus the bit. -/
theorem shiftLeft_one_or (s v : Nat) (hv : v ≤ 1) : (s <<< 1) ||| v = 2 * s + v := by
  have hs : s <<< 1 = 2 * s := by
    rw [Nat.shiftLeft_eq]
    ring
  rcases Nat.le_one_iff_eq_zero_or_eq_one.mp hv with h | h <;> subst h
  · rw [Nat.or_zero, hs]
    omega
  · rw [or_one_of_even _ (by rw [hs]; omega), hs]

/-- AND distributes over OR on the left operand. -/
theorem or_and_distrib (a b c : Nat) : (a ||| b) &&& c = (a &&& c) ||| (b &&& c) := by
  apply Nat.eq_of_testBit_eq
  intro j
  rw [Nat.testBit_and, Nat.testBit_or, Nat.testBit_or, Nat.testBit_and, Nat.testBit_and]
  rcases a.testBit j <;> rcases b.testBit j <;> rcases c.testBit j <;> rfl

/-- Parity flips when the low bit of an even 32-bit value is set. -/
theorem num_bits_is_odd_or_one (x : Nat) (hx : x < 2 ^ 32) (heven : x % 2 = 0) :
    num_bits_is_odd (x ||| 1) ≠ num_bits_is_odd x := by
  have hor : x ||| 1 = x + 1 := or_one_of_even x heven
  have hx1 : x + 1 < 2 ^ 32 := by omega
  rw [hor]
  show num_bits_is_odd_loop 32 (x + 1) ≠ num_bits_is_odd_loop 32 x
  rw [num_bits_is_odd_loop_spec 32 (x + 1) hx1, num_bits_is_odd_loop_spec 32 x hx]
  have hL : (∑ j ∈ Finset.range 32, if (x + 1).testBit j then (1 : Nat) else 0)
      = (∑ j ∈ Finset.range 31, if (x + 1).testBit (j + 1) then (1 : Nat) else 0)
        + (if (x + 1).testBit 0 then (1 : Nat) else 0) :=
    Finset.sum_range_succ' _ 31
  have hR : (∑ j ∈ Finset.range 32, if x.testBit j then (1 : Nat) else 0)
      = (∑ j ∈ Finset.range 31, if x.testBit (j + 1) then (1 : Nat) else 0)
        + (if x.testBit 0 then (1 : Nat) else 0) :=
    Finset.sum_range_succ' _ 31
  rw [hL, hR]
  have hsame : ∀ j, (x + 1).testBit (j + 1) = x.testBit (j + 1) := by
    intro j
    rw [Nat.testBit_add_one, Nat.testBit_add_one, (by omega : (x + 1) / 2 = x / 2)]
  have hb1 : (x + 1).testBit 0 = true := by
    rw [Nat.testBit_zero]
    simp [Nat.add_mod, heven]
  have hb0 : x.testBit 0 = false := by
    rw [Nat.testBit_zero]
    simp [heven]
  simp only [hsame, hb1, hb0]
  have e1 : (if True then (1 : Nat) else 0) = 1 := if_pos trivial
  have e2 : (if (false : Bool) = true then (1 : Nat) else 0) = 0 := rfl
  rw [e1, e2]
  omega

/-!  Byte packing and `extract_bits`. -/

/-- Entries of a 0/1 list through `getD`. -/
theorem getD_le_one (l : List Nat) (h : ∀ b ∈ l, b ≤ 1) (p : Nat) : l.getD p 0 ≤ 1 := by
  induction l generalizing p with
  | nil => show (0 : Nat) ≤ 1; omega
  | cons b r ih =>
    cases p with
    | zero => exact h b (List.mem_cons_self _ _)
    | succ q => exact ih (fun x hx => h x (List.mem_cons_of_mem _ hx)) q

/-- Peeling the first byte off the packing of a nonempty bit list. -/
theorem btb_cons (l : List Nat) (hl : l ≠ []) :
    bits_to_bytes l = bits_val (l.take 8) :: bits_to_bytes (l.drop 8) := by
  have hlen : 0 < l.length := List.length_pos.mpr hl
  show (List.range ((l.length + 7) / 8)).map (fun i => bits_val ((l.drop (8 * i)).take 8))
    = _
  have hcount : (l.length + 7) / 8 = ((l.drop 8).length + 7) / 8 + 1 := by
    rw [List.length_drop]
    omega
  rw [hcount, List.range_succ_eq_map, List.map_cons, List.map_map]
  simp only [List.cons.injEq]
  constructor
  · rfl
  · show (List.range (((l.drop 8).length + 7) / 8)).map
        (fun i => bits_val ((l.drop (8 * (i + 1))).take 8))
      = (List.range (((l.drop 8).length + 7) / 8)).map
        (fun i => bits_val (((l.drop 8).drop (8 * i)).take 8))
    apply List.map_congr_left
    intro i _
    rw [List.drop_drop, (by omega : 8 + 8 * i = 8 * (i + 1))]

/-- Every packed byte (and the out-of-range default) is below 256. -/
theorem btb_getD_lt (l : List Nat) (h : ∀ b ∈ l, b ≤ 1) (i : Nat) :
    (bits_to_bytes l).getD i 0 < 256 := by
  by_cases hi : i < (l.length + 7) / 8
  · have hg : (bits_to_bytes l).getD i 0 = bits_val ((l.drop (8 * i)).take 8) :=
      map_range_getD (fun i2 => bits_val ((l.drop (8 * i2)).take 8)) _ i hi
    rw [hg]
    have hb : ∀ b ∈ (l.drop (8 * i)).take 8, b ≤ 1 := fun b hb =>
      h b (List.mem_of_mem_drop (List.mem_of_mem_take hb))
    have := bits_val_lt _ hb
    have hlen : ((l.drop (8 * i)).take 8).length ≤ 8 := by
      rw [List.length_take]
      omega
    have h2 : (2 : Nat) ^ ((l.drop (8 * i)).take 8).length ≤ 2 ^ 8 :=
      Nat.pow_le_pow_right (by omega) hlen
    omega
  · have hlen : (bits_to_bytes l).length ≤ i := by
      show ((List.range ((l.length + 7) / 8)).map _).length ≤ i
      rw [List.length_map, List.length_range]
      omega
    rw [List.getD_eq_default _ _ hlen]
    omega

/-- Bit `p` of the packed byte buffer is entry `p` of the bit list. -/
theorem stream_bit_btb (l : List Nat) (h : ∀ b ∈ l, b ≤ 1) (p : Nat)
    (hp : p < l.length) :
    stream_bit (bits_to_bytes l) p = l.getD p 0 := by
  have hlen : p / 8 < (l.length + 7) / 8 := by omega
  show ((List.range ((l.length + 7) / 8)).map
      (fun i => bits_val ((l.drop (8 * i)).take 8))).getD (p / 8) 0 >>> (p % 8) &&& 1
    = l.getD p 0
  rw [map_range_getD (fun i => bits_val ((l.drop (8 * i)).take 8)) _ (p / 8) hlen]
  have hb : ∀ b ∈ (l.drop (8 * (p / 8))).take 8, b ≤ 1 := fun b hb =>
    h b (List.mem_of_mem_drop (List.mem_of_mem_take hb))
  rw [bit_if, bits_val_testBit _ hb (p % 8)]
  have hgd : ((l.drop (8 * (p / 8))).take 8).getD (p % 8) 0 = l.getD p 0 := by
    rw [List.getD_eq_getElem?_getD, List.getElem?_take, if_pos (by omega : p % 8 < 8),
      List.getElem?_drop, (by omega : 8 * (p / 8) + p % 8 = p),
      ← List.getD_eq_getElem?_getD]
  rw [hgd]
  have hle := getD_le_one l h p
  rcases Nat.le_one_iff_eq_zero_or_eq_one.mp hle with h1 | h1 <;> rw [h1] <;> simp

/-- The `extract_bits` loop assembles, above the already-delivered `opos`
bits of `v`, the next `bits_left` bits of the byte stream starting at bit
`8 * off + bit` (the final partial read may deposit garbage at positions
`≥ opos + bits_left` only). -/
theorem extract_bits_loop_spec (fuel : Nat) : ∀ (bytes : Nat → Nat)
    (off bit opos bits_left v : Nat),
    (∀ i, bytes i < 256) → bit < 8 → bits_left ≤ fuel → v < 2 ^ opos →
    ∀ j, j < opos + bits_left →
    (extract_bits_loop fuel bytes off bit opos bits_left v).testBit j =
      if j < opos then v.testBit j
      else (bytes ((8 * off + bit + (j - opos)) / 8)).testBit
        ((8 * off + bit + (j - opos)) % 8) := by
  induction fuel with
  | zero =>
    intro bytes off bit opos bits_left v hb256 hbit hfuel hv j hj
    have h0 : bits_left = 0 := by omega
    subst h0
    show (if (0 : Nat) ≠ 0 then v ||| ((bytes off >>> bit) <<< opos) else v).testBit j = _
    rw [if_neg (by omega : ¬ (0 : Nat) ≠ 0), if_pos (by omega : j < opos)]
  | succ fuel ih =>
    intro bytes off bit opos bits_left v hb256 hbit hfuel hv j hj
    have hchunk : (bytes off >>> bit) <<< opos < 2 ^ (opos + (8 - bit)) := by
      have h1 : bytes off >>> bit < 2 ^ (8 - bit) := by
        rw [Nat.shiftRight_eq_div_pow]
        rw [Nat.div_lt_iff_lt_mul (Nat.pos_pow_of_pos bit (by omega))]
        have h2 : (2 : Nat) ^ 8 ≤ 2 ^ (8 - bit) * 2 ^ bit := by
          rw [← Nat.pow_add]
          exact Nat.pow_le_pow_right (by omega) (by omega)
        have h3 := hb256 off
        have h6 : (2 : Nat) ^ 8 = 256 := rfl
        omega
      rw [Nat.shiftLeft_eq]
      have h4 : (bytes off >>> bit) * 2 ^ opos < 2 ^ (8 - bit) * 2 ^ opos :=
        mul_lt_mul_of_pos_right h1 (Nat.pos_pow_of_pos opos (by omega))
      have h5 : (2 : Nat) ^ (8 - bit) * 2 ^ opos = 2 ^ (opos + (8 - bit)) := by
        rw [← Nat.pow_add, Nat.add_comm]
      omega
    simp only [extract_bits_loop]
    by_cases hloop : 8 - bit ≤ bits_left
    · rw [if_pos hloop]
      have hv' : v ||| ((bytes off >>> bit) <<< opos) < 2 ^ (opos + (8 - bit)) :=
        Nat.or_lt_two_pow
          (by calc v < 2 ^ opos := hv
                _ ≤ 2 ^ (opos + (8 - bit)) := Nat.pow_le_pow_right (by omega) (by omega))
          hchunk
      rw [ih bytes (off + 1) 0 (opos + (8 - bit)) (bits_left - (8 - bit)) _
        hb256 (by omega) (by omega) hv' j (by omega)]
      by_cases hjo : j < opos
      · rw [if_pos (by omega : j < opos + (8 - bit)), if_pos hjo,
          Nat.testBit_or, Nat.testBit_shiftLeft,
          decide_eq_false (by omega : ¬ j ≥ opos)]
        simp
      · by_cases hjo2 : j < opos + (8 - bit)
        · rw [if_pos hjo2, if_neg hjo, Nat.testBit_or,
            Nat.testBit_lt_two_pow (by
              calc v < 2 ^ opos := hv
                _ ≤ 2 ^ j := Nat.pow_le_pow_right (by omega) (by omega)),
            Bool.false_or, Nat.testBit_shiftLeft,
            decide_eq_true (by omega : j ≥ opos), Bool.true_and,
            Nat.testBit_shiftRight]
          have hq1 : (8 * off + bit + (j - opos)) / 8 = off := by omega
          have hq2 : (8 * off + bit + (j - opos)) % 8 = bit + (j - opos) := by omega
          rw [hq1, hq2]
        · rw [if_neg hjo2, if_neg hjo]
          have ha : 8 * (off + 1) + 0 + (j - (opos + (8 - bit)))
              = 8 * off + bit + (j - opos) := by omega
          rw [ha]
    · rw [if_neg hloop]
      by_cases hone : bits_left = 0
      · rw [if_neg (by omega : ¬ bits_left ≠ 0), if_pos (by omega : j < opos)]
      · rw [if_pos hone]
        by_cases hjo : j < opos
        · rw [if_pos hjo, Nat.testBit_or, Nat.testBit_shiftLeft,
            decide_eq_false (by omega : ¬ j ≥ opos)]
          simp
        · rw [if_neg hjo, Nat.testBit_or,
            Nat.testBit_lt_two_pow (by
              calc v < 2 ^ opos := hv
                _ ≤ 2 ^ j := Nat.pow_le_pow_right (by omega) (by omega)),
            Bool.false_or, Nat.testBit_shiftLeft,
            decide_eq_true (by omega : j ≥ opos), Bool.true_and,
            Nat.testBit_shiftRight]
          have hq1 : (8 * off + bit + (j - opos)) / 8 = off := by omega
          have hq2 : (8 * off + bit + (j - opos)) % 8 = bit + (j - opos) := by omega
          rw [hq1, hq2]

/-- `extract_bits` on a packed 0/1 list reads exactly the in-range bit field:
it equals any `X < 2 ^ nbits` whose bits are the listed bits. -/
theorem extract_bits_eq (L : List Nat) (hL : ∀ b ∈ L, b ≤ 1) (curr nbits X : Nat)
    (hrange : curr + nbits ≤ L.length) (hX : X < 2 ^ nbits)
    (hbits : ∀ j, j < nbits → X.testBit j = decide (L.getD (curr + j) 0 = 1)) :
    extract_bits (bits_to_bytes L) curr nbits = X := by
  apply Nat.eq_of_testBit_eq
  intro j
  show (extract_bits_loop nbits (fun i => (bits_to_bytes L).getD i 0) (curr / 8)
      (curr % 8) 0 nbits 0 &&& ((1 <<< nbits) - 1)).testBit j = X.testBit j
  rw [Nat.one_shiftLeft, Nat.and_pow_two_sub_one_eq_mod, Nat.testBit_mod_two_pow]
  by_cases hj : j < nbits
  · rw [decide_eq_true hj, Bool.true_and]
    rw [extract_bits_loop_spec nbits (fun i => (bits_to_bytes L).getD i 0)
      (curr / 8) (curr % 8) 0 nbits 0 (fun i => btb_getD_lt L hL i)
      (by omega) (Nat.le_refl _) (by omega) j (by omega)]
    rw [if_neg (by omega : ¬ j < 0)]
    have ha : 8 * (curr / 8) + curr % 8 + (j - 0) = curr + j := by omega
    rw [ha, hbits j hj]
    have hs : ((bits_to_bytes L).getD ((curr + j) / 8) 0 >>> ((curr + j) % 8)) &&& 1
        = L.getD (curr + j) 0 := stream_bit_btb L hL (curr + j) (by omega)
    rw [bit_if] at hs
    cases hx : ((bits_to_bytes L).getD ((curr + j) / 8) 0).testBit ((curr + j) % 8) with
    | true =>
      rw [hx, if_pos rfl] at hs
      rw [decide_eq_true hs.symm]
    | false =>
      rw [hx, if_neg (by simp)] at hs
      rw [decide_eq_false (by omega)]
  · rw [decide_eq_false hj, Bool.false_and]
    exact (Nat.testBit_lt_two_pow (by
      calc X < 2 ^ nbits := hX
        _ ≤ 2 ^ j := Nat.pow_le_pow_right (by omega) (by omega))).symm

/-!  The output bit-packing stream. -/

/-- Emitted bits of concatenated call records. -/
theorem emitted_bits_append (a b : List (Nat × Nat)) :
    emitted_bits (a ++ b) = emitted_bits a ++ emitted_bits b := by
  simp [emitted_bits]

/-- Emitted bits of one call record. -/
theorem emitted_bits_one (c : Nat × Nat) : emitted_bits [c] = le_bits c.1 c.2 := by
  simp [emitted_bits]

/-- Bits OR-ed in above position `a` do not change the low `n ≤ a` bits. -/
theorem le_bits_or_shift_low (partial2 a bits n : Nat) (hn : n ≤ a) :
    le_bits (partial2 ||| (bits <<< a)) n = le_bits partial2 n := by
  apply le_bits_congr
  intro j hj
  rw [Nat.testBit_or, Nat.testBit_shiftLeft, decide_eq_false (by omega : ¬ j ≥ a)]
  simp

/-- The byte mask keeps the low `n ≤ 8` bits. -/
theorem le_bits_and_255 (x n : Nat) (hn : n ≤ 8) :
    le_bits (x &&& 255) n = le_bits x n := by
  have h : x &&& 255 = x % 2 ^ 8 := Nat.and_pow_two_sub_one_eq_mod x 8
  apply le_bits_congr
  intro j hj
  rw [h, Nat.testBit_mod_two_pow, decide_eq_true (by omega : j < 8), Bool.true_and]

/-- Bits of a partial byte with `bits` OR-ed in above it. -/
theorem le_bits_merge (partial2 a bits b : Nat) (hpa : partial2 < 2 ^ a) :
    le_bits (partial2 ||| (bits <<< a)) (a + b)
      = le_bits partial2 a ++ le_bits bits b := by
  rw [le_bits_append]
  have h1 : le_bits (partial2 ||| (bits <<< a)) a = le_bits partial2 a :=
    le_bits_or_shift_low partial2 a bits a (Nat.le_refl a)
  have h2 : le_bits ((partial2 ||| (bits <<< a)) >>> a) b = le_bits bits b := by
    apply le_bits_congr
    intro j hj
    rw [Nat.testBit_shiftRight, Nat.testBit_or,
      Nat.testBit_lt_two_pow (show partial2 < 2 ^ (a + j) from by
        have := Nat.pow_le_pow_right (show 0 < 2 by omega) (show a ≤ a + j by omega)
        omega),
      Bool.false_or, Nat.testBit_shiftLeft,
      decide_eq_true (by omega : a + j ≥ a), Bool.true_and,
      (by omega : a + j - a = j)]
  rw [h1, h2]

/-- The `output_bits` loop preserves the abstract bit stream: starting from a
partial byte of `pos` bits with the `len` payload bits merged in above them,
it delivers exactly `stream ++ payload` and leaves a well-formed partial
byte. -/
theorem output_bits_loop_stream (fuel : Nat) : ∀ (em : List (Nat × Nat))
    (partial2 pos tob bits len : Nat),
    pos < 8 → partial2 < 2 ^ pos → len ≤ fuel → bits < 2 ^ len →
    out_stream (output_bits_loop fuel
        ⟨(partial2 ||| (bits <<< pos)) &&& 255, pos, false, tob, em⟩ bits len)
      = emitted_bits em ++ le_bits partial2 pos ++ le_bits bits len ∧
    (output_bits_loop fuel
        ⟨(partial2 ||| (bits <<< pos)) &&& 255, pos, false, tob, em⟩ bits len).out_bit_pos
      < 8 ∧
    (output_bits_loop fuel
        ⟨(partial2 ||| (bits <<< pos)) &&& 255, pos, false, tob, em⟩ bits len).out_bits
      < 2 ^ (output_bits_loop fuel
        ⟨(partial2 ||| (bits <<< pos)) &&& 255, pos, false, tob, em⟩ bits len).out_bit_pos ∧
    (output_bits_loop fuel
        ⟨(partial2 ||| (bits <<< pos)) &&& 255, pos, false, tob, em⟩
        bits len).output_symbol_size = false := by
  induction fuel with
  | zero =>
    intro em partial2 pos tob bits len hpos hpa hfuel hbits
    have hlen : len = 0 := by omega
    subst hlen
    have hres : output_bits_loop 0
        (⟨(partial2 ||| (bits <<< pos)) &&& 255, pos, false, tob, em⟩ : outdata) bits 0
        = ⟨(partial2 ||| (bits <<< pos)) &&& 255, pos + 0, false, tob + 0, em⟩ := by
      show (if 8 ≤ pos + 0 then _ else _) = _
      rw [if_neg (by omega : ¬ 8 ≤ pos + 0)]
    rw [hres]
    have hb0 : bits = 0 := by omega
    subst hb0
    have hmerge0 : (partial2 ||| (0 <<< pos)) = partial2 := by
      rw [Nat.zero_shiftLeft, Nat.or_zero]
    refine ⟨?_, by show pos + 0 < 8; omega, ?_, rfl⟩
    · show emitted_bits em ++ le_bits ((partial2 ||| (0 <<< pos)) &&& 255) (pos + 0) = _
      rw [Nat.add_zero, le_bits_and_255 _ _ (by omega), hmerge0,
        show le_bits 0 0 = [] from rfl, List.append_nil]
    · show (partial2 ||| (0 <<< pos)) &&& 255 < 2 ^ (pos + 0)
      rw [hmerge0, Nat.add_zero]
      have := Nat.and_le_left (n := partial2) (m := 255)
      omega
  | succ fuel ih =>
    intro em partial2 pos tob bits len hpos hpa hfuel hbits
    have hmerged : partial2 ||| (bits <<< pos) < 2 ^ (pos + len) := by
      apply Nat.or_lt_two_pow
      · have := Nat.pow_le_pow_right (show 0 < 2 by omega) (show pos ≤ pos + len by omega)
        omega
      · rw [Nat.shiftLeft_eq]
        have h4 : bits * 2 ^ pos < 2 ^ len * 2 ^ pos :=
          mul_lt_mul_of_pos_right hbits (Nat.pos_pow_of_pos pos (by omega))
        have h5 : (2 : Nat) ^ len * 2 ^ pos = 2 ^ (pos + len) := by
          rw [← Nat.pow_add, Nat.add_comm]
        omega
    by_cases hloop : 8 ≤ pos + len
    · have hres : output_bits_loop (fuel + 1)
          (⟨(partial2 ||| (bits <<< pos)) &&& 255, pos, false, tob, em⟩ : outdata) bits len
          = output_bits_loop fuel
            ⟨(bits >>> (8 - pos)) &&& 255, 0, false, tob + (8 - pos),
              em ++ [((partial2 ||| (bits <<< pos)) &&& 255, 8)]⟩
            (bits >>> (8 - pos)) (len - (8 - pos)) := by
        show (if 8 ≤ pos + len then _ else _) = _
        rw [if_pos hloop]
        rfl
      rw [hres]
      have hstate : (⟨(bits >>> (8 - pos)) &&& 255, 0, false, tob + (8 - pos),
            em ++ [((partial2 ||| (bits <<< pos)) &&& 255, 8)]⟩ : outdata)
          = ⟨((0 : Nat) ||| ((bits >>> (8 - pos)) <<< 0)) &&& 255, 0, false,
              tob + (8 - pos), em ++ [((partial2 ||| (bits <<< pos)) &&& 255, 8)]⟩ := by
        rw [Nat.shiftLeft_zero, Nat.zero_or]
      rw [hstate]
      have hbits' : bits >>> (8 - pos) < 2 ^ (len - (8 - pos)) := by
        rw [Nat.shiftRight_eq_div_pow]
        rw [Nat.div_lt_iff_lt_mul (Nat.pos_pow_of_pos (8 - pos) (by omega))]
        have h5 : (2 : Nat) ^ (len - (8 - pos)) * 2 ^ (8 - pos) = 2 ^ len := by
          rw [← Nat.pow_add, (by omega : len - (8 - pos) + (8 - pos) = len)]
        omega
      have h := ih (em ++ [((partial2 ||| (bits <<< pos)) &&& 255, 8)]) 0 0
        (tob + (8 - pos)) (bits >>> (8 - pos)) (len - (8 - pos))
        (by omega) (by omega) (by omega) hbits'
      refine ⟨?_, h.2.1, h.2.2.1, h.2.2.2⟩
      rw [h.1, emitted_bits_append, emitted_bits_one]
      show emitted_bits em ++ le_bits ((partial2 ||| (bits <<< pos)) &&& 255) 8 ++
          le_bits 0 0 ++ le_bits (bits >>> (8 - pos)) (len - (8 - pos)) = _
      rw [show le_bits 0 0 = [] from rfl, List.append_nil]
      rw [le_bits_and_255 _ _ (by omega)]
      have h8 : (8 : Nat) = pos + (8 - pos) := by omega
      rw [h8, le_bits_merge partial2 pos bits (8 - pos) hpa]
      have hsplit : le_bits bits len
          = le_bits bits (8 - pos) ++ le_bits (bits >>> (8 - pos)) (len - (8 - pos)) := by
        rw [show len = (8 - pos) + (len - (8 - pos)) from by omega, le_bits_append]
        rw [show (8 - pos) + (len - (8 - pos)) - (8 - pos) = len - (8 - pos) from by omega]
      rw [hsplit, List.append_assoc, List.append_assoc, List.append_assoc,
        show pos + (8 - pos) - pos = 8 - pos from by omega]
    · have hres : output_bits_loop (fuel + 1)
          (⟨(partial2 ||| (bits <<< pos)) &&& 255, pos, false, tob, em⟩ : outdata) bits len
          = ⟨(partial2 ||| (bits <<< pos)) &&& 255, pos + len, false, tob + len, em⟩ := by
        show (if 8 ≤ pos + len then _ else _) = _
        rw [if_neg hloop]
      rw [hres]
      refine ⟨?_, by show pos + len < 8; omega, ?_, rfl⟩
      · show emitted_bits em ++ le_bits ((partial2 ||| (bits <<< pos)) &&& 255) (pos + len)
          = _
        rw [le_bits_and_255 _ _ (by omega), le_bits_merge partial2 pos bits len hpa,
          List.append_assoc]
      · show (partial2 ||| (bits <<< pos)) &&& 255 < 2 ^ (pos + len)
        have := Nat.and_le_left (n := partial2 ||| (bits <<< pos)) (m := 255)
        omega

/-- `output_bits` in byte-packing mode appends the low `len` bits of `bits`
to the abstract stream and keeps the packing state well formed. -/
theorem output_bits_stream (of : outdata) (bits len : Nat)
    (hsym : of.output_symbol_size = false) (hpos : of.out_bit_pos < 8)
    (hob : of.out_bits < 2 ^ of.out_bit_pos) (hbits : bits < 2 ^ len) :
    out_stream (output_bits of bits len) = out_stream of ++ le_bits bits len ∧
    (output_bits of bits len).out_bit_pos < 8 ∧
    (output_bits of bits len).out_bits < 2 ^ (output_bits of bits len).out_bit_pos ∧
    (output_bits of bits len).output_symbol_size = false := by
  obtain ⟨ob, pos, sym, tob, em⟩ := of
  have hsym2 : sym = false := hsym
  subst hsym2
  have hpos2 : pos < 8 := hpos
  have hob2 : ob < 2 ^ pos := hob
  have h := output_bits_loop_stream (len + 1) em ob pos tob bits len hpos2 hob2
    (by omega) hbits
  exact ⟨h.1, h.2.1, h.2.2.1, h.2.2.2⟩

/-- The final flush hands the partial byte to the callback: afterwards the
emitted bits are exactly the abstract stream. -/
theorem flush_emitted (of : outdata) :
    emitted_bits (if of.out_bit_pos > 0
        then output_call of of.out_bits of.out_bit_pos else of).emitted
      = out_stream of := by
  by_cases h : of.out_bit_pos > 0
  · rw [if_pos h]
    show emitted_bits (of.emitted ++ [(of.out_bits, of.out_bit_pos)]) = _
    rw [emitted_bits_append, emitted_bits_one]
    rfl
  · rw [if_neg h]
    show emitted_bits of.emitted
      = emitted_bits of.emitted ++ le_bits of.out_bits of.out_bit_pos
    have h0 : of.out_bit_pos = 0 := by omega
    rw [h0, show le_bits of.out_bits 0 = [] from rfl, List.append_nil]

/-!  The encoder as a fold over the message bits. -/

/-- The inner byte loop of `convencode_data` feeds the low
`min 8 nbits` bits of the byte, low bit first. -/
theorem convencode_data_byte_eq (ce : convcode) (t : tables) : ∀ (j : Nat)
    (es : encstate) (v nbits : Nat),
    convencode_data_byte j ce t es v nbits
      = ((le_bits v (min j nbits)).foldl (encode_bit ce t) es, nbits - min j nbits) := by
  intro j
  induction j with
  | zero =>
    intro es v nbits
    show (es, nbits) = _
    rw [show min 0 nbits = 0 from by omega]
    rfl
  | succ jj ih =>
    intro es v nbits
    show (if nbits = 0 then (es, nbits)
      else convencode_data_byte jj ce t (encode_bit ce t es (v &&& 1)) (v >>> 1)
        (nbits - 1)) = _
    by_cases h0 : nbits = 0
    · subst h0
      rw [if_pos rfl, show min (jj + 1) 0 = 0 from by omega]
      rfl
    · rw [if_neg h0, ih (encode_bit ce t es (v &&& 1)) (v >>> 1) (nbits - 1)]
      have hmin : min (jj + 1) nbits = min jj (nbits - 1) + 1 := by omega
      rw [hmin, le_bits_succ]
      have h2 : nbits - 1 - min jj (nbits - 1) = nbits - (min jj (nbits - 1) + 1) := by
        omega
      rw [h2]
      rfl

/-- `convencode_data` over a packed 0/1 list folds `encode_bit` over the
list. -/
theorem convencode_data_packed (ce : convcode) (t : tables) : ∀ (N : Nat)
    (l : List Nat), l.length ≤ 8 * N → (∀ b ∈ l, b ≤ 1) → ∀ es : encstate,
    convencode_data ce t es (bits_to_bytes l) l.length
      = l.foldl (encode_bit ce t) es := by
  intro N
  induction N with
  | zero =>
    intro l hlen hl es
    have hnil : l = [] := List.eq_nil_of_length_eq_zero (by omega)
    subst hnil
    rfl
  | succ M ih =>
    intro l hlen hl es
    by_cases hnil : l = []
    · subst hnil
      rfl
    · rw [btb_cons l hnil]
      have hlpos : 0 < l.length := List.length_pos.mpr hnil
      show (if l.length = 0 then es
        else convencode_data ce t
          (convencode_data_byte 8 ce t es (bits_val (l.take 8)) l.length).1
          (bits_to_bytes (l.drop 8))
          (convencode_data_byte 8 ce t es (bits_val (l.take 8)) l.length).2) = _
      rw [if_neg (by omega : ¬ l.length = 0), convencode_data_byte_eq]
      have hfb : le_bits (bits_val (l.take 8)) (min 8 l.length) = l.take 8 := by
        rw [show min 8 l.length = (l.take 8).length from by rw [List.length_take]]
        exact le_bits_bits_val _ (fun b hb => hl b (List.mem_of_mem_take hb))
      rw [hfb]
      show convencode_data ce t ((l.take 8).foldl (encode_bit ce t) es)
          (bits_to_bytes (l.drop 8)) (l.length - min 8 l.length) = _
      have hdl : l.length - min 8 l.length = (l.drop 8).length := by
        rw [List.length_drop]
        omega
      rw [hdl, ih (l.drop 8) (by rw [List.length_drop]; omega)
        (fun b hb => hl b (List.mem_of_mem_drop hb)) _]
      rw [← List.foldl_append, List.take_append_drop]

/-- The tail loop folds `k - 1` zero bits. -/
theorem encode_tail_loop_eq (ce : convcode) (t : tables) : ∀ (n : Nat) (es : encstate),
    encode_tail_loop n ce t es = (List.replicate n 0).foldl (encode_bit ce t) es := by
  intro n
  induction n with
  | zero => intro es; rfl
  | succ m ih =>
    intro es
    show encode_tail_loop m ce t (encode_bit ce t es 0) = _
    rw [ih]
    rfl

/-- One coded symbol appended to the reference stream. -/
theorem coded_stream_succ (t : tables) (mf : List Nat) (np m : Nat) :
    coded_stream t mf np (m + 1)
      = coded_stream t mf np m ++ le_bits (enc_symbol t mf m) np := by
  show ((List.range (m + 1)).map (fun n => le_bits (enc_symbol t mf n) np)).flatten = _
  rw [List.range_succ, List.map_append, List.flatten_append]
  show coded_stream t mf np m ++ (le_bits (enc_symbol t mf m) np ++ [].flatten) = _
  rw [List.flatten_nil, List.append_nil]

/-- Folding `encode_bit` over the first `n` message bits tracks the reference
state sequence and appends the reference symbols to the output stream, while
keeping the packing state well formed. -/
theorem foldl_encode_take (ce : convcode) (t : tables) (mf : List Nat)
    (hbits : ∀ b ∈ mf, b ≤ 1)
    (hconv : ∀ b s, b ≤ 1 → t.convert b s < 2 ^ ce.num_polys)
    (es0 : encstate) (hs0 : es0.enc_state = 0)
    (hsym : es0.enc_out.output_symbol_size = false)
    (hpos : es0.enc_out.out_bit_pos < 8)
    (hob : es0.enc_out.out_bits < 2 ^ es0.enc_out.out_bit_pos) :
    ∀ n, n ≤ mf.length →
    ((mf.take n).foldl (encode_bit ce t) es0).enc_state = enc_state_seq t mf n ∧
    out_stream ((mf.take n).foldl (encode_bit ce t) es0).enc_out
      = out_stream es0.enc_out ++ coded_stream t mf ce.num_polys n ∧
    ((mf.take n).foldl (encode_bit ce t) es0).enc_out.output_symbol_size = false ∧
    ((mf.take n).foldl (encode_bit ce t) es0).enc_out.out_bit_pos < 8 ∧
    ((mf.take n).foldl (encode_bit ce t) es0).enc_out.out_bits
      < 2 ^ ((mf.take n).foldl (encode_bit ce t) es0).enc_out.out_bit_pos := by
  intro n
  induction n with
  | zero =>
    intro _
    refine ⟨hs0, ?_, hsym, hpos, hob⟩
    show out_stream es0.enc_out = out_stream es0.enc_out ++ [].flatten
    rw [List.flatten_nil, List.append_nil]
  | succ m ihn =>
    intro hn
    have hm := ihn (by omega)
    have hx : mf[m]? = some (mf.getD m 0) := by
      rw [List.getElem?_eq_getElem (show m < mf.length from by omega),
        List.getD_eq_getElem?_getD,
        List.getElem?_eq_getElem (show m < mf.length from by omega)]
      rfl
    have htake : mf.take (m + 1) = mf.take m ++ [mf.getD m 0] := by
      rw [List.take_succ, hx]
      rfl
    rw [htake, List.foldl_append]
    simp only [List.foldl_cons, List.foldl_nil]
    have hble : mf.getD m 0 ≤ 1 := getD_le_one mf hbits m
    have h := output_bits_stream ((mf.take m).foldl (encode_bit ce t) es0).enc_out
      (t.convert (mf.getD m 0) ((mf.take m).foldl (encode_bit ce t) es0).enc_state)
      ce.num_polys hm.2.2.1 hm.2.2.2.1 hm.2.2.2.2 (hconv _ _ hble)
    refine ⟨?_, ?_, h.2.2.2, h.2.1, h.2.2.1⟩
    · show t.next_state (mf.getD m 0)
          ((mf.take m).foldl (encode_bit ce t) es0).enc_state = _
      rw [hm.1]
      rfl
    · show out_stream (output_bits ((mf.take m).foldl (encode_bit ce t) es0).enc_out
          (t.convert (mf.getD m 0)
            ((mf.take m).foldl (encode_bit ce t) es0).enc_state) ce.num_polys) = _
      rw [h.1, hm.2.1, hm.1, coded_stream_succ, List.append_assoc]
      rfl

/-- A full encode session delivers exactly the reference coded stream of the
tail-extended message. -/
theorem run_encode_stream (ce : convcode) (t : tables) (m : List Nat)
    (hbits : ∀ b ∈ m, b ≤ 1)
    (hconv : ∀ b s, b ≤ 1 → t.convert b s < 2 ^ ce.num_polys) :
    emitted_bits (run_encode ce t m).1.enc_out.emitted
      = coded_stream t (m ++ List.replicate (if ce.do_tail then ce.k - 1 else 0) 0)
          ce.num_polys
          (m.length + (if ce.do_tail then ce.k - 1 else 0)) := by
  have hfull : ∀ b ∈ m ++ List.replicate (if ce.do_tail then ce.k - 1 else 0) 0,
      b ≤ 1 := by
    intro b hb
    rcases List.mem_append.mp hb with h | h
    · exact hbits b h
    · rw [List.eq_of_mem_replicate h]
      omega
  have hdata : convencode_data ce t (reinit_convencode 0) (bits_to_bytes m) m.length
      = m.foldl (encode_bit ce t) (reinit_convencode 0) :=
    convencode_data_packed ce t m.length m (by omega) hbits _
  have htail : (if ce.do_tail then
        encode_tail_loop (ce.k - 1) ce t (m.foldl (encode_bit ce t) (reinit_convencode 0))
      else m.foldl (encode_bit ce t) (reinit_convencode 0))
      = ((m ++ List.replicate (if ce.do_tail then ce.k - 1 else 0) 0).take
          (m ++ List.replicate (if ce.do_tail then ce.k - 1 else 0) 0).length).foldl
        (encode_bit ce t) (reinit_convencode 0) := by
    rw [List.take_length, List.foldl_append]
    cases hdt : ce.do_tail with
    | false =>
      rw [if_neg (by simp)]
      rfl
    | true =>
      rw [if_pos rfl, if_pos rfl, encode_tail_loop_eq]
  have hlen2 : (m ++ List.replicate (if ce.do_tail then ce.k - 1 else 0) 0).length
      = m.length + (if ce.do_tail then ce.k - 1 else 0) := by
    rw [List.length_append, List.length_replicate]
  have hmain := foldl_encode_take ce t
    (m ++ List.replicate (if ce.do_tail then ce.k - 1 else 0) 0) hfull hconv
    (reinit_convencode 0) rfl rfl (by show (0 : Nat) < 8; omega)
    (by show (0 : Nat) < 2 ^ 0; omega)
    (m ++ List.replicate (if ce.do_tail then ce.k - 1 else 0) 0).length (Nat.le_refl _)
  show emitted_bits (if (if ce.do_tail then
      encode_tail_loop (ce.k - 1) ce t
        (convencode_data ce t (reinit_convencode 0) (bits_to_bytes m) m.length)
    else convencode_data ce t (reinit_convencode 0) (bits_to_bytes m)
      m.length).enc_out.out_bit_pos > 0
    then output_call (if ce.do_tail then
        encode_tail_loop (ce.k - 1) ce t
          (convencode_data ce t (reinit_convencode 0) (bits_to_bytes m) m.length)
      else convencode_data ce t (reinit_convencode 0) (bits_to_bytes m)
        m.length).enc_out
      (if ce.do_tail then
        encode_tail_loop (ce.k - 1) ce t
          (convencode_data ce t (reinit_convencode 0) (bits_to_bytes m) m.length)
      else convencode_data ce t (reinit_convencode 0) (bits_to_bytes m)
        m.length).enc_out.out_bits
      (if ce.do_tail then
        encode_tail_loop (ce.k - 1) ce t
          (convencode_data ce t (reinit_convencode 0) (bits_to_bytes m) m.length)
      else convencode_data ce t (reinit_convencode 0) (bits_to_bytes m)
        m.length).enc_out.out_bit_pos
    else (if ce.do_tail then
        encode_tail_loop (ce.k - 1) ce t
          (convencode_data ce t (reinit_convencode 0) (bits_to_bytes m) m.length)
      else convencode_data ce t (reinit_convencode 0) (bits_to_bytes m)
        m.length).enc_out).emitted = _
  rw [hdata, htail, flush_emitted, hmain.2.1, hlen2]
  show [].flatten ++ le_bits 0 0 ++ _ = _
  rw [List.flatten_nil, show le_bits 0 0 = [] from rfl, List.append_nil, List.nil_append]

/-!  Facts about the precomputed tables. -/

/-- The `reverse_bits` loop grows its accumulator by one bit per step. -/
theorem reverse_bits_loop_lt (i : Nat) : ∀ (val rv r : Nat), rv < 2 ^ r →
    reverse_bits_loop i val rv < 2 ^ (r + i) := by
  induction i with
  | zero =>
    intro val rv r h
    show rv < 2 ^ (r + 0)
    rw [Nat.add_zero]
    exact h
  | succ ii ih =>
    intro val rv r h
    show reverse_bits_loop ii (val >>> 1) ((rv <<< 1) ||| (val &&& 1)) < 2 ^ (r + (ii + 1))
    have ha : val &&& 1 ≤ 1 := by
      rw [Nat.and_one_is_mod]
      omega
    have h2 : (rv <<< 1) ||| (val &&& 1) < 2 ^ (r + 1) := by
      rw [shiftLeft_one_or rv (val &&& 1) ha]
      have h3 : (2 : Nat) ^ (r + 1) = 2 ^ r * 2 := pow_succ 2 r
      omega
    have := ih (val >>> 1) _ (r + 1) h2
    rw [show r + (ii + 1) = r + 1 + ii from by omega]
    exact this

/-- A reversed `k`-bit polynomial is below `2 ^ k`. -/
theorem reverse_bits_lt (k val : Nat) : reverse_bits k val < 2 ^ k := by
  have h := reverse_bits_loop_lt k val 0 0 (by omega)
  rw [Nat.zero_add] at h
  exact h

/-- `mk_code` is `setup_code` at the list length. -/
theorem mk_code_eq (k : Nat) (polynomials : List Nat) (ml : Nat) (dt rc : Bool) :
    mk_code k polynomials ml dt rc = setup_code k polynomials polynomials.length ml dt rc :=
  rfl

/-- Every polynomial slot of a configured codec is below `2 ^ k` (and hence
below `2 ^ 32` for `k ≤ 16`). -/
theorem setup_polys_lt (k : Nat) (polys_in : List Nat) (np ml : Nat) (dt rc : Bool)
    (h1 : 1 ≤ np) (h2 : np ≤ 16) (h3 : k ≤ 16) (hk0 : 1 ≤ k) (j : Nat) :
    (setup_code k polys_in np ml dt rc).polys j < 2 ^ k := by
  rw [setup_code_fields k polys_in np ml dt rc h1 h2 h3]
  show (if j < np then reverse_bits k (polys_in.getD j 0) else 0) < 2 ^ k
  by_cases hj : j < np
  · rw [if_pos hj]
    exact reverse_bits_lt k _
  · rw [if_neg hj]
    exact Nat.pos_pow_of_pos k (by omega)

/-- The hard branch metric of a symbol against itself is zero. -/
theorem hamming_self (ce : convcode) (v : Nat) :
    hamming_distance ce v v none = 0 := by
  show num_bits_set (v ^^^ v) = 0
  rw [Nat.xor_self]
  rfl

/-- A nonzero 32-bit value has a set bit, so positive popcount. -/
theorem num_bits_set_pos (v : Nat) (hv : v < 2 ^ 32) (h0 : v ≠ 0) :
    1 ≤ num_bits_set v := by
  rw [num_bits_set_spec v hv]
  by_contra hcon
  have hsum0 : (∑ j ∈ Finset.range 32, if v.testBit j then (1 : Nat) else 0) = 0 := by
    omega
  have hz := Finset.sum_eq_zero_iff.mp hsum0
  apply h0
  apply Nat.eq_of_testBit_eq
  intro j
  rw [Nat.zero_testBit]
  by_cases hj : j < 32
  · have hj2 := hz j (Finset.mem_range.mpr hj)
    by_cases hb : v.testBit j
    · rw [if_pos hb] at hj2
      omega
    · simpa using hb
  · exact Nat.testBit_lt_two_pow (by
      calc v < 2 ^ 32 := hv
        _ ≤ 2 ^ j := Nat.pow_le_pow_right (by omega) (by omega))

/-- Distinct 32-bit symbols have positive hard branch metric. -/
theorem hamming_pos (ce : convcode) (x y : Nat) (hx : x < 2 ^ 32) (hy : y < 2 ^ 32)
    (hne : x ≠ y) : 1 ≤ hamming_distance ce x y none := by
  show 1 ≤ num_bits_set (x ^^^ y)
  exact num_bits_set_pos _ (Nat.xor_lt_two_pow hx hy)
    (fun h => hne (Nat.xor_eq_zero.mp h))

/-- An OR-accumulation of single bits shifted below `q` stays below `2 ^ q`. -/
theorem foldl_or_lt (l : List Nat) (g : Nat → Nat) : ∀ (init q : Nat),
    init < 2 ^ q → (∀ j ∈ l, g j ≤ 1) → (∀ j ∈ l, j < q) →
    l.foldl (fun acc j => acc ||| (g j <<< j)) init < 2 ^ q := by
  induction l with
  | nil => intro init q hinit _ _; exact hinit
  | cons j rest ih =>
    intro init q hinit hg hj
    show rest.foldl _ (init ||| (g j <<< j)) < 2 ^ q
    apply ih _ q _ (fun a ha => hg a (List.mem_cons_of_mem _ ha))
      (fun a ha => hj a (List.mem_cons_of_mem _ ha))
    apply Nat.or_lt_two_pow hinit
    have hgj := hg j (List.mem_cons_self _ _)
    have hjq := hj j (List.mem_cons_self _ _)
    rw [Nat.shiftLeft_eq]
    have h1 : g j * 2 ^ j ≤ 2 ^ j := by
      calc g j * 2 ^ j ≤ 1 * 2 ^ j := Nat.mul_le_mul_right _ hgj
        _ = 2 ^ j := Nat.one_mul _
    have h2 : (2 : Nat) ^ j < 2 ^ q := Nat.pow_lt_pow_right (by omega) hjq
    omega

/-- Encoder output symbols fit in `num_polys` bits. -/
theorem convert_lt (ce : convcode) (b s : Nat) (hb : b ≤ 1) (hnp : 1 ≤ ce.num_polys) :
    (setup_convcode2 ce).convert b s < 2 ^ ce.num_polys := by
  cases hrc : ce.recursive with
  | false =>
    have htab : setup_convcode2 ce =
        { convert := fun b2 i => nonrec_convert ce b2 i
          next_state := fun b2 i => ((i <<< 1) ||| b2) &&& (ce.num_states - 1) } := by
      simp [setup_convcode2, hrc]
    rw [htab]
    show nonrec_convert ce b s < 2 ^ ce.num_polys
    exact foldl_or_lt _ _ 0 ce.num_polys (Nat.pos_pow_of_pos _ (by omega))
      (fun a _ => num_bits_is_odd_loop_le_one 32 _)
      (fun a ha => List.mem_range.mp ha)
  | true =>
    have htab : setup_convcode2 ce =
        { convert := fun b2 i => rec_convert ce b2 i
          next_state := fun b2 i =>
            ((i <<< 1) ||| rec_feedback ce b2 i) &&& (ce.num_states - 1) } := by
      simp [setup_convcode2, hrc]
    rw [htab]
    show rec_convert ce b s < 2 ^ ce.num_polys
    apply foldl_or_lt _ _ b ce.num_polys
    · have h2 : (2 : Nat) ≤ 2 ^ ce.num_polys := by
        calc (2 : Nat) = 2 ^ 1 := rfl
          _ ≤ 2 ^ ce.num_polys := Nat.pow_le_pow_right (by omega) hnp
      omega
    · exact fun a _ => num_bits_is_odd_loop_le_one 32 _
    · exact fun a ha => ((mem_drop_one_range ce.num_polys a).mp ha).2

/-- `next_state` of a configured codec, in arithmetic form: double the state,
add the shifted-in bit, reduce mod `2 ^ (k - 1)`. -/
theorem next_state_arith (ce : convcode) (hk : 2 ≤ ce.k)
    (hS : ce.num_states = 2 ^ (ce.k - 1)) (b s : Nat) (hb : b ≤ 1) :
    ∃ v, v ≤ 1 ∧
      (setup_convcode2 ce).next_state b s = (2 * s + v) % 2 ^ (ce.k - 1) ∧
      (ce.recursive = false → v = b) ∧
      (ce.recursive = true → v = rec_feedback ce b s) := by
  cases hrc : ce.recursive with
  | false =>
    refine ⟨b, hb, ?_, fun _ => rfl, fun h => absurd h (by simp)⟩
    have htab : setup_convcode2 ce =
        { convert := fun b2 i => nonrec_convert ce b2 i
          next_state := fun b2 i => ((i <<< 1) ||| b2) &&& (ce.num_states - 1) } := by
      simp [setup_convcode2, hrc]
    rw [htab]
    show ((s <<< 1) ||| b) &&& (ce.num_states - 1) = _
    rw [shiftLeft_one_or s b hb, hS]
    exact Nat.and_pow_two_sub_one_eq_mod _ _
  | true =>
    refine ⟨rec_feedback ce b s, num_bits_is_odd_loop_le_one 32 _, ?_,
      fun h => absurd h (by simp), fun _ => rfl⟩
    have htab : setup_convcode2 ce =
        { convert := fun b2 i => rec_convert ce b2 i
          next_state := fun b2 i =>
            ((i <<< 1) ||| rec_feedback ce b2 i) &&& (ce.num_states - 1) } := by
      simp [setup_convcode2, hrc]
    rw [htab]
    show ((s <<< 1) ||| rec_feedback ce b s) &&& (ce.num_states - 1) = _
    rw [shiftLeft_one_or s (rec_feedback ce b s) (num_bits_is_odd_loop_le_one 32 _), hS]
    exact Nat.and_pow_two_sub_one_eq_mod _ _

/-- Halving a successor state recovers the predecessor mod `2 ^ (K - 1)`. -/
theorem succ_shift (K s v : Nat) (hK : 1 ≤ K) (hs : s < 2 ^ K) (hv : v ≤ 1) :
    ((2 * s + v) % 2 ^ K) >>> 1 = s % 2 ^ (K - 1) := by
  rw [Nat.shiftRight_one]
  have h2K : (2 : Nat) ^ K = 2 * 2 ^ (K - 1) := by
    rw [← pow_succ', show K - 1 + 1 = K from by omega]
  have hdm := Nat.div_add_mod s (2 ^ (K - 1))
  have hq : s / 2 ^ (K - 1) < 2 := by
    rw [Nat.div_lt_iff_lt_mul (Nat.pos_pow_of_pos _ (by omega))]
    omega
  have hr : s % 2 ^ (K - 1) < 2 ^ (K - 1) := Nat.mod_lt _ (Nat.pos_pow_of_pos _ (by omega))
  rcases Nat.le_one_iff_eq_zero_or_eq_one.mp (Nat.le_of_lt_succ hq) with h | h
  · rw [h] at hdm
    have hlt : 2 * s + v < 2 ^ K := by omega
    rw [Nat.mod_eq_of_lt hlt]
    omega
  · rw [h] at hdm
    have hsplit : 2 * s + v = 2 ^ K + (2 * (s % 2 ^ (K - 1)) + v) := by omega
    rw [hsplit, Nat.add_mod_left, Nat.mod_eq_of_lt (by omega)]
    omega

/-- A state below `2 ^ K` is its low `K - 1` bits, possibly plus the top
bit. -/
theorem pred_cases (K s : Nat) (hK : 1 ≤ K) (hs : s < 2 ^ K) :
    s % 2 ^ (K - 1) = s ∨ s % 2 ^ (K - 1) + 2 ^ (K - 1) = s := by
  have h2K : (2 : Nat) ^ K = 2 * 2 ^ (K - 1) := by
    rw [← pow_succ', show K - 1 + 1 = K from by omega]
  have hdm := Nat.div_add_mod s (2 ^ (K - 1))
  have hq : s / 2 ^ (K - 1) < 2 := by
    rw [Nat.div_lt_iff_lt_mul (Nat.pos_pow_of_pos _ (by omega))]
    omega
  rcases Nat.le_one_iff_eq_zero_or_eq_one.mp (Nat.le_of_lt_succ hq) with h | h
  · rw [h] at hdm
    left
    omega
  · rw [h] at hdm
    right
    omega

/-- A candidate predecessor (any state with the right low bits) reaches `i`
exactly when the shifted-in bit is the low bit of `i`. -/
theorem next_eq_iff (K p i v : Nat) (hK : 1 ≤ K) (hv : v ≤ 1) (hi : i < 2 ^ K)
    (hp : p % 2 ^ (K - 1) = i / 2) :
    ((2 * p + v) % 2 ^ K = i ↔ v = i % 2) := by
  have h2K : (2 : Nat) ^ K = 2 * 2 ^ (K - 1) := by
    rw [← pow_succ', show K - 1 + 1 = K from by omega]
  have hhalf : i / 2 < 2 ^ (K - 1) := by omega
  have h1 : p ≡ i / 2 [MOD 2 ^ (K - 1)] := by
    show p % 2 ^ (K - 1) = (i / 2) % 2 ^ (K - 1)
    rw [hp, Nat.mod_eq_of_lt hhalf]
  have h3 : 2 * p + v ≡ 2 * (i / 2) + v [MOD 2 * 2 ^ (K - 1)] :=
    (h1.mul_left' 2).add_right v
  have h3eq : (2 * p + v) % 2 ^ K = (2 * (i / 2) + v) % 2 ^ K := by
    rw [h2K]
    exact h3
  have h4 : 2 * (i / 2) + v < 2 ^ K := by omega
  rw [h3eq, Nat.mod_eq_of_lt h4]
  omega

/-- AND-ing an odd polynomial after OR-ing in a 1 flips the parity of the
even base value. -/
theorem and_odd_flip (ce : convcode) (s j : Nat) (hodd : ce.polys j % 2 = 1)
    (h32 : ce.polys j < 2 ^ 32) :
    ((s <<< 1) ||| 1) &&& ce.polys j = ((s <<< 1) &&& ce.polys j) ||| 1 ∧
    num_bits_is_odd (((s <<< 1) &&& ce.polys j) ||| 1)
      ≠ num_bits_is_odd ((s <<< 1) &&& ce.polys j) := by
  have e2 : ce.polys j &&& 1 = 1 := by
    rw [Nat.and_one_is_mod, hodd]
  have h1p : 1 &&& ce.polys j = 1 := by
    rw [Nat.and_comm]
    exact e2
  have hdist : ((s <<< 1) ||| 1) &&& ce.polys j
      = ((s <<< 1) &&& ce.polys j) ||| (1 &&& ce.polys j) := or_and_distrib _ _ _
  have hxeven : ((s <<< 1) &&& ce.polys j) % 2 = 0 := by
    have e1 : (s <<< 1) &&& ce.polys j &&& 1 = (s <<< 1) &&& (ce.polys j &&& 1) :=
      Nat.and_assoc _ _ _
    rw [e2] at e1
    have e3 : (s <<< 1) &&& 1 = 0 := by
      rw [Nat.and_one_is_mod, Nat.shiftLeft_eq, pow_one]
      omega
    rw [e3] at e1
    rw [← Nat.and_one_is_mod]
    exact e1
  have hxb : (s <<< 1) &&& ce.polys j < 2 ^ 32 := by
    have := Nat.and_le_right (n := s <<< 1) (m := ce.polys j)
    omega
  refine ⟨by rw [hdist, h1p], num_bits_is_odd_or_one _ hxb hxeven⟩

/-- The two table rows of `next_state` never coincide (for the recursive
code this needs an odd reversed feedback polynomial). -/
theorem next_state_sep (ce : convcode) (hk : 2 ≤ ce.k)
    (hS : ce.num_states = 2 ^ (ce.k - 1))
    (hP0 : ce.recursive = true → ce.polys 0 % 2 = 1 ∧ ce.polys 0 < 2 ^ 32) :
    ∀ s, (setup_convcode2 ce).next_state 0 s ≠ (setup_convcode2 ce).next_state 1 s := by
  intro s heq
  obtain ⟨v0, hv0, he0, hnr0, hr0⟩ := next_state_arith ce hk hS 0 s (by omega)
  obtain ⟨v1, hv1, he1, hnr1, hr1⟩ := next_state_arith ce hk hS 1 s (by omega)
  have hvne : v0 ≠ v1 := by
    cases hrc : ce.recursive with
    | false =>
      rw [hnr0 hrc, hnr1 hrc]
      omega
    | true =>
      rw [hr0 hrc, hr1 hrc]
      show num_bits_is_odd (((s <<< 1) ||| 0) &&& ce.polys 0)
          ≠ num_bits_is_odd (((s <<< 1) ||| 1) &&& ce.polys 0)
      obtain ⟨hodd, h32⟩ := hP0 hrc
      obtain ⟨hre, hflip⟩ := and_odd_flip ce s 0 hodd h32
      rw [Nat.or_zero, hre]
      exact fun hcontra => hflip hcontra.symm
  have h2K : (2 : Nat) ^ (ce.k - 1) = 2 * 2 ^ (ce.k - 2) := by
    rw [← pow_succ', show ce.k - 2 + 1 = ce.k - 1 from by omega]
  have hdvd : (2 : Nat) ∣ 2 ^ (ce.k - 1) := ⟨2 ^ (ce.k - 2), h2K⟩
  rw [he0, he1] at heq
  have hcong : (2 * s + v0) % 2 ^ (ce.k - 1) % 2
      = (2 * s + v1) % 2 ^ (ce.k - 1) % 2 := by
    rw [heq]
  rw [Nat.mod_mod_of_dvd _ hdvd, Nat.mod_mod_of_dvd _ hdvd] at hcong
  apply hvne
  omega

/-- Bit 0 of a recursive code's output symbol is the systematic input bit. -/
theorem rec_convert_testBit0 (ce : convcode) (b s : Nat) (hb : b ≤ 1) :
    (rec_convert ce b s).testBit 0 = decide (b = 1) := by
  show (((List.range ce.num_polys).drop 1).foldl
    (fun acc j => acc |||
      (num_bits_is_odd (((s <<< 1) ||| rec_feedback ce b s) &&& ce.polys j) <<< j))
    b).testBit 0 = _
  rw [foldl_or_testBit_not_mem ((List.range ce.num_polys).drop 1)
    (fun j2 => num_bits_is_odd (((s <<< 1) ||| rec_feedback ce b s) &&& ce.polys j2))
    b 0 (fun a _ => num_bits_is_odd_loop_le_one 32 _)
    (by rw [mem_drop_one_range]; omega)]
  interval_cases b <;> simp

/-- Bit `j` of a non-recursive code's output symbol is the parity of the
masked shifted state. -/
theorem nonrec_convert_testBit (ce : convcode) (b s j : Nat) (hj : j < ce.num_polys) :
    (nonrec_convert ce b s).testBit j
      = decide (num_bits_is_odd (((s <<< 1) ||| b) &&& ce.polys j) = 1) := by
  show ((List.range ce.num_polys).foldl
    (fun acc j2 => acc ||| (num_bits_is_odd (((s <<< 1) ||| b) &&& ce.polys j2) <<< j2))
    0).testBit j = _
  exact foldl_or_testBit_mem (List.range ce.num_polys)
    (fun j2 => num_bits_is_odd (((s <<< 1) ||| b) &&& ce.polys j2)) 0 j
    (fun a _ => num_bits_is_odd_loop_le_one 32 _) (List.nodup_range _)
    (List.mem_range.mpr hj) (Nat.zero_testBit j)

/-- The two table rows of `convert` never coincide (for a non-recursive code
this needs some odd reversed polynomial; a recursive code is systematic in
bit 0). -/
theorem convert_sep (ce : convcode)
    (hP32 : ∀ j, ce.polys j < 2 ^ 32)
    (hodd : ce.recursive = false → ∃ j, j < ce.num_polys ∧ ce.polys j % 2 = 1) :
    ∀ s, (setup_convcode2 ce).convert 0 s ≠ (setup_convcode2 ce).convert 1 s := by
  intro s heq
  cases hrc : ce.recursive with
  | true =>
    have htab : setup_convcode2 ce =
        { convert := fun b2 i => rec_convert ce b2 i
          next_state := fun b2 i =>
            ((i <<< 1) ||| rec_feedback ce b2 i) &&& (ce.num_states - 1) } := by
      simp [setup_convcode2, hrc]
    rw [htab] at heq
    have heq2 : rec_convert ce 0 s = rec_convert ce 1 s := heq
    have hbit : (rec_convert ce 0 s).testBit 0 = (rec_convert ce 1 s).testBit 0 := by
      rw [heq2]
    rw [rec_convert_testBit0 ce 0 s (by omega),
      rec_convert_testBit0 ce 1 s (by omega)] at hbit
    simp at hbit
  | false =>
    have htab : setup_convcode2 ce =
        { convert := fun b2 i => nonrec_convert ce b2 i
          next_state := fun b2 i => ((i <<< 1) ||| b2) &&& (ce.num_states - 1) } := by
      simp [setup_convcode2, hrc]
    rw [htab] at heq
    obtain ⟨j, hj, hjodd⟩ := hodd hrc
    have heq2 : nonrec_convert ce 0 s = nonrec_convert ce 1 s := heq
    have hbit : (nonrec_convert ce 0 s).testBit j = (nonrec_convert ce 1 s).testBit j := by
      rw [heq2]
    rw [nonrec_convert_testBit ce 0 s j hj, nonrec_convert_testBit ce 1 s j hj] at hbit
    obtain ⟨hre, hflip⟩ := and_odd_flip ce s j hjodd (hP32 j)
    rw [Nat.or_zero, hre] at hbit
    apply hflip
    have hbit2 : decide (num_bits_is_odd_loop 32 ((s <<< 1) &&& ce.polys j) = 1)
        = decide (num_bits_is_odd_loop 32 (((s <<< 1) &&& ce.polys j) ||| 1) = 1) := hbit
    have hle0 := num_bits_is_odd_loop_le_one 32 ((s <<< 1) &&& ce.polys j)
    have hle1 := num_bits_is_odd_loop_le_one 32 (((s <<< 1) &&& ce.polys j) ||| 1)
    show num_bits_is_odd_loop 32 (((s <<< 1) &&& ce.polys j) ||| 1)
      = num_bits_is_odd_loop 32 ((s <<< 1) &&& ce.polys j)
    rcases (by omega : num_bits_is_odd_loop 32 ((s <<< 1) &&& ce.polys j) = 0 ∨
        num_bits_is_odd_loop 32 ((s <<< 1) &&& ce.polys j) = 1) with h0 | h0 <;>
      rcases (by omega : num_bits_is_odd_loop 32 (((s <<< 1) &&& ce.polys j) ||| 1) = 0 ∨
        num_bits_is_odd_loop 32 (((s <<< 1) &&& ce.polys j) ||| 1) = 1) with h1 | h1 <;>
      rw [h0, h1] at hbit2 ⊢ <;> simp at hbit2 ⊢

/-- `get_prev_bit` returns a bit that actually drives the candidate
predecessor to the target state. -/
theorem get_prev_bit_spec (ce : convcode) (hk : 2 ≤ ce.k)
    (hS : ce.num_states = 2 ^ (ce.k - 1))
    (hsep : ∀ s, (setup_convcode2 ce).next_state 0 s ≠ (setup_convcode2 ce).next_state 1 s)
    (p i : Nat) (hi : i < ce.num_states)
    (hp : p % 2 ^ (ce.k - 2) = i / 2) :
    get_prev_bit ce (setup_convcode2 ce) p i ≤ 1 ∧
    (setup_convcode2 ce).next_state (get_prev_bit ce (setup_convcode2 ce) p i) p = i := by
  have hK1 : 1 ≤ ce.k - 1 := by omega
  have hK2 : ce.k - 1 - 1 = ce.k - 2 := by omega
  rw [hS] at hi
  cases hrc : ce.recursive with
  | false =>
    have hgp : get_prev_bit ce (setup_convcode2 ce) p i = i &&& 1 := by
      simp [get_prev_bit, hrc]
    have hb : i &&& 1 ≤ 1 := by
      rw [Nat.and_one_is_mod]
      omega
    obtain ⟨v, hv, he, hnr, _⟩ := next_state_arith ce hk hS (i &&& 1) p hb
    rw [hgp]
    refine ⟨hb, ?_⟩
    rw [he, hnr hrc, next_eq_iff (ce.k - 1) p i (i &&& 1) hK1 hb hi (by rw [hK2]; exact hp)]
    rw [Nat.and_one_is_mod]
  | true =>
    obtain ⟨v0, hv0, he0, _, _⟩ := next_state_arith ce hk hS 0 p (by omega)
    obtain ⟨v1, hv1, he1, _, _⟩ := next_state_arith ce hk hS 1 p (by omega)
    have hvne : v0 ≠ v1 := by
      intro hcontra
      apply hsep p
      rw [he0, he1, hcontra]
    have hiff0 : ((setup_convcode2 ce).next_state 0 p = i ↔ v0 = i % 2) := by
      rw [he0]
      exact next_eq_iff _ p i v0 hK1 hv0 hi (by rw [hK2]; exact hp)
    have hiff1 : ((setup_convcode2 ce).next_state 1 p = i ↔ v1 = i % 2) := by
      rw [he1]
      exact next_eq_iff _ p i v1 hK1 hv1 hi (by rw [hK2]; exact hp)
    by_cases hx : (setup_convcode2 ce).next_state 0 p = i
    · have hgp : get_prev_bit ce (setup_convcode2 ce) p i = 0 := by
        simp [get_prev_bit, hrc, hx]
      rw [hgp]
      exact ⟨by omega, hx⟩
    · have hgp : get_prev_bit ce (setup_convcode2 ce) p i = 1 := by
        simp [get_prev_bit, hrc, hx]
      rw [hgp]
      refine ⟨by omega, ?_⟩
      rw [hiff1]
      have hnot0 : ¬ v0 = i % 2 := fun h => hx (hiff0.mpr h)
      omega

/-!  The reference coded stream and its extraction. -/

/-- Hard branch metrics are at most 32. -/
theorem hamming_none_le32 (ce : convcode) (x y : Nat) :
    hamming_distance ce x y none ≤ 32 :=
  num_bits_set_loop_le 32 (x ^^^ y)

/-- The reference encoder state sequence stays below `num_states`. -/
theorem enc_state_seq_lt (ce : convcode) (hk : 2 ≤ ce.k)
    (hS : ce.num_states = 2 ^ (ce.k - 1)) (mf : List Nat)
    (hmf : ∀ b ∈ mf, b ≤ 1) : ∀ n,
    enc_state_seq (setup_convcode2 ce) mf n < ce.num_states := by
  intro n
  induction n with
  | zero =>
    show 0 < ce.num_states
    rw [hS]
    exact Nat.pos_pow_of_pos _ (by omega)
  | succ m _ =>
    show (setup_convcode2 ce).next_state (mf.getD m 0)
      (enc_state_seq (setup_convcode2 ce) mf m) < ce.num_states
    obtain ⟨v, hv, he, _, _⟩ := next_state_arith ce hk hS (mf.getD m 0)
      (enc_state_seq (setup_convcode2 ce) mf m) (getD_le_one mf hmf m)
    rw [he, hS]
    exact Nat.mod_lt _ (Nat.pos_pow_of_pos _ (by omega))

/-- The traceback bit of a true-path transition is the original message
bit. -/
theorem recovered_bit (ce : convcode) (hk : 2 ≤ ce.k)
    (hS : ce.num_states = 2 ^ (ce.k - 1))
    (hsep : ∀ s, (setup_convcode2 ce).next_state 0 s ≠ (setup_convcode2 ce).next_state 1 s)
    (mf : List Nat) (hmf : ∀ b ∈ mf, b ≤ 1) (i : Nat) :
    get_prev_bit ce (setup_convcode2 ce) (enc_state_seq (setup_convcode2 ce) mf i)
      (enc_state_seq (setup_convcode2 ce) mf (i + 1)) = mf.getD i 0 := by
  have hb := getD_le_one mf hmf i
  have hts : enc_state_seq (setup_convcode2 ce) mf (i + 1)
      = (setup_convcode2 ce).next_state (mf.getD i 0)
        (enc_state_seq (setup_convcode2 ce) mf i) := rfl
  cases hrc : ce.recursive with
  | false =>
    obtain ⟨v, hv, he, hnr, _⟩ := next_state_arith ce hk hS (mf.getD i 0)
      (enc_state_seq (setup_convcode2 ce) mf i) hb
    have hgp : get_prev_bit ce (setup_convcode2 ce)
        (enc_state_seq (setup_convcode2 ce) mf i)
        (enc_state_seq (setup_convcode2 ce) mf (i + 1))
        = enc_state_seq (setup_convcode2 ce) mf (i + 1) &&& 1 := by
      simp [get_prev_bit, hrc]
    have h2K : (2 : Nat) ^ (ce.k - 1) = 2 * 2 ^ (ce.k - 2) := by
      rw [← pow_succ', show ce.k - 2 + 1 = ce.k - 1 from by omega]
    have hdvd : (2 : Nat) ∣ 2 ^ (ce.k - 1) := ⟨2 ^ (ce.k - 2), h2K⟩
    rw [hgp, hts, he, hnr hrc, Nat.and_one_is_mod, Nat.mod_mod_of_dvd _ hdvd]
    omega
  | true =>
    rcases Nat.le_one_iff_eq_zero_or_eq_one.mp hb with hb0 | hb1
    · have hcond : (setup_convcode2 ce).next_state 0
          (enc_state_seq (setup_convcode2 ce) mf i)
          = enc_state_seq (setup_convcode2 ce) mf (i + 1) := by
        rw [hts, hb0]
      rw [hb0]
      simp [get_prev_bit, hrc, hcond]
    · have hcond : ¬ (setup_convcode2 ce).next_state 0
          (enc_state_seq (setup_convcode2 ce) mf i)
          = enc_state_seq (setup_convcode2 ce) mf (i + 1) := by
        rw [hts, hb1]
        exact hsep _
      rw [hb1]
      simp [get_prev_bit, hrc, hcond]

/-- Tabulating `getD` over the index range rebuilds the list. -/
theorem map_getD_self (l : List Nat) :
    (List.range l.length).map (fun j => l.getD j 0) = l := by
  induction l with
  | nil => rfl
  | cons a r ih =>
    show (List.range (r.length + 1)).map (fun j => (a :: r).getD j 0) = a :: r
    rw [List.range_succ_eq_map, List.map_cons, List.map_map]
    show a :: (List.range r.length).map (fun j => r.getD j 0) = a :: r
    rw [ih]

/-- The singleton expansion of a bit. -/
theorem le_bits_one (v : Nat) (hv : v ≤ 1) : le_bits v 1 = [v] := by
  show [(v >>> 0) &&& 1] = [v]
  rw [Nat.shiftRight_zero, Nat.and_one_is_mod, Nat.mod_eq_of_lt (by omega)]

/-- Length of the reference coded stream. -/
theorem coded_stream_length (t : tables) (mf : List Nat) (np N : Nat) :
    (coded_stream t mf np N).length = N * np := by
  induction N with
  | zero =>
    rw [Nat.zero_mul]
    rfl
  | succ M ih =>
    rw [coded_stream_succ, List.length_append, ih, le_bits_length]
    ring

/-- The reference coded stream is a 0/1 list. -/
theorem coded_stream_le_one (t : tables) (mf : List Nat) (np N : Nat) :
    ∀ b ∈ coded_stream t mf np N, b ≤ 1 := by
  intro b hb
  obtain ⟨l, hl, hbl⟩ := List.mem_flatten.mp hb
  obtain ⟨q, _, rfl⟩ := List.mem_map.mp hl
  exact le_bits_mem_le_one _ _ b hbl

/-- Tabulating a list-valued function over the index range. -/
theorem map_range_getD_list (f : Nat → List Nat) (n i : Nat) (hi : i < n) :
    ((List.range n).map f).getD i [] = f i := by
  rw [List.getD_eq_getElem?_getD]
  simp [List.getElem?_range, hi]

/-- Indexing a flattening of uniform-length chunks. -/
theorem flatten_uniform_getD (np : Nat) : ∀ (L : List (List Nat)),
    (∀ l ∈ L, l.length = np) → ∀ (n j : Nat), j < np → n < L.length →
    L.flatten.getD (n * np + j) 0 = (L.getD n []).getD j 0 := by
  intro L
  induction L with
  | nil =>
    intro _ n j _ hn
    rw [List.length_nil] at hn
    omega
  | cons l0 rest ih =>
    intro h n j hj hn
    have hl0 : l0.length = np := h l0 (List.mem_cons_self _ _)
    cases n with
    | zero =>
      show (l0 ++ rest.flatten).getD (0 * np + j) 0 = l0.getD j 0
      rw [Nat.zero_mul, Nat.zero_add]
      exact List.getD_append _ _ _ j (by omega)
    | succ m =>
      show (l0 ++ rest.flatten).getD ((m + 1) * np + j) 0 = (rest.getD m []).getD j 0
      have hsplit : (m + 1) * np + j = np + (m * np + j) := by ring
      rw [hsplit, List.getD_append_right _ _ _ _ (by omega : l0.length ≤ np + (m * np + j)),
        hl0, (by omega : np + (m * np + j) - np = m * np + j)]
      exact ih (fun l hl => h l (List.mem_cons_of_mem _ hl)) m j hj (by
        rw [List.length_cons] at hn
        omega)

/-- Bit `j` of coded symbol `n` inside the reference stream. -/
theorem coded_stream_getD (t : tables) (mf : List Nat) (np N n j : Nat)
    (hj : j < np) (hn : n < N) :
    (coded_stream t mf np N).getD (n * np + j) 0
      = (le_bits (enc_symbol t mf n) np).getD j 0 := by
  show (((List.range N).map (fun q => le_bits (enc_symbol t mf q) np)).flatten).getD
      (n * np + j) 0 = _
  rw [flatten_uniform_getD np _ (by
      intro l hl
      obtain ⟨q, _, rfl⟩ := List.mem_map.mp hl
      exact le_bits_length _ _) n j hj (by
      rw [List.length_map, List.length_range]
      exact hn)]
  rw [map_range_getD_list (fun q => le_bits (enc_symbol t mf q) np) N n hn]

/-- Extracting symbol `n` from the packed reference stream gives the symbol
value. -/
theorem extract_coded_symbol (t : tables) (mf : List Nat) (np N n : Nat)
    (hn : n < N) (hsym : enc_symbol t mf n < 2 ^ np) :
    extract_bits (bits_to_bytes (coded_stream t mf np N)) (n * np) np
      = enc_symbol t mf n := by
  refine extract_bits_eq _ (coded_stream_le_one t mf np N) _ _ _ ?_ hsym ?_
  · rw [coded_stream_length]
    have h1 : (n + 1) * np ≤ N * np := Nat.mul_le_mul_right _ (by omega)
    have h2 : (n + 1) * np = n * np + np := by ring
    omega
  · intro j hj
    rw [coded_stream_getD t mf np N n j hj hn, le_bits_getD _ _ _ hj, bit_if]
    cases hx : (enc_symbol t mf n).testBit j with
    | true =>
      rw [if_pos rfl]
      simp
    | false =>
      rw [if_neg (by simp)]
      simp

/-- Cells of distinct trellis columns have distinct flat indices. -/
theorem trellis_index_col_lt (ce : convcode) (hS1 : 1 ≤ ce.num_states)
    (c1 c2 row i : Nat) (hc : c1 < c2) (hrow : row < ce.num_states) :
    trellis_index ce c1 row ≠ trellis_index ce c2 i := by
  simp only [trellis_index]
  intro h
  have h1 : (c1 + 1) * (ce.num_states * 2) ≤ c2 * (ce.num_states * 2) :=
    Nat.mul_le_mul_right _ (by omega)
  have h2 : (c1 + 1) * (ce.num_states * 2)
      = c1 * (ce.num_states * 2) + ce.num_states * 2 := by ring
  have h3 : c1 * ce.num_states * 2 = c1 * (ce.num_states * 2) := by ring
  have h4 : c2 * ce.num_states * 2 = c2 * (ce.num_states * 2) := by ring
  omega

/-- One noiseless ACS column: from a metric buffer whose unique zero sits on
the true path state, `decode_bits` on the true symbol keeps the zero on the
next true state, keeps every other metric positive and bounded, and records
the true predecessor in the trellis column. -/
theorem decode_bits_step (ce : convcode) (hk : 2 ≤ ce.k)
    (hS : ce.num_states = 2 ^ (ce.k - 1))
    (hsep : ∀ s, (setup_convcode2 ce).next_state 0 s ≠ (setup_convcode2 ce).next_state 1 s)
    (hcsep : ∀ s, (setup_convcode2 ce).convert 0 s ≠ (setup_convcode2 ce).convert 1 s)
    (hcv32 : ∀ b s, b ≤ 1 → (setup_convcode2 ce).convert b s < 2 ^ 32)
    (mf : List Nat) (hmf : ∀ b ∈ mf, b ≤ 1) (n : Nat) (st : decstate)
    (ha : st.ctrellis = n)
    (hc : st.curr_path_values.getD (enc_state_seq (setup_convcode2 ce) mf n) 0 = 0)
    (hd : ∀ i, i < ce.num_states → i ≠ enc_state_seq (setup_convcode2 ce) mf n →
      1 ≤ st.curr_path_values.getD i 0)
    (he : ∀ i, i < ce.num_states → st.curr_path_values.getD i 0 ≤ 2147483647 + 32 * n)
    (hcap : n + ce.num_polys ≤ ce.trellis_size)
    (hn4000 : n ≤ 4000) :
    (decode_bits ce (setup_convcode2 ce) st
        (enc_symbol (setup_convcode2 ce) mf n) none).1 = 0 ∧
    (decode_bits ce (setup_convcode2 ce) st
        (enc_symbol (setup_convcode2 ce) mf n) none).2.ctrellis = n + 1 ∧
    (decode_bits ce (setup_convcode2 ce) st
        (enc_symbol (setup_convcode2 ce) mf n) none).2.curr_path_values.length
      = ce.num_states ∧
    (decode_bits ce (setup_convcode2 ce) st
        (enc_symbol (setup_convcode2 ce) mf n) none).2.curr_path_values.getD
      (enc_state_seq (setup_convcode2 ce) mf (n + 1)) 0 = 0 ∧
    (∀ i, i < ce.num_states → i ≠ enc_state_seq (setup_convcode2 ce) mf (n + 1) →
      1 ≤ (decode_bits ce (setup_convcode2 ce) st
        (enc_symbol (setup_convcode2 ce) mf n) none).2.curr_path_values.getD i 0) ∧
    (∀ i, i < ce.num_states →
      (decode_bits ce (setup_convcode2 ce) st
        (enc_symbol (setup_convcode2 ce) mf n) none).2.curr_path_values.getD i 0
        ≤ 2147483647 + 32 * (n + 1)) ∧
    (decode_bits ce (setup_convcode2 ce) st
        (enc_symbol (setup_convcode2 ce) mf n) none).2.trellis
      (trellis_index ce n (enc_state_seq (setup_convcode2 ce) mf (n + 1)))
      = enc_state_seq (setup_convcode2 ce) mf n ∧
    (∀ a, (∀ i, i < ce.num_states → a ≠ trellis_index ce n i) →
      (decode_bits ce (setup_convcode2 ce) st
        (enc_symbol (setup_convcode2 ce) mf n) none).2.trellis a = st.trellis a) ∧
    (decode_bits ce (setup_convcode2 ce) st
        (enc_symbol (setup_convcode2 ce) mf n) none).2.dec_out = st.dec_out ∧
    (decode_bits ce (setup_convcode2 ce) st
        (enc_symbol (setup_convcode2 ce) mf n) none).2.leftover_bits
      = st.leftover_bits := by
  have hS1 : 1 ≤ ce.num_states := by
    rw [hS]
    exact Nat.pos_pow_of_pos _ (by omega)
  have h2K : (2 : Nat) ^ (ce.k - 1) = 2 * 2 ^ (ce.k - 2) := by
    rw [← pow_succ', show ce.k - 2 + 1 = ce.k - 1 from by omega]
  have hguard : ¬ ce.trellis_size < st.ctrellis + ce.num_polys := by omega
  have hbn : mf.getD n 0 ≤ 1 := getD_le_one mf hmf n
  have htsn := enc_state_seq_lt ce hk hS mf hmf n
  have htsn1 := enc_state_seq_lt ce hk hS mf hmf (n + 1)
  -- candidate distances
  have hdist : ∀ i p, i < ce.num_states → p < ce.num_states →
      p % 2 ^ (ce.k - 2) = i / 2 →
      ((st.curr_path_values.getD p 0 +
        hamming_distance ce ((setup_convcode2 ce).convert
          (get_prev_bit ce (setup_convcode2 ce) p i) p)
          (enc_symbol (setup_convcode2 ce) mf n) none) % 4294967296
        = st.curr_path_values.getD p 0 +
          hamming_distance ce ((setup_convcode2 ce).convert
            (get_prev_bit ce (setup_convcode2 ce) p i) p)
            (enc_symbol (setup_convcode2 ce) mf n) none) ∧
      (st.curr_path_values.getD p 0 +
        hamming_distance ce ((setup_convcode2 ce).convert
          (get_prev_bit ce (setup_convcode2 ce) p i) p)
          (enc_symbol (setup_convcode2 ce) mf n) none
        ≤ 2147483647 + 32 * n + 32) ∧
      (p = enc_state_seq (setup_convcode2 ce) mf n →
        i = enc_state_seq (setup_convcode2 ce) mf (n + 1) →
        st.curr_path_values.getD p 0 +
          hamming_distance ce ((setup_convcode2 ce).convert
            (get_prev_bit ce (setup_convcode2 ce) p i) p)
            (enc_symbol (setup_convcode2 ce) mf n) none = 0) ∧
      (p ≠ enc_state_seq (setup_convcode2 ce) mf n →
        1 ≤ st.curr_path_values.getD p 0 +
          hamming_distance ce ((setup_convcode2 ce).convert
            (get_prev_bit ce (setup_convcode2 ce) p i) p)
            (enc_symbol (setup_convcode2 ce) mf n) none) ∧
      (p = enc_state_seq (setup_convcode2 ce) mf n →
        i ≠ enc_state_seq (setup_convcode2 ce) mf (n + 1) →
        1 ≤ st.curr_path_values.getD p 0 +
          hamming_distance ce ((setup_convcode2 ce).convert
            (get_prev_bit ce (setup_convcode2 ce) p i) p)
            (enc_symbol (setup_convcode2 ce) mf n) none) := by
    intro i p hi hp hpmod
    obtain ⟨hgb, hgnext⟩ := get_prev_bit_spec ce hk hS hsep p i hi hpmod
    have hH32 := hamming_none_le32 ce ((setup_convcode2 ce).convert
      (get_prev_bit ce (setup_convcode2 ce) p i) p) (enc_symbol (setup_convcode2 ce) mf n)
    have hcb := he p hp
    refine ⟨Nat.mod_eq_of_lt (by omega), by omega, ?_, ?_, ?_⟩
    · intro hps hits
      have hbits : get_prev_bit ce (setup_convcode2 ce) p i = mf.getD n 0 := by
        by_contra hne
        have h01 : (get_prev_bit ce (setup_convcode2 ce) p i = 0 ∧ mf.getD n 0 = 1) ∨
            (get_prev_bit ce (setup_convcode2 ce) p i = 1 ∧ mf.getD n 0 = 0) := by
          omega
        have hnexts : (setup_convcode2 ce).next_state (mf.getD n 0) p = i := by
          rw [hps, hits]
          rfl
        rcases h01 with ⟨h1, h2⟩ | ⟨h1, h2⟩
        · apply hsep p
          rw [← h1, hgnext, ← h2, hnexts]
        · apply hsep p
          rw [← h2, hnexts, ← h1, hgnext]
      rw [hbits]
      have hsym : enc_symbol (setup_convcode2 ce) mf n
          = (setup_convcode2 ce).convert (mf.getD n 0) p := by
        rw [hps]
        rfl
      rw [← hsym, hamming_self, hps, hc]
    · intro hne
      have := hd p hp hne
      omega
    · intro hps hits
      have hbits : get_prev_bit ce (setup_convcode2 ce) p i ≠ mf.getD n 0 := by
        intro hcontra
        apply hits
        have hnexts : (setup_convcode2 ce).next_state (mf.getD n 0) p
            = enc_state_seq (setup_convcode2 ce) mf (n + 1) := by
          rw [hps]
          rfl
        rw [← hnexts, ← hcontra, hgnext]
      have hH1 : 1 ≤ hamming_distance ce ((setup_convcode2 ce).convert
          (get_prev_bit ce (setup_convcode2 ce) p i) p)
          (enc_symbol (setup_convcode2 ce) mf n) none := by
        apply hamming_pos ce _ _ (hcv32 _ _ hgb) (hcv32 _ _ hbn)
        rw [← hps]
        have h01 : (get_prev_bit ce (setup_convcode2 ce) p i = 0 ∧ mf.getD n 0 = 1) ∨
            (get_prev_bit ce (setup_convcode2 ce) p i = 1 ∧ mf.getD n 0 = 0) := by
          omega
        rcases h01 with ⟨h1, h2⟩ | ⟨h1, h2⟩
        · rw [h1, h2]
          exact hcsep p
        · rw [h1, h2]
          exact fun h => hcsep p h.symm
      omega
  -- geometry of the two predecessors of a state i
  have hgeom : ∀ i, i < ce.num_states →
      i >>> 1 = i / 2 ∧ i / 2 < 2 ^ (ce.k - 2) ∧
      (i / 2) ||| (1 <<< (ce.k - 2)) = i / 2 + 2 ^ (ce.k - 2) ∧
      i / 2 < ce.num_states ∧ i / 2 + 2 ^ (ce.k - 2) < ce.num_states ∧
      (i / 2) % 2 ^ (ce.k - 2) = i / 2 ∧
      (i / 2 + 2 ^ (ce.k - 2)) % 2 ^ (ce.k - 2) = i / 2 := by
    intro i hi
    rw [hS] at hi
    have hi2 : i / 2 < 2 ^ (ce.k - 2) := by omega
    have hp1 : i >>> 1 = i / 2 := Nat.shiftRight_one i
    refine ⟨hp1, hi2, ?_, by rw [hS]; omega, by rw [hS]; omega,
      Nat.mod_eq_of_lt hi2, by rw [Nat.add_mod_right]; exact Nat.mod_eq_of_lt hi2⟩
    rw [Nat.one_shiftLeft]
    exact or_two_pow_of_lt _ _ hi2
  -- the ACS result on the true-path target
  have hacs_true : acs_pred ce (setup_convcode2 ce) st.curr_path_values
      (enc_symbol (setup_convcode2 ce) mf n) none
      (enc_state_seq (setup_convcode2 ce) mf (n + 1))
      = (enc_state_seq (setup_convcode2 ce) mf n, 0) := by
    obtain ⟨hp1, hi2, hp2, hp1S, hp2S, hp1mod, hp2mod⟩ :=
      hgeom (enc_state_seq (setup_convcode2 ce) mf (n + 1)) htsn1
    have hd1 := hdist (enc_state_seq (setup_convcode2 ce) mf (n + 1))
      (enc_state_seq (setup_convcode2 ce) mf (n + 1) / 2) htsn1 hp1S hp1mod
    have hd2 := hdist (enc_state_seq (setup_convcode2 ce) mf (n + 1))
      (enc_state_seq (setup_convcode2 ce) mf (n + 1) / 2 + 2 ^ (ce.k - 2)) htsn1 hp2S
      hp2mod
    -- where the true state sits
    obtain ⟨v, hv, he_ns, _, _⟩ := next_state_arith ce hk hS (mf.getD n 0)
      (enc_state_seq (setup_convcode2 ce) mf n) hbn
    have hi_form : enc_state_seq (setup_convcode2 ce) mf (n + 1)
        = (2 * enc_state_seq (setup_convcode2 ce) mf n + v) % 2 ^ (ce.k - 1) := he_ns
    have hshift : enc_state_seq (setup_convcode2 ce) mf (n + 1) >>> 1
        = enc_state_seq (setup_convcode2 ce) mf n % 2 ^ (ce.k - 2) := by
      rw [hi_form, show ce.k - 2 = ce.k - 1 - 1 from by omega]
      exact succ_shift (ce.k - 1) _ v (by omega) (by rw [← hS]; exact htsn) hv
    have hhalf : enc_state_seq (setup_convcode2 ce) mf (n + 1) / 2
        = enc_state_seq (setup_convcode2 ce) mf n % 2 ^ (ce.k - 2) := by
      rw [← hp1]
      exact hshift
    have hcases := pred_cases (ce.k - 1) (enc_state_seq (setup_convcode2 ce) mf n)
      (by omega) (by rw [← hS]; exact htsn)
    rw [show ce.k - 1 - 1 = ce.k - 2 from by omega] at hcases
    simp only [acs_pred, hp1, hp2]
    rcases hcases with hloc | hloc
    · -- true state is the low predecessor
      have hps : enc_state_seq (setup_convcode2 ce) mf (n + 1) / 2
          = enc_state_seq (setup_convcode2 ce) mf n := by
        rw [hhalf, hloc]
      have hz := (hd1.2.2.1) (by rw [hps]) rfl
      have hone : 1 ≤ st.curr_path_values.getD
          (enc_state_seq (setup_convcode2 ce) mf (n + 1) / 2 + 2 ^ (ce.k - 2)) 0 +
          hamming_distance ce ((setup_convcode2 ce).convert
            (get_prev_bit ce (setup_convcode2 ce)
              (enc_state_seq (setup_convcode2 ce) mf (n + 1) / 2 + 2 ^ (ce.k - 2))
              (enc_state_seq (setup_convcode2 ce) mf (n + 1)))
            (enc_state_seq (setup_convcode2 ce) mf (n + 1) / 2 + 2 ^ (ce.k - 2)))
          (enc_symbol (setup_convcode2 ce) mf n) none := by
        apply hd2.2.2.2.1
        rw [← hps]
        have := Nat.pos_pow_of_pos (ce.k - 2) (show 0 < 2 by omega)
        omega
      rw [hd1.1, hd2.1, hz]
      rw [if_neg (by omega)]
      rw [hps]
    · -- true state is the high predecessor
      have hps : enc_state_seq (setup_convcode2 ce) mf (n + 1) / 2 + 2 ^ (ce.k - 2)
          = enc_state_seq (setup_convcode2 ce) mf n := by
        rw [hhalf, hloc]
      have hz := (hd2.2.2.1) (by rw [hps]) rfl
      have hone : 1 ≤ st.curr_path_values.getD
          (enc_state_seq (setup_convcode2 ce) mf (n + 1) / 2) 0 +
          hamming_distance ce ((setup_convcode2 ce).convert
            (get_prev_bit ce (setup_convcode2 ce)
              (enc_state_seq (setup_convcode2 ce) mf (n + 1) / 2)
              (enc_state_seq (setup_convcode2 ce) mf (n + 1)))
            (enc_state_seq (setup_convcode2 ce) mf (n + 1) / 2))
          (enc_symbol (setup_convcode2 ce) mf n) none := by
        apply hd1.2.2.2.1
        rw [← hps]
        have := Nat.pos_pow_of_pos (ce.k - 2) (show 0 < 2 by omega)
        omega
      rw [hd1.1, hd2.1, hz]
      rw [if_pos (by omega)]
      rw [hps]
  -- the ACS result on every other target
  have hacs_other : ∀ i, i < ce.num_states →
      i ≠ enc_state_seq (setup_convcode2 ce) mf (n + 1) →
      1 ≤ (acs_pred ce (setup_convcode2 ce) st.curr_path_values
        (enc_symbol (setup_convcode2 ce) mf n) none i).2 ∧
      (acs_pred ce (setup_convcode2 ce) st.curr_path_values
        (enc_symbol (setup_convcode2 ce) mf n) none i).2
        ≤ 2147483647 + 32 * n + 32 := by
    intro i hi hne
    obtain ⟨hp1, hi2, hp2, hp1S, hp2S, hp1mod, hp2mod⟩ := hgeom i hi
    have hd1 := hdist i (i / 2) hi hp1S hp1mod
    have hd2 := hdist i (i / 2 + 2 ^ (ce.k - 2)) hi hp2S hp2mod
    have hone1 : 1 ≤ st.curr_path_values.getD (i / 2) 0 +
        hamming_distance ce ((setup_convcode2 ce).convert
          (get_prev_bit ce (setup_convcode2 ce) (i / 2) i) (i / 2))
        (enc_symbol (setup_convcode2 ce) mf n) none := by
      by_cases hps : i / 2 = enc_state_seq (setup_convcode2 ce) mf n
      · exact hd1.2.2.2.2 hps hne
      · exact hd1.2.2.2.1 hps
    have hone2 : 1 ≤ st.curr_path_values.getD (i / 2 + 2 ^ (ce.k - 2)) 0 +
        hamming_distance ce ((setup_convcode2 ce).convert
          (get_prev_bit ce (setup_convcode2 ce) (i / 2 + 2 ^ (ce.k - 2)) i)
          (i / 2 + 2 ^ (ce.k - 2)))
        (enc_symbol (setup_convcode2 ce) mf n) none := by
      by_cases hps : i / 2 + 2 ^ (ce.k - 2) = enc_state_seq (setup_convcode2 ce) mf n
      · exact hd2.2.2.2.2 hps hne
      · exact hd2.2.2.2.1 hps
    simp only [acs_pred, hp1, hp2]
    rw [hd1.1, hd2.1]
    by_cases hlt : st.curr_path_values.getD (i / 2 + 2 ^ (ce.k - 2)) 0 +
        hamming_distance ce ((setup_convcode2 ce).convert
          (get_prev_bit ce (setup_convcode2 ce) (i / 2 + 2 ^ (ce.k - 2)) i)
          (i / 2 + 2 ^ (ce.k - 2)))
        (enc_symbol (setup_convcode2 ce) mf n) none <
        st.curr_path_values.getD (i / 2) 0 +
        hamming_distance ce ((setup_convcode2 ce).convert
          (get_prev_bit ce (setup_convcode2 ce) (i / 2) i) (i / 2))
        (enc_symbol (setup_convcode2 ce) mf n) none
    · rw [if_pos hlt]
      exact ⟨hone2, hd2.2.1⟩
    · rw [if_neg hlt]
      exact ⟨hone1, hd1.2.1⟩
  -- unpack decode_bits
  have hcurr' : (decode_bits ce (setup_convcode2 ce) st
      (enc_symbol (setup_convcode2 ce) mf n) none).2.curr_path_values
      = (List.range ce.num_states).map
        (fun i => (acs_pred ce (setup_convcode2 ce) st.curr_path_values
          (enc_symbol (setup_convcode2 ce) mf n) none i).2) := by
    simp only [decode_bits, if_neg hguard]
  have htr' : (decode_bits ce (setup_convcode2 ce) st
      (enc_symbol (setup_convcode2 ce) mf n) none).2.trellis
      = write_range st.trellis (fun i => trellis_index ce st.ctrellis i)
        (fun i => (acs_pred ce (setup_convcode2 ce) st.curr_path_values
          (enc_symbol (setup_convcode2 ce) mf n) none i).1) ce.num_states := by
    simp only [decode_bits, if_neg hguard]
  refine ⟨by simp only [decode_bits, if_neg hguard], ?_, ?_, ?_, ?_, ?_, ?_, ?_, ?_, ?_⟩
  · simp only [decode_bits, if_neg hguard]
    omega
  · rw [hcurr', List.length_map, List.length_range]
  · rw [hcurr', map_range_getD _ _ _ htsn1, hacs_true]
  · intro i hi hne
    rw [hcurr', map_range_getD _ _ _ hi]
    exact (hacs_other i hi hne).1
  · intro i hi
    rw [hcurr', map_range_getD _ _ _ hi]
    by_cases hne : i = enc_state_seq (setup_convcode2 ce) mf (n + 1)
    · rw [hne, hacs_true]
      omega
    · have := (hacs_other i hi hne).2
      omega
  · have hidx : trellis_index ce n (enc_state_seq (setup_convcode2 ce) mf (n + 1))
        = trellis_index ce st.ctrellis (enc_state_seq (setup_convcode2 ce) mf (n + 1)) := by
      rw [ha]
    rw [hidx, decode_bits_trellis_write ce (setup_convcode2 ce) st
      (enc_symbol (setup_convcode2 ce) mf n) none
      (enc_state_seq (setup_convcode2 ce) mf (n + 1)) (by omega) htsn1, hacs_true]
  · intro a hane
    rw [htr', write_range_get_ne]
    intro j hj
    rw [ha]
    exact hane j hj
  · simp only [decode_bits, if_neg hguard]
  · simp only [decode_bits, if_neg hguard]

/-- The `convdecode_data` symbol loop on the noiseless coded stream: starting
at column `n0` with the single-zero metric invariant, it consumes all
remaining symbols with status 0 and lands at column `N` with the invariant
restored, recording the true predecessor of every visited column and leaving
`dec_out` and the leftover fields untouched. -/
theorem convdecode_main_run (ce : convcode) (hk : 2 ≤ ce.k)
    (hS : ce.num_states = 2 ^ (ce.k - 1))
    (hsep : ∀ s, (setup_convcode2 ce).next_state 0 s ≠ (setup_convcode2 ce).next_state 1 s)
    (hcsep : ∀ s, (setup_convcode2 ce).convert 0 s ≠ (setup_convcode2 ce).convert 1 s)
    (hcv32 : ∀ b s, b ≤ 1 → (setup_convcode2 ce).convert b s < 2 ^ 32)
    (mf : List Nat) (hmf : ∀ b ∈ mf, b ≤ 1) (N : Nat) (hN : N ≤ 4000)
    (hnp1 : 1 ≤ ce.num_polys)
    (hsymlt : ∀ n, n < N → enc_symbol (setup_convcode2 ce) mf n < 2 ^ ce.num_polys)
    (hcap : N + ce.num_polys ≤ ce.trellis_size) :
    ∀ r fuel n0 st, r ≤ fuel → n0 + r = N →
    st.ctrellis = n0 →
    st.curr_path_values.getD (enc_state_seq (setup_convcode2 ce) mf n0) 0 = 0 →
    (∀ i, i < ce.num_states → i ≠ enc_state_seq (setup_convcode2 ce) mf n0 →
      1 ≤ st.curr_path_values.getD i 0) →
    (∀ i, i < ce.num_states → st.curr_path_values.getD i 0 ≤ 2147483647 + 32 * n0) →
    (convdecode_main fuel ce (setup_convcode2 ce) st
        (bits_to_bytes (coded_stream (setup_convcode2 ce) mf ce.num_polys N))
        (n0 * ce.num_polys) (r * ce.num_polys) none).1 = 0 ∧
    (convdecode_main fuel ce (setup_convcode2 ce) st
        (bits_to_bytes (coded_stream (setup_convcode2 ce) mf ce.num_polys N))
        (n0 * ce.num_polys) (r * ce.num_polys) none).2.2.1 = N * ce.num_polys ∧
    (convdecode_main fuel ce (setup_convcode2 ce) st
        (bits_to_bytes (coded_stream (setup_convcode2 ce) mf ce.num_polys N))
        (n0 * ce.num_polys) (r * ce.num_polys) none).2.2.2 = 0 ∧
    (convdecode_main fuel ce (setup_convcode2 ce) st
        (bits_to_bytes (coded_stream (setup_convcode2 ce) mf ce.num_polys N))
        (n0 * ce.num_polys) (r * ce.num_polys) none).2.1.ctrellis = N ∧
    (convdecode_main fuel ce (setup_convcode2 ce) st
        (bits_to_bytes (coded_stream (setup_convcode2 ce) mf ce.num_polys N))
        (n0 * ce.num_polys) (r * ce.num_polys) none).2.1.curr_path_values.getD
      (enc_state_seq (setup_convcode2 ce) mf N) 0 = 0 ∧
    (∀ i, i < ce.num_states → i ≠ enc_state_seq (setup_convcode2 ce) mf N →
      1 ≤ (convdecode_main fuel ce (setup_convcode2 ce) st
        (bits_to_bytes (coded_stream (setup_convcode2 ce) mf ce.num_polys N))
        (n0 * ce.num_polys) (r * ce.num_polys) none).2.1.curr_path_values.getD i 0) ∧
    (∀ i, i < ce.num_states →
      (convdecode_main fuel ce (setup_convcode2 ce) st
        (bits_to_bytes (coded_stream (setup_convcode2 ce) mf ce.num_polys N))
        (n0 * ce.num_polys) (r * ce.num_polys) none).2.1.curr_path_values.getD i 0
        ≤ 2147483647 + 32 * N) ∧
    (∀ τ, τ < N → n0 ≤ τ →
      (convdecode_main fuel ce (setup_convcode2 ce) st
        (bits_to_bytes (coded_stream (setup_convcode2 ce) mf ce.num_polys N))
        (n0 * ce.num_polys) (r * ce.num_polys) none).2.1.trellis
        (trellis_index ce τ (enc_state_seq (setup_convcode2 ce) mf (τ + 1)))
        = enc_state_seq (setup_convcode2 ce) mf τ) ∧
    (∀ a, (∀ c i, i < ce.num_states → n0 ≤ c → c < N → a ≠ trellis_index ce c i) →
      (convdecode_main fuel ce (setup_convcode2 ce) st
        (bits_to_bytes (coded_stream (setup_convcode2 ce) mf ce.num_polys N))
        (n0 * ce.num_polys) (r * ce.num_polys) none).2.1.trellis a = st.trellis a) ∧
    (convdecode_main fuel ce (setup_convcode2 ce) st
        (bits_to_bytes (coded_stream (setup_convcode2 ce) mf ce.num_polys N))
        (n0 * ce.num_polys) (r * ce.num_polys) none).2.1.dec_out = st.dec_out ∧
    (convdecode_main fuel ce (setup_convcode2 ce) st
        (bits_to_bytes (coded_stream (setup_convcode2 ce) mf ce.num_polys N))
        (n0 * ce.num_polys) (r * ce.num_polys) none).2.1.leftover_bits
      = st.leftover_bits := by
  have hS1 : 1 ≤ ce.num_states := by
    rw [hS]
    exact Nat.pos_pow_of_pos _ (by omega)
  intro r
  induction r with
  | zero =>
    intro fuel n0 st hrf hn0 h1 h2 h3 h4
    have hn0N : n0 = N := by omega
    subst hn0N
    rw [Nat.zero_mul]
    cases fuel with
    | zero =>
      exact ⟨rfl, rfl, rfl, h1, h2, h3, h4,
        fun τ hτ hτ2 => absurd hτ (by omega), fun a _ => rfl, rfl, rfl⟩
    | succ f =>
      have hred : convdecode_main (f + 1) ce (setup_convcode2 ce) st
          (bits_to_bytes (coded_stream (setup_convcode2 ce) mf ce.num_polys n0))
          (n0 * ce.num_polys) 0 none = (0, st, n0 * ce.num_polys, 0) := by
        simp only [convdecode_main]
        rw [if_pos (by omega : 0 < ce.num_polys)]
      rw [hred]
      exact ⟨rfl, rfl, rfl, h1, h2, h3, h4,
        fun τ hτ hτ2 => absurd hτ (by omega), fun a _ => rfl, rfl, rfl⟩
  | succ r ih =>
    intro fuel n0 st hrf hn0 h1 h2 h3 h4
    cases fuel with
    | zero => omega
    | succ f =>
      have hn0N : n0 < N := by omega
      have hguard : ¬ ((r + 1) * ce.num_polys < ce.num_polys) := by
        rw [Nat.succ_mul]
        omega
      have hbits : extract_bits
          (bits_to_bytes (coded_stream (setup_convcode2 ce) mf ce.num_polys N))
          (n0 * ce.num_polys) ce.num_polys
          = enc_symbol (setup_convcode2 ce) mf n0 :=
        extract_coded_symbol (setup_convcode2 ce) mf ce.num_polys N n0 hn0N
          (hsymlt n0 hn0N)
      have hstep := decode_bits_step ce hk hS hsep hcsep hcv32 mf hmf n0 st h1 h2 h3 h4
        (by omega) (by omega)
      obtain ⟨hs1, hs2, hs3, hs4, hs5, hs6, hs7, hs8, hs9, hs10⟩ := hstep
      simp only [convdecode_main]
      rw [if_neg hguard, hbits, hs1]
      rw [if_neg (by omega : ¬ (0 : Nat) ≠ 0)]
      have harith1 : n0 * ce.num_polys + ce.num_polys = (n0 + 1) * ce.num_polys :=
        (Nat.succ_mul n0 ce.num_polys).symm
      have harith2 : (r + 1) * ce.num_polys - ce.num_polys = r * ce.num_polys := by
        rw [Nat.succ_mul]
        omega
      rw [harith1, harith2]
      obtain ⟨hi1, hi2, hi3, hi4, hi5, hi6, hi7, hi8, hi9, hi10, hi11⟩ :=
        ih f (n0 + 1)
          (decode_bits ce (setup_convcode2 ce) st
            (enc_symbol (setup_convcode2 ce) mf n0) none).2
          (by omega) (by omega) hs2 hs4 hs5 hs6
      refine ⟨hi1, hi2, hi3, hi4, hi5, hi6, hi7, ?_, ?_, ?_, ?_⟩
      · intro τ hτ hτ2
        by_cases hτn0 : τ = n0
        · subst hτn0
          rw [hi9]
          · exact hs7
          · intro c i hiS hc1 hc2
            exact trellis_index_col_lt ce hS1 τ c
              (enc_state_seq (setup_convcode2 ce) mf (τ + 1)) i (by omega)
              (enc_state_seq_lt ce hk hS mf hmf (τ + 1))
        · exact hi8 τ hτ (by omega)
      · intro a hane
        rw [hi9 a (fun c i hiS hc1 hc2 => hane c i hiS (by omega) hc2)]
        exact hs8 a (fun i hiS => hane n0 i hiS (by omega) hn0N)
      · rw [hi10, hs9]
      · rw [hi11, hs10]

/-- A single `convdecode_data` call on the full noiseless coded stream from a
fresh decoder state: status 0, final column `N`, the single-zero metric
invariant at the true terminal state, every trellis column recording the true
predecessor, `dec_out` untouched and no leftover bits. -/
theorem convdecode_data_run (ce : convcode) (hk : 2 ≤ ce.k)
    (hS : ce.num_states = 2 ^ (ce.k - 1))
    (hsep : ∀ s, (setup_convcode2 ce).next_state 0 s ≠ (setup_convcode2 ce).next_state 1 s)
    (hcsep : ∀ s, (setup_convcode2 ce).convert 0 s ≠ (setup_convcode2 ce).convert 1 s)
    (hcv32 : ∀ b s, b ≤ 1 → (setup_convcode2 ce).convert b s < 2 ^ 32)
    (mf : List Nat) (hmf : ∀ b ∈ mf, b ≤ 1) (N : Nat) (hN : N ≤ 4000)
    (hnp1 : 1 ≤ ce.num_polys)
    (hsymlt : ∀ n, n < N → enc_symbol (setup_convcode2 ce) mf n < 2 ^ ce.num_polys)
    (hcap : N + ce.num_polys ≤ ce.trellis_size) (st : decstate)
    (hlb : st.leftover_bits = 0) (h1 : st.ctrellis = 0)
    (h2 : st.curr_path_values.getD 0 0 = 0)
    (h3 : ∀ i, i < ce.num_states → i ≠ 0 → 1 ≤ st.curr_path_values.getD i 0)
    (h4 : ∀ i, i < ce.num_states → st.curr_path_values.getD i 0 ≤ 2147483647) :
    (convdecode_data ce (setup_convcode2 ce) st
        (bits_to_bytes (coded_stream (setup_convcode2 ce) mf ce.num_polys N))
        (N * ce.num_polys) none).1 = 0 ∧
    (convdecode_data ce (setup_convcode2 ce) st
        (bits_to_bytes (coded_stream (setup_convcode2 ce) mf ce.num_polys N))
        (N * ce.num_polys) none).2.ctrellis = N ∧
    (convdecode_data ce (setup_convcode2 ce) st
        (bits_to_bytes (coded_stream (setup_convcode2 ce) mf ce.num_polys N))
        (N * ce.num_polys) none).2.curr_path_values.getD
      (enc_state_seq (setup_convcode2 ce) mf N) 0 = 0 ∧
    (∀ i, i < ce.num_states → i ≠ enc_state_seq (setup_convcode2 ce) mf N →
      1 ≤ (convdecode_data ce (setup_convcode2 ce) st
        (bits_to_bytes (coded_stream (setup_convcode2 ce) mf ce.num_polys N))
        (N * ce.num_polys) none).2.curr_path_values.getD i 0) ∧
    (∀ i, i < ce.num_states →
      (convdecode_data ce (setup_convcode2 ce) st
        (bits_to_bytes (coded_stream (setup_convcode2 ce) mf ce.num_polys N))
        (N * ce.num_polys) none).2.curr_path_values.getD i 0
        ≤ 2147483647 + 32 * N) ∧
    (∀ τ, τ < N →
      (convdecode_data ce (setup_convcode2 ce) st
        (bits_to_bytes (coded_stream (setup_convcode2 ce) mf ce.num_polys N))
        (N * ce.num_polys) none).2.trellis
        (trellis_index ce τ (enc_state_seq (setup_convcode2 ce) mf (τ + 1)))
        = enc_state_seq (setup_convcode2 ce) mf τ) ∧
    (convdecode_data ce (setup_convcode2 ce) st
        (bits_to_bytes (coded_stream (setup_convcode2 ce) mf ce.num_polys N))
        (N * ce.num_polys) none).2.dec_out = st.dec_out ∧
    (convdecode_data ce (setup_convcode2 ce) st
        (bits_to_bytes (coded_stream (setup_convcode2 ce) mf ce.num_polys N))
        (N * ce.num_polys) none).2.leftover_bits = 0 := by
  have hNf : N ≤ N * ce.num_polys + 1 := by
    have := Nat.le_mul_of_pos_right N hnp1
    omega
  have hrun := convdecode_main_run ce hk hS hsep hcsep hcv32 mf hmf N hN hnp1 hsymlt
    hcap N (N * ce.num_polys + 1) 0 st hNf (by omega) h1 h2
    (fun i hi hne => h3 i hi hne)
    (fun i hi => by have := h4 i hi; omega)
  rw [Nat.zero_mul] at hrun
  obtain ⟨hm1, hm2, hm3, hm4, hm5, hm6, hm7, hm8, hm9, hm10, hm11⟩ := hrun
  have hlred : convdecode_leftover ce (setup_convcode2 ce) st
      (bits_to_bytes (coded_stream (setup_convcode2 ce) mf ce.num_polys N))
      (N * ce.num_polys) none
      = (st, 0, N * ce.num_polys, false) := by
    unfold convdecode_leftover
    rw [if_pos hlb]
  have hA : convdecode_data ce (setup_convcode2 ce) st
      (bits_to_bytes (coded_stream (setup_convcode2 ce) mf ce.num_polys N))
      (N * ce.num_polys) none
      = (if (convdecode_main (N * ce.num_polys + 1) ce (setup_convcode2 ce) st
            (bits_to_bytes (coded_stream (setup_convcode2 ce) mf ce.num_polys N))
            0 (N * ce.num_polys) none).1 ≠ 0 then
          ((convdecode_main (N * ce.num_polys + 1) ce (setup_convcode2 ce) st
            (bits_to_bytes (coded_stream (setup_convcode2 ce) mf ce.num_polys N))
            0 (N * ce.num_polys) none).1,
           (convdecode_main (N * ce.num_polys + 1) ce (setup_convcode2 ce) st
            (bits_to_bytes (coded_stream (setup_convcode2 ce) mf ce.num_polys N))
            0 (N * ce.num_polys) none).2.1)
        else (0, convdecode_stash
          (convdecode_main (N * ce.num_polys + 1) ce (setup_convcode2 ce) st
            (bits_to_bytes (coded_stream (setup_convcode2 ce) mf ce.num_polys N))
            0 (N * ce.num_polys) none).2.1
          (bits_to_bytes (coded_stream (setup_convcode2 ce) mf ce.num_polys N))
          (convdecode_main (N * ce.num_polys + 1) ce (setup_convcode2 ce) st
            (bits_to_bytes (coded_stream (setup_convcode2 ce) mf ce.num_polys N))
            0 (N * ce.num_polys) none).2.2.1
          (convdecode_main (N * ce.num_polys + 1) ce (setup_convcode2 ce) st
            (bits_to_bytes (coded_stream (setup_convcode2 ce) mf ce.num_polys N))
            0 (N * ce.num_polys) none).2.2.2 none)) := by
    unfold convdecode_data
    rw [hlred]
    rfl
  rw [hA, hm1]
  rw [if_neg (by omega : ¬ (0 : Nat) ≠ 0), hm2, hm3]
  have hstash : convdecode_stash
      (convdecode_main (N * ce.num_polys + 1) ce (setup_convcode2 ce) st
        (bits_to_bytes (coded_stream (setup_convcode2 ce) mf ce.num_polys N))
        0 (N * ce.num_polys) none).2.1
      (bits_to_bytes (coded_stream (setup_convcode2 ce) mf ce.num_polys N))
      (N * ce.num_polys) 0 none
      = { (convdecode_main (N * ce.num_polys + 1) ce (setup_convcode2 ce) st
            (bits_to_bytes (coded_stream (setup_convcode2 ce) mf ce.num_polys N))
            0 (N * ce.num_polys) none).2.1 with leftover_bits := 0 } := by
    unfold convdecode_stash
    rw [if_pos rfl]
  rw [hstash]
  exact ⟨rfl, hm4, hm5, hm6, hm7, fun τ hτ => hm8 τ hτ (Nat.zero_le τ), hm10, rfl⟩

/-- Once the running minimum of the `find_min` scan is 0 it can never be
beaten (the metrics are unsigned). -/
theorem find_min_zero : ∀ n curr i cstate,
    find_min n curr i cstate 0 = (cstate, 0) := by
  intro n
  induction n with
  | zero => intro curr i cstate; rfl
  | succ m ih =>
    intro curr i cstate
    show (if curr.getD i 0 < 0 then _ else find_min m curr (i + 1) cstate 0) = _
    rw [if_neg (Nat.not_lt_zero _)]
    exact ih curr (i + 1) cstate

/-- If the scan range contains a position `z` holding 0 while every other
scanned value and the running minimum are at least 1, `find_min` returns
`(z, 0)`. -/
theorem find_min_reach (z0 : Nat) : ∀ n curr i cstate mv, 1 ≤ mv →
    (∀ p, i ≤ p → p < i + n → p ≠ z0 → 1 ≤ curr.getD p 0) →
    curr.getD z0 0 = 0 → i ≤ z0 → z0 < i + n →
    find_min n curr i cstate mv = (z0, 0) := by
  intro n
  induction n with
  | zero => intro curr i cstate mv h1 h2 h3 h4 h5; omega
  | succ m ih =>
    intro curr i cstate mv h1 h2 h3 h4 h5
    by_cases hiz : i = z0
    · subst hiz
      show (if curr.getD i 0 < mv then find_min m curr (i + 1) i (curr.getD i 0)
            else _) = _
      rw [if_pos (by omega : curr.getD i 0 < mv), h3]
      exact find_min_zero m curr (i + 1) i
    · have hi5 : z0 < i + 1 + m := by omega
      have hi4 : i + 1 ≤ z0 := by omega
      have h2i : 1 ≤ curr.getD i 0 := h2 i (le_refl i) (by omega) hiz
      have h2r : ∀ p, i + 1 ≤ p → p < i + 1 + m → p ≠ z0 → 1 ≤ curr.getD p 0 :=
        fun p hp1 hp2 hp3 => h2 p (by omega) (by omega) hp3
      show (if curr.getD i 0 < mv then find_min m curr (i + 1) i (curr.getD i 0)
            else find_min m curr (i + 1) cstate mv) = _
      by_cases hlt : curr.getD i 0 < mv
      · rw [if_pos hlt]
        exact ih curr (i + 1) i (curr.getD i 0) h2i h2r h3 hi4 hi5
      · rw [if_neg hlt]
        exact ih curr (i + 1) cstate mv h1 h2r h3 hi4 hi5

/-- The minimum-path scan of `convdecode_finish` on a metric buffer whose
unique zero sits at state `z` picks exactly `(z, 0)`. -/
theorem find_min_unique_zero (S : Nat) (curr : List Nat) (z : Nat)
    (hS1 : 1 ≤ S) (hz : z < S) (hcz : curr.getD z 0 = 0)
    (hother : ∀ i, i < S → i ≠ z → 1 ≤ curr.getD i 0) :
    find_min (S - 1) curr 1 0 (curr.getD 0 0) = (z, 0) := by
  by_cases hz0 : z = 0
  · subst hz0
    rw [hcz]
    exact find_min_zero (S - 1) curr 1 0
  · exact find_min_reach z (S - 1) curr 1 0 (curr.getD 0 0)
      (hother 0 (by omega) (fun h => hz0 h.symm))
      (fun p hp1 hp2 hpz => hother p (by omega) hpz) hcz (by omega) (by omega)

/-- The traceback loop from the true terminal state: it walks the recorded
predecessors back to the start state and stores, in row 0 of each column, the
branch bit of the true transition of that column. -/
theorem traceback_run (ce : convcode) (t : tables) (mf : List Nat)
    (hS1 : 1 ≤ ce.num_states)
    (hts : ∀ τ, enc_state_seq t mf τ < ce.num_states) :
    ∀ N tr, (∀ τ, τ < N → tr (trellis_index ce τ (enc_state_seq t mf (τ + 1)))
      = enc_state_seq t mf τ) →
    (traceback_loop N ce t tr (enc_state_seq t mf N)).2 = 0 ∧
    (∀ j, j < N → (traceback_loop N ce t tr (enc_state_seq t mf N)).1
        (trellis_index ce j 0)
      = get_prev_bit ce t (enc_state_seq t mf j) (enc_state_seq t mf (j + 1))) ∧
    (∀ a, (∀ j, j < N → a ≠ trellis_index ce j 0) →
      (traceback_loop N ce t tr (enc_state_seq t mf N)).1 a = tr a) := by
  intro N
  induction N with
  | zero => exact fun tr _ => ⟨rfl, fun j hj => absurd hj (by omega), fun a _ => rfl⟩
  | succ n ih =>
    intro tr hrec
    have hread : tr (trellis_index ce n (enc_state_seq t mf (n + 1)))
        = enc_state_seq t mf n := hrec n (by omega)
    have hloop : traceback_loop (n + 1) ce t tr (enc_state_seq t mf (n + 1))
        = traceback_loop n ce t
            (Function.update tr (trellis_index ce n 0)
              (get_prev_bit ce t (enc_state_seq t mf n) (enc_state_seq t mf (n + 1))))
            (enc_state_seq t mf n) := by
      show traceback_loop n ce t
          (Function.update tr (trellis_index ce n 0)
            (get_prev_bit ce t (tr (trellis_index ce n (enc_state_seq t mf (n + 1))))
              (enc_state_seq t mf (n + 1))))
          (tr (trellis_index ce n (enc_state_seq t mf (n + 1)))) = _
      rw [hread]
    have hrec2 : ∀ τ, τ < n →
        Function.update tr (trellis_index ce n 0)
          (get_prev_bit ce t (enc_state_seq t mf n) (enc_state_seq t mf (n + 1)))
          (trellis_index ce τ (enc_state_seq t mf (τ + 1)))
        = enc_state_seq t mf τ := by
      intro τ hτ
      rw [Function.update_noteq
        (trellis_index_col_lt ce hS1 τ n (enc_state_seq t mf (τ + 1)) 0 hτ
          (hts (τ + 1)))]
      exact hrec τ (by omega)
    obtain ⟨hi1, hi2, hi3⟩ := ih _ hrec2
    rw [hloop]
    refine ⟨hi1, ?_, ?_⟩
    · intro j hj
      by_cases hjn : j = n
      · subst hjn
        rw [hi3 (trellis_index ce j 0)
          (fun c hc => (trellis_index_col_lt ce hS1 c j 0 0 hc hS1).symm)]
        exact Function.update_same _ _ _
      · exact hi2 j (by omega)
    · intro a hane
      rw [hi3 a (fun j hj => hane j (by omega))]
      exact Function.update_noteq (hane n (by omega)) _ _

/-- The forward replay loop: emitting one stored bit per column appends
exactly those bits to the output stream and preserves the packing
invariants. -/
theorem replay_run (ce : convcode) (tr : Nat → Nat) :
    ∀ n i out, (∀ j, i ≤ j → j < i + n → tr (trellis_index ce j 0) ≤ 1) →
    out.output_symbol_size = false → out.out_bit_pos < 8 →
    out.out_bits < 2 ^ out.out_bit_pos →
    out_stream (replay_loop n ce tr out i)
      = out_stream out ++ (List.range n).map (fun j => tr (trellis_index ce (i + j) 0)) ∧
    (replay_loop n ce tr out i).output_symbol_size = false ∧
    (replay_loop n ce tr out i).out_bit_pos < 8 ∧
    (replay_loop n ce tr out i).out_bits < 2 ^ (replay_loop n ce tr out i).out_bit_pos := by
  intro n
  induction n with
  | zero =>
    intro i out hv hsym hpos hob
    exact ⟨by rw [List.range_zero, List.map_nil, List.append_nil]; rfl, hsym, hpos, hob⟩
  | succ m ih =>
    intro i out hv hsym hpos hob
    have hvi : tr (trellis_index ce i 0) ≤ 1 := hv i (le_refl i) (by omega)
    obtain ⟨ho1, ho2, ho3, ho4⟩ := output_bits_stream out (tr (trellis_index ce i 0)) 1
      hsym hpos hob (by omega)
    have hv2 : ∀ j, i + 1 ≤ j → j < i + 1 + m → tr (trellis_index ce j 0) ≤ 1 :=
      fun j h1 h2 => hv j (by omega) (by omega)
    obtain ⟨hr1, hr2, hr3, hr4⟩ :=
      ih (i + 1) (output_bits out (tr (trellis_index ce i 0)) 1) hv2 ho4 ho2 ho3
    show out_stream (replay_loop m ce tr
        (output_bits out (tr (trellis_index ce i 0)) 1) (i + 1)) = _ ∧ _
    rw [hr1, ho1, le_bits_one _ hvi, List.append_assoc]
    refine ⟨?_, hr2, hr3, hr4⟩
    have hmap : (List.range (m + 1)).map (fun j => tr (trellis_index ce (i + j) 0))
        = tr (trellis_index ce i 0)
          :: (List.range m).map (fun j => tr (trellis_index ce (i + 1 + j) 0)) := by
      rw [List.range_succ_eq_map, List.map_cons, List.map_map]
      show tr (trellis_index ce (i + 0) 0) :: _ = _
      rw [Nat.add_zero]
      refine congrArg _ ?_
      apply List.map_congr_left
      intro j hj
      show tr (trellis_index ce (i + (j + 1)) 0) = tr (trellis_index ce (i + 1 + j) 0)
      rw [show i + (j + 1) = i + 1 + j from by omega]
    rw [hmap]
    rfl

/-- `convdecode_finish` after a clean pass over the noiseless stream: the
minimum search lands on the true terminal state with metric 0, traceback and
replay emit the first `ctrellis - extra_bits` branch bits of the true path,
and `num_errs = 0`. -/
theorem convdecode_finish_run (ce : convcode) (t : tables) (mf : List Nat)
    (N : Nat) (hS1 : 1 ≤ ce.num_states)
    (hts : ∀ τ, enc_state_seq t mf τ < ce.num_states)
    (hgpb : ∀ j, get_prev_bit ce t (enc_state_seq t mf j) (enc_state_seq t mf (j + 1))
      = mf.getD j 0)
    (hmfle : ∀ j, mf.getD j 0 ≤ 1) (st2 : decstate)
    (hc2 : st2.ctrellis = N)
    (hz : st2.curr_path_values.getD (enc_state_seq t mf N) 0 = 0)
    (hpos : ∀ i, i < ce.num_states → i ≠ enc_state_seq t mf N →
      1 ≤ st2.curr_path_values.getD i 0)
    (hrecs : ∀ τ, τ < N → st2.trellis (trellis_index ce τ (enc_state_seq t mf (τ + 1)))
      = enc_state_seq t mf τ)
    (hout : st2.dec_out = out_init) :
    emitted_bits (convdecode_finish ce t st2).1.dec_out.emitted
      = (List.range (N - (if ce.do_tail then ce.k - 1 else 0))).map
          (fun j => mf.getD j 0) ∧
    (convdecode_finish ce t st2).2.2 = 0 := by
  have hmv := find_min_unique_zero ce.num_states st2.curr_path_values
    (enc_state_seq t mf N) hS1 (hts N) hz hpos
  have hmv1 : (find_min (ce.num_states - 1) st2.curr_path_values 1 0
      (st2.curr_path_values.getD 0 0)).1 = enc_state_seq t mf N := by
    rw [hmv]
  have hmv2 : (find_min (ce.num_states - 1) st2.curr_path_values 1 0
      (st2.curr_path_values.getD 0 0)).2 = 0 := by
    rw [hmv]
  obtain ⟨ht1, ht2, ht3⟩ := traceback_run ce t mf hS1 hts N st2.trellis hrecs
  have hv : ∀ j, 0 ≤ j → j < 0 + (N - (if ce.do_tail then ce.k - 1 else 0)) →
      (traceback_loop N ce t st2.trellis (enc_state_seq t mf N)).1
        (trellis_index ce j 0) ≤ 1 := by
    intro j hj1 hj2
    rw [ht2 j (by omega), hgpb j]
    exact hmfle j
  obtain ⟨hr1, hr2, hr3, hr4⟩ := replay_run ce
    (traceback_loop N ce t st2.trellis (enc_state_seq t mf N)).1
    (N - (if ce.do_tail then ce.k - 1 else 0)) 0 out_init hv rfl
    (by decide) (by decide)
  have hdo : (convdecode_finish ce t st2).1.dec_out =
      (if (replay_loop (st2.ctrellis - (if ce.do_tail then ce.k - 1 else 0)) ce
            (traceback_loop st2.ctrellis ce t st2.trellis
              (find_min (ce.num_states - 1) st2.curr_path_values 1 0
                (st2.curr_path_values.getD 0 0)).1).1
            st2.dec_out 0).out_bit_pos > 0 then
        output_call
          (replay_loop (st2.ctrellis - (if ce.do_tail then ce.k - 1 else 0)) ce
            (traceback_loop st2.ctrellis ce t st2.trellis
              (find_min (ce.num_states - 1) st2.curr_path_values 1 0
                (st2.curr_path_values.getD 0 0)).1).1
            st2.dec_out 0)
          (replay_loop (st2.ctrellis - (if ce.do_tail then ce.k - 1 else 0)) ce
            (traceback_loop st2.ctrellis ce t st2.trellis
              (find_min (ce.num_states - 1) st2.curr_path_values 1 0
                (st2.curr_path_values.getD 0 0)).1).1
            st2.dec_out 0).out_bits
          (replay_loop (st2.ctrellis - (if ce.do_tail then ce.k - 1 else 0)) ce
            (traceback_loop st2.ctrellis ce t st2.trellis
              (find_min (ce.num_states - 1) st2.curr_path_values 1 0
                (st2.curr_path_values.getD 0 0)).1).1
            st2.dec_out 0).out_bit_pos
      else
        (replay_loop (st2.ctrellis - (if ce.do_tail then ce.k - 1 else 0)) ce
          (traceback_loop st2.ctrellis ce t st2.trellis
            (find_min (ce.num_states - 1) st2.curr_path_values 1 0
              (st2.curr_path_values.getD 0 0)).1).1
          st2.dec_out 0)) := rfl
  constructor
  · rw [hdo, hc2, hmv1, hout, flush_emitted, hr1]
    rw [show out_stream out_init = [] from rfl, List.nil_append]
    apply List.map_congr_left
    intro j hj
    have hjlt : j < N - (if ce.do_tail then ce.k - 1 else 0) := List.mem_range.mp hj
    show (traceback_loop N ce t st2.trellis (enc_state_seq t mf N)).1
      (trellis_index ce (0 + j) 0) = mf.getD j 0
    rw [Nat.zero_add, ht2 j (by omega), hgpb j]
  · show (find_min (ce.num_states - 1) st2.curr_path_values 1 0
      (st2.curr_path_values.getD 0 0)).2 = 0
    exact hmv2

/-- A full decode session over the noiseless reference stream of message `m`
(tail bits appended when `do_tail`) recovers `m` exactly, with `num_errs = 0`
and status 0. -/
theorem run_decode_noiseless (ce : convcode) (hk : 2 ≤ ce.k) (hk16 : ce.k ≤ 16)
    (hS : ce.num_states = 2 ^ (ce.k - 1)) (hnp1 : 1 ≤ ce.num_polys)
    (hnp32 : ce.num_polys ≤ 32)
    (hP32 : ∀ j, ce.polys j < 2 ^ 32)
    (hP0odd : ce.recursive = true → ce.polys 0 % 2 = 1)
    (hodd : ce.recursive = false → ∃ j, j < ce.num_polys ∧ ce.polys j % 2 = 1)
    (m : List Nat) (hm : ∀ b ∈ m, b ≤ 1) (hml : m.length ≤ 32)
    (hcap : 32 + ce.k + ce.num_polys ≤ ce.trellis_size) :
    run_decode ce (setup_convcode2 ce)
      (coded_stream (setup_convcode2 ce)
        (m ++ List.replicate (if ce.do_tail then ce.k - 1 else 0) 0)
        ce.num_polys (m.length + (if ce.do_tail then ce.k - 1 else 0)))
      = (m, 0, 0) := by
  have hS1 : 1 ≤ ce.num_states := by
    rw [hS]
    exact Nat.pos_pow_of_pos _ (by omega)
  have hextra : (if ce.do_tail then ce.k - 1 else 0) ≤ ce.k - 1 := by
    by_cases h : ce.do_tail <;> simp [h]
  have hmf : ∀ b ∈ m ++ List.replicate (if ce.do_tail then ce.k - 1 else 0) 0,
      b ≤ 1 := by
    intro b hb
    rcases List.mem_append.mp hb with h | h
    · exact hm b h
    · rw [List.eq_of_mem_replicate h]
      omega
  have hcv32 : ∀ b s, b ≤ 1 → (setup_convcode2 ce).convert b s < 2 ^ 32 :=
    fun b s hb => lt_of_lt_of_le (convert_lt ce b s hb hnp1)
      (Nat.pow_le_pow_right (by omega) hnp32)
  have hsep := next_state_sep ce hk hS (fun hrc => ⟨hP0odd hrc, hP32 0⟩)
  have hcsep := convert_sep ce hP32 hodd
  have hts := enc_state_seq_lt ce hk hS
    (m ++ List.replicate (if ce.do_tail then ce.k - 1 else 0) 0) hmf
  have hgpb := recovered_bit ce hk hS hsep
    (m ++ List.replicate (if ce.do_tail then ce.k - 1 else 0) 0) hmf
  have hmfle := getD_le_one
    (m ++ List.replicate (if ce.do_tail then ce.k - 1 else 0) 0) hmf
  have hsymlt : ∀ n, n < m.length + (if ce.do_tail then ce.k - 1 else 0) →
      enc_symbol (setup_convcode2 ce)
        (m ++ List.replicate (if ce.do_tail then ce.k - 1 else 0) 0) n
        < 2 ^ ce.num_polys :=
    fun n _ => convert_lt ce _ _ (hmfle n) hnp1
  have hN4000 : m.length + (if ce.do_tail then ce.k - 1 else 0) ≤ 4000 := by omega
  have hcapN : m.length + (if ce.do_tail then ce.k - 1 else 0) + ce.num_polys
      ≤ ce.trellis_size := by omega
  have hre : reinit_convdecode ce (dec_alloc ce) 0 2147483647
      = (0, { dec_alloc ce with
              dec_out := out_init
              curr_path_values := (List.range ce.num_states).map
                (fun i => if i = 0 then 0 else 2147483647)
              ctrellis := 0
              leftover_bits := 0 }) := by
    unfold reinit_convdecode
    rw [if_neg (by omega : ¬ ce.num_states ≤ 0)]
  have hcurr : (reinit_convdecode ce (dec_alloc ce) 0 2147483647).2.curr_path_values
      = (List.range ce.num_states).map (fun i => if i = 0 then 0 else 2147483647) := by
    rw [hre]
  have h1r : (reinit_convdecode ce (dec_alloc ce) 0 2147483647).2.ctrellis = 0 := by
    rw [hre]
  have hlbr : (reinit_convdecode ce (dec_alloc ce) 0 2147483647).2.leftover_bits = 0 := by
    rw [hre]
  have houtr : (reinit_convdecode ce (dec_alloc ce) 0 2147483647).2.dec_out = out_init := by
    rw [hre]
  have h2r : (reinit_convdecode ce (dec_alloc ce) 0 2147483647).2.curr_path_values.getD
      0 0 = 0 := by
    rw [hcurr, map_range_getD _ _ _ (by omega : 0 < ce.num_states), if_pos rfl]
  have h3r : ∀ i, i < ce.num_states → i ≠ 0 →
      1 ≤ (reinit_convdecode ce (dec_alloc ce) 0 2147483647).2.curr_path_values.getD
        i 0 := by
    intro i hi hne
    rw [hcurr, map_range_getD _ _ _ hi, if_neg hne]
    omega
  have h4r : ∀ i, i < ce.num_states →
      (reinit_convdecode ce (dec_alloc ce) 0 2147483647).2.curr_path_values.getD i 0
        ≤ 2147483647 := by
    intro i hi
    rw [hcurr, map_range_getD _ _ _ hi]
    by_cases hi0 : i = 0
    · rw [if_pos hi0]
      omega
    · rw [if_neg hi0]
  have hdata := convdecode_data_run ce hk hS hsep hcsep hcv32
    (m ++ List.replicate (if ce.do_tail then ce.k - 1 else 0) 0) hmf
    (m.length + (if ce.do_tail then ce.k - 1 else 0)) hN4000 hnp1 hsymlt hcapN
    (reinit_convdecode ce (dec_alloc ce) 0 2147483647).2 hlbr h1r h2r h3r h4r
  obtain ⟨hd1, hd2, hd3, hd4, hd5, hd6, hd7, hd8⟩ := hdata
  obtain ⟨hf1, hf2⟩ := convdecode_finish_run ce (setup_convcode2 ce)
    (m ++ List.replicate (if ce.do_tail then ce.k - 1 else 0) 0)
    (m.length + (if ce.do_tail then ce.k - 1 else 0)) hS1 hts hgpb hmfle
    (convdecode_data ce (setup_convcode2 ce)
      (reinit_convdecode ce (dec_alloc ce) 0 2147483647).2
      (bits_to_bytes (coded_stream (setup_convcode2 ce)
        (m ++ List.replicate (if ce.do_tail then ce.k - 1 else 0) 0)
        ce.num_polys (m.length + (if ce.do_tail then ce.k - 1 else 0))))
      ((m.length + (if ce.do_tail then ce.k - 1 else 0)) * ce.num_polys) none).2
    hd2 hd3 hd4 hd6 (by rw [hd7, houtr])
  have hlen : (coded_stream (setup_convcode2 ce)
      (m ++ List.replicate (if ce.do_tail then ce.k - 1 else 0) 0)
      ce.num_polys (m.length + (if ce.do_tail then ce.k - 1 else 0))).length
      = (m.length + (if ce.do_tail then ce.k - 1 else 0)) * ce.num_polys :=
    coded_stream_length _ _ _ _
  show (emitted_bits (convdecode_finish ce (setup_convcode2 ce)
      (convdecode_data ce (setup_convcode2 ce)
        (reinit_convdecode ce (dec_alloc ce) 0 2147483647).2
        (bits_to_bytes (coded_stream (setup_convcode2 ce)
          (m ++ List.replicate (if ce.do_tail then ce.k - 1 else 0) 0)
          ce.num_polys (m.length + (if ce.do_tail then ce.k - 1 else 0))))
        (coded_stream (setup_convcode2 ce)
          (m ++ List.replicate (if ce.do_tail then ce.k - 1 else 0) 0)
          ce.num_polys (m.length + (if ce.do_tail then ce.k - 1 else 0))).length
        none).2).1.dec_out.emitted,
     (convdecode_finish ce (setup_convcode2 ce)
      (convdecode_data ce (setup_convcode2 ce)
        (reinit_convdecode ce (dec_alloc ce) 0 2147483647).2
        (bits_to_bytes (coded_stream (setup_convcode2 ce)
          (m ++ List.replicate (if ce.do_tail then ce.k - 1 else 0) 0)
          ce.num_polys (m.length + (if ce.do_tail then ce.k - 1 else 0))))
        (coded_stream (setup_convcode2 ce)
          (m ++ List.replicate (if ce.do_tail then ce.k - 1 else 0) 0)
          ce.num_polys (m.length + (if ce.do_tail then ce.k - 1 else 0))).length
        none).2).2.2,
     (convdecode_data ce (setup_convcode2 ce)
        (reinit_convdecode ce (dec_alloc ce) 0 2147483647).2
        (bits_to_bytes (coded_stream (setup_convcode2 ce)
          (m ++ List.replicate (if ce.do_tail then ce.k - 1 else 0) 0)
          ce.num_polys (m.length + (if ce.do_tail then ce.k - 1 else 0))))
        (coded_stream (setup_convcode2 ce)
          (m ++ List.replicate (if ce.do_tail then ce.k - 1 else 0) 0)
          ce.num_polys (m.length + (if ce.do_tail then ce.k - 1 else 0))).length
        none).1) = (m, 0, 0)
  rw [hlen, hf1, hf2, hd1]
  have hNe : m.length + (if ce.do_tail then ce.k - 1 else 0)
      - (if ce.do_tail then ce.k - 1 else 0) = m.length := by omega
  rw [hNe]
  have hmap : (List.range m.length).map
      (fun j => (m ++ List.replicate (if ce.do_tail then ce.k - 1 else 0) 0).getD j 0)
      = m := by
    have hcong : (List.range m.length).map
        (fun j => (m ++ List.replicate (if ce.do_tail then ce.k - 1 else 0) 0).getD j 0)
        = (List.range m.length).map (fun j => m.getD j 0) := by
      apply List.map_congr_left
      intro j hj
      exact List.getD_append _ _ _ j (List.mem_range.mp hj)
    rw [hcong, map_getD_self]
  rw [hmap]

/-- Noiseless round trip for any configuration whose decidable side
conditions hold: encode-then-decode returns the message, `num_errs = 0` and
status 0. -/
theorem noiseless_round_trip (k : Nat) (polys : List Nat) (dt rc : Bool)
    (m : List Nat) (hm : ∀ b ∈ m, b ≤ 1) (hml : m.length ≤ 32)
    (hk : 2 ≤ (mk_code k polys 128 dt rc).k)
    (hk16 : (mk_code k polys 128 dt rc).k ≤ 16)
    (hS : (mk_code k polys 128 dt rc).num_states
      = 2 ^ ((mk_code k polys 128 dt rc).k - 1))
    (hnp1 : 1 ≤ (mk_code k polys 128 dt rc).num_polys)
    (hnp32 : (mk_code k polys 128 dt rc).num_polys ≤ 32)
    (hpl1 : 1 ≤ polys.length) (hpl16 : polys.length ≤ 16)
    (hkk : k ≤ 16) (hk1 : 1 ≤ k)
    (hP0odd : (mk_code k polys 128 dt rc).recursive = true →
      (mk_code k polys 128 dt rc).polys 0 % 2 = 1)
    (hodd : (mk_code k polys 128 dt rc).recursive = false →
      ∃ j, j < (mk_code k polys 128 dt rc).num_polys ∧
        (mk_code k polys 128 dt rc).polys j % 2 = 1)
    (hcap : 32 + (mk_code k polys 128 dt rc).k + (mk_code k polys 128 dt rc).num_polys
      ≤ (mk_code k polys 128 dt rc).trellis_size) :
    round_trip k polys dt rc m = (m, 0, 0) := by
  have hP32 : ∀ j, (mk_code k polys 128 dt rc).polys j < 2 ^ 32 := by
    intro j
    have h := setup_polys_lt k polys polys.length 128 dt rc hpl1 hpl16 hkk hk1 j
    have h2 : (2 : Nat) ^ k ≤ 2 ^ 32 := Nat.pow_le_pow_right (by omega) (by omega)
    rw [mk_code_eq]
    omega
  have henc := run_encode_stream (mk_code k polys 128 dt rc)
    (setup_convcode2 (mk_code k polys 128 dt rc)) m hm
    (fun b s hb => convert_lt (mk_code k polys 128 dt rc) b s hb hnp1)
  show run_decode (mk_code k polys 128 dt rc)
    (setup_convcode2 (mk_code k polys 128 dt rc))
    (emitted_bits (run_encode (mk_code k polys 128 dt rc)
      (setup_convcode2 (mk_code k polys 128 dt rc)) m).1.enc_out.emitted) = (m, 0, 0)
  rw [henc]
  exact run_decode_noiseless (mk_code k polys 128 dt rc) hk hk16 hS hnp1 hnp32 hP32
    hP0odd hodd m hm hml hcap

end Convcode

namespace Convcode

/-- C1: for every polynomial set in the `run_tests` corpus, both `do_tail`
settings, and every 0/1 message of length 8 to 32, the noiseless
encode-then-decode session (`convencode_data`/`convencode_finish`, then
`convdecode_data`/`convdecode_finish` with default start states and
`max_decode_len_bits = 128`) returns exactly the message with
`num_errs = 0` and decode status 0. -/
theorem c1_round_trip (cfg : Nat × List Nat × Bool) (hcfg : cfg ∈ test_polys)
    (dt : Bool) (m : List Nat) (hlen8 : 8 ≤ m.length) (hlen32 : m.length ≤ 32)
    (hbits : ∀ b ∈ m, b ≤ 1) :
    round_trip cfg.1 cfg.2.1 dt cfg.2.2 m = (m, 0, 0) := by
  simp only [test_polys, List.mem_cons, List.not_mem_nil, or_false] at hcfg
  rcases hcfg with rfl | rfl | rfl | rfl | rfl | rfl | rfl | rfl | rfl | rfl <;>
    cases dt <;>
    exact noiseless_round_trip _ _ _ _ m hbits hlen32 (by decide) (by decide)
      (by decide) (by decide) (by decide) (by decide) (by decide) (by decide)
      (by decide) (by decide) (by decide) (by decide)

/-- Witness for C1: corpus entry `(3, {5,7})`, non-recursive,
`do_tail = true`, message `01101000`. -/
theorem c1_round_trip_check :
    round_trip 3 [5, 7] true false [0, 1, 1, 0, 1, 0, 0, 0]
      = ([0, 1, 1, 0, 1, 0, 0, 0], 0, 0) :=
  c1_round_trip (3, [5, 7], false) (by decide) true [0, 1, 1, 0, 1, 0, 0, 0]
    (by decide) (by decide) (by decide)

/-- C9: with `k = 3`, polynomials `{5, 7}`, `do_tail = true`, non-recursive,
default start states, encoding the bit string `010111001010001` (LSB-first)
produces exactly `0011010010011011110100011100110111`, and decoding that
output back produces exactly `010111001010001` with `num_errs = 0` (and
decode status 0). -/
theorem c9_test_vectors :
    emitted_bits (run_encode s9_code s9_tables s9_msg).1.enc_out.emitted = s9_coded ∧
    run_decode s9_code s9_tables s9_coded = (s9_msg, 0, 0) := by
  constructor
  · decide
  · have hP32 : ∀ j, s9_code.polys j < 2 ^ 32 := by
      intro j
      have h := setup_polys_lt 3 [5, 7] 2 128 true false (by decide) (by decide)
        (by decide) (by decide) j
      have h2 : (2 : Nat) ^ 3 ≤ 2 ^ 32 := by decide
      show (setup_code 3 [5, 7] 2 128 true false).polys j < 2 ^ 32
      omega
    have hcs : s9_coded = coded_stream (setup_convcode2 s9_code)
        (s9_msg ++ List.replicate (if s9_code.do_tail then s9_code.k - 1 else 0) 0)
        s9_code.num_polys
        (s9_msg.length + (if s9_code.do_tail then s9_code.k - 1 else 0)) := by
      decide
    show run_decode s9_code (setup_convcode2 s9_code) s9_coded = (s9_msg, 0, 0)
    rw [hcs]
    exact run_decode_noiseless s9_code (by decide) (by decide) (by decide) (by decide)
      (by decide) hP32 (by decide) (by decide) s9_msg (by decide) (by decide)
      (by decide)

end Convcode
